import Mathlib

/-!
# Verification of the byteflight-data-provider normalization pipelines

Shallow embedding of the per-source normalization pipelines of the
byteflight-data-provider repository (aerodrome, navaid, METAR and NOTAM
providers) together with the shared scalar parsers, and proofs of the
specification claims about them.

Strings are modelled as Lean `String`/`List Char`; JavaScript numbers are
modelled as exact rationals (`Rat`) or integers (`Int`); `undefined` is
modelled as `Option`; a thrown exception is modelled with `Except`.
Timestamps are modelled as minutes since the Unix epoch in UTC.
-/

/-! ## Character classes (models of the JavaScript regex classes) -/

/-- Model of the JavaScript regex class `\d` (ASCII digits). -/
def isDigitC (c : Char) : Bool := c.isDigit

/-- Model of the JavaScript regex class `\s`, restricted to the ASCII
whitespace characters that can occur in the modelled inputs. -/
def isSpaceC (c : Char) : Bool :=
  c == ' ' || c == '\t' || c == '\n' || c == '\r' || c == '\x0b' || c == '\x0c'

/-- Model of the JavaScript regex word-character class `\w` = `[A-Za-z0-9_]`,
which defines the word boundaries `\b`. -/
def isWordC (c : Char) : Bool := c.isAlpha || c.isDigit || c == '_'

theorem isSpaceC_eq_false_of_isDigitC (c : Char) (h : isDigitC c = true) :
    isSpaceC c = false := by
  simp only [isSpaceC, Bool.or_eq_false_iff, beq_eq_false_iff_ne, ne_eq]
  refine ⟨⟨⟨⟨⟨?_, ?_⟩, ?_⟩, ?_⟩, ?_⟩, ?_⟩ <;>
    rintro rfl <;> simp [isDigitC, Char.isDigit] at h

/-- Decimal value of a digit string, as produced by JavaScript `parseInt(_, 10)`. -/
def digitsToNat (ds : List Char) : Nat :=
  ds.foldl (fun a c => 10 * a + (c.toNat - '0'.toNat)) 0

/-! ## Model of ECMAScript `Date.UTC`

`Date.UTC(year, monthIndex, day, hours, minutes)` normalizes out-of-range
components by rolling them over into adjacent months/days (ECMAScript
`MakeDay`/`MakeTime`).  We model the resulting timestamp in minutes since
the Unix epoch.  `civilDays` is the standard days-from-civil calculation
for a calendar month `1 ≤ m ≤ 12`. -/

/-- Days from the Unix epoch (1970-01-01) to the civil date `y-m-d`
(`m` between 1 and 12; `d` may exceed the month length, in which case the
date rolls over, matching ECMAScript `MakeDay`). -/
def civilDays (y m d : Int) : Int :=
  let y' := if m ≤ 2 then y - 1 else y
  let era := Int.fdiv y' 400
  let yoe := y' - era * 400
  let mp := Int.fmod (m + 9) 12
  let doy := Int.fdiv (153 * mp + 2) 5 + d - 1
  let doe := yoe * 365 + Int.fdiv yoe 4 - Int.fdiv yoe 100 + doy
  era * 146097 + doe - 719468

/-- ECMAScript `MakeDay`: the month index may lie outside `0..11` and rolls
over into adjacent years. -/
def makeDay (y mIdx d : Int) : Int :=
  let ym := y + Int.fdiv mIdx 12
  let mn := Int.fmod mIdx 12
  civilDays ym (mn + 1) 1 + (d - 1)

/-- ECMAScript `MakeFullYear`: two-digit years are interpreted as 19xx. -/
def fullYear (y : Int) : Int := if 0 ≤ y ∧ y ≤ 99 then y + 1900 else y

/-- Model of `new Date(Date.UTC(y, mIdx, d, h, min)).getTime()`, in minutes
since the Unix epoch. -/
def jsDateUTC (y mIdx d h min : Int) : Int :=
  makeDay (fullYear y) mIdx d * 1440 + h * 60 + min

/-- The UTC timestamp (minutes since the Unix epoch) of the calendar instant
`y-m-d h:min`, for in-range calendar components.  This is the reference
meaning of a textual date "interpreted as UTC". -/
def utcMinutes (y m d h min : Int) : Int :=
  civilDays y m d * 1440 + h * 60 + min

example : civilDays 1970 1 1 = 0 := by decide
example : civilDays 2025 9 11 = 20342 := by decide
example : jsDateUTC 2025 8 11 17 7 = utcMinutes 2025 9 11 17 7 := by decide

/-! ## Scanners used to model the anchored regular expressions -/

/-- Consume exactly `n` digits. -/
def takeExactDigits : Nat → List Char → Option (List Char × List Char)
  | 0, cs => some ([], cs)
  | _ + 1, [] => none
  | n + 1, c :: cs =>
    if isDigitC c then
      match takeExactDigits n cs with
      | some (ds, rest) => some (c :: ds, rest)
      | none => none
    else none

/-- Consume one literal character. -/
def expectChar (c : Char) : List Char → Option (List Char)
  | [] => none
  | c' :: rest => if c' = c then some rest else none

/-- Consume a maximal non-empty run of whitespace (the regex `\s+`). -/
def skipSpaces1 : List Char → Option (List Char)
  | [] => none
  | c :: rest => if isSpaceC c then some (rest.dropWhile isSpaceC) else none

theorem takeExactDigits_sound {n : Nat} {cs ds rest : List Char}
    (h : takeExactDigits n cs = some (ds, rest)) :
    cs = ds ++ rest ∧ ds.length = n ∧ ds.all isDigitC = true := by
  induction n generalizing cs ds rest with
  | zero =>
    simp only [takeExactDigits, Option.some.injEq, Prod.mk.injEq] at h
    simp [← h.1, ← h.2]
  | succ n ih =>
    match cs with
    | [] => simp [takeExactDigits] at h
    | c :: cs' =>
      simp only [takeExactDigits] at h
      by_cases hc : isDigitC c
      · rw [if_pos hc] at h
        cases htd : takeExactDigits n cs' with
        | none => rw [htd] at h; simp at h
        | some p =>
          obtain ⟨ds', rest'⟩ := p
          rw [htd] at h
          simp only [Option.some.injEq, Prod.mk.injEq] at h
          obtain ⟨h1, h2⟩ := h
          obtain ⟨ha, hb, hd⟩ := ih htd
          subst h2
          simp [← h1, ha, hb, hc, hd]
      · rw [if_neg hc] at h; simp at h

theorem takeExactDigits_complete {n : Nat} {ds : List Char} (rest : List Char)
    (hlen : ds.length = n) (hdig : ds.all isDigitC = true) :
    takeExactDigits n (ds ++ rest) = some (ds, rest) := by
  induction ds generalizing n with
  | nil => subst hlen; simp [takeExactDigits]
  | cons c ds' ih =>
    subst hlen
    simp only [List.all_cons, Bool.and_eq_true] at hdig
    simp [List.length_cons, takeExactDigits, hdig.1, ih rfl hdig.2]

theorem dropWhile_append_of_all {p : Char → Bool} {ws : List Char} (rest : List Char)
    (h : ws.all p = true) : (ws ++ rest).dropWhile p = rest.dropWhile p := by
  induction ws with
  | nil => rfl
  | cons c ws' ih =>
    simp only [List.all_cons, Bool.and_eq_true] at h
    simp [List.dropWhile, h.1, ih h.2]

theorem skipSpaces1_complete {ws : List Char} {c : Char} (rest : List Char)
    (hne : ws ≠ []) (hws : ws.all isSpaceC = true) (hc : isSpaceC c = false) :
    skipSpaces1 (ws ++ c :: rest) = some (c :: rest) := by
  match ws, hne with
  | w :: ws', _ =>
    simp only [List.all_cons, Bool.and_eq_true] at hws
    simp only [List.cons_append, skipSpaces1, hws.1, if_true]
    rw [dropWhile_append_of_all _ hws.2]
    simp [List.dropWhile, hc]

theorem skipSpaces1_sound {cs rest : List Char} (h : skipSpaces1 cs = some rest) :
    ∃ ws, cs = ws ++ rest ∧ ws ≠ [] ∧ ws.all isSpaceC = true := by
  match cs with
  | [] => simp [skipSpaces1] at h
  | c :: cs' =>
    simp only [skipSpaces1] at h
    by_cases hc : isSpaceC c
    · rw [if_pos hc] at h
      simp only [Option.some.injEq] at h
      refine ⟨c :: cs'.takeWhile isSpaceC, ?_, by simp, ?_⟩
      · rw [← h, List.cons_append, List.takeWhile_append_dropWhile]
      · simp only [List.all_cons, hc, Bool.true_and, List.all_eq_true]
        intro x hx
        exact List.mem_takeWhile_imp hx
    · rw [if_neg hc] at h; simp at h

/-! ## NOTAM date parser (`parseNotamDate` from `faa-notam.ts`)

`parseNotamDate` matches the anchored regular expression
`^(\d{2})\/(\d{2})\/(\d{4})\s+(\d{4})$` and, on a match, builds
`new Date(Date.UTC(year, month - 1, day, hours, minutes))` where
`hours`/`minutes` are the first/last two digits of the time group. -/

/-- The anchored regex `^(\d{2})\/(\d{2})\/(\d{4})\s+(\d{4})$` with its four
capture groups. -/
def matchNotamDate (cs : List Char) :
    Option (List Char × List Char × List Char × List Char) :=
  (takeExactDigits 2 cs).bind fun p1 =>
  (expectChar '/' p1.2).bind fun r2 =>
  (takeExactDigits 2 r2).bind fun p2 =>
  (expectChar '/' p2.2).bind fun r4 =>
  (takeExactDigits 4 r4).bind fun p3 =>
  (skipSpaces1 p3.2).bind fun r6 =>
  (takeExactDigits 4 r6).bind fun p4 =>
  if p4.2 = [] then some (p1.1, p2.1, p3.1, p4.1) else none

/-- `parseNotamDate` from `faa-notam.ts`: parse the NOTAM date format
`MM/DD/YYYY HHMM` to a UTC timestamp (minutes since the Unix epoch), or
`none` for any other shape. -/
def parseNotamDate (s : String) : Option Int :=
  if s = "" then none
  else
    match matchNotamDate s.toList with
    | none => none
    | some (mm, dd, yyyy, hhmm) =>
      let month := digitsToNat mm
      let day := digitsToNat dd
      let year := digitsToNat yyyy
      let hours := digitsToNat (hhmm.take 2)
      let minutes := digitsToNat (hhmm.drop 2)
      some (jsDateUTC (year : Int) ((month : Int) - 1) (day : Int) (hours : Int)
        (minutes : Int))

/-- Spec-side statement of the fixed textual pattern `MM/DD/YYYY HHMM`:
two digits, a slash, two digits, a slash, four digits, whitespace, and a
four-digit time. -/
def NotamDateShape (s : String) : Prop :=
  ∃ mm dd yyyy ws hhmm : List Char,
    s.toList = mm ++ '/' :: (dd ++ '/' :: (yyyy ++ (ws ++ hhmm))) ∧
    mm.length = 2 ∧ mm.all isDigitC = true ∧
    dd.length = 2 ∧ dd.all isDigitC = true ∧
    yyyy.length = 4 ∧ yyyy.all isDigitC = true ∧
    ws ≠ [] ∧ ws.all isSpaceC = true ∧
    hhmm.length = 4 ∧ hhmm.all isDigitC = true

theorem expectChar_sound {c : Char} {cs rest : List Char}
    (h : expectChar c cs = some rest) : cs = c :: rest := by
  match cs with
  | [] => simp [expectChar] at h
  | c' :: cs' =>
    have h' : (if c' = c then some cs' else none) = some rest := h
    by_cases hc : c' = c
    · rw [if_pos hc] at h'
      injection h' with h''
      rw [hc, h'']
    · rw [if_neg hc] at h'
      exact absurd h' (by simp)

theorem expectChar_complete (c : Char) (rest : List Char) :
    expectChar c (c :: rest) = some rest := by
  simp [expectChar]

theorem matchNotamDate_sound {cs mm dd yyyy hhmm : List Char}
    (h : matchNotamDate cs = some (mm, dd, yyyy, hhmm)) :
    ∃ ws, cs = mm ++ '/' :: (dd ++ '/' :: (yyyy ++ (ws ++ hhmm))) ∧
      mm.length = 2 ∧ mm.all isDigitC = true ∧
      dd.length = 2 ∧ dd.all isDigitC = true ∧
      yyyy.length = 4 ∧ yyyy.all isDigitC = true ∧
      ws ≠ [] ∧ ws.all isSpaceC = true ∧
      hhmm.length = 4 ∧ hhmm.all isDigitC = true := by
  simp only [matchNotamDate, Option.bind_eq_some] at h
  obtain ⟨⟨mm', r1⟩, h1, r2, h2, ⟨dd', r3⟩, h3, r4, h4, ⟨yyyy', r5⟩, h5, r6, h6,
    ⟨hhmm', r7⟩, h7, hfin⟩ := h
  have h2' : expectChar '/' r1 = some r2 := h2
  have h4' : expectChar '/' r3 = some r4 := h4
  have h6' : skipSpaces1 r5 = some r6 := h6
  have hfin' :
      (if r7 = [] then some (mm', dd', yyyy', hhmm') else none) =
        some (mm, dd, yyyy, hhmm) := hfin
  by_cases hr7 : r7 = []
  · rw [if_pos hr7] at hfin'
    simp only [Option.some.injEq, Prod.mk.injEq] at hfin'
    obtain ⟨e1, e2, e3, e4⟩ := hfin'
    subst e1; subst e2; subst e3; subst e4; subst hr7
    obtain ⟨q1, q2, q3⟩ := takeExactDigits_sound h1
    obtain ⟨q4, q5, q6⟩ := takeExactDigits_sound h3
    obtain ⟨q7, q8, q9⟩ := takeExactDigits_sound h5
    obtain ⟨ws, w1, w2, w3⟩ := skipSpaces1_sound h6'
    obtain ⟨q10, q11, q12⟩ := takeExactDigits_sound h7
    refine ⟨ws, ?_, q2, q3, q5, q6, q8, q9, w2, w3, q11, q12⟩
    rw [q1, expectChar_sound h2', q4, expectChar_sound h4', q7, w1, q10]
    simp
  · rw [if_neg hr7] at hfin'
    exact absurd hfin' (by simp)

theorem matchNotamDate_complete {mm dd yyyy ws hhmm : List Char}
    (hmm : mm.length = 2) (hmmd : mm.all isDigitC = true)
    (hdd : dd.length = 2) (hddd : dd.all isDigitC = true)
    (hyy : yyyy.length = 4) (hyyd : yyyy.all isDigitC = true)
    (hws : ws ≠ []) (hwss : ws.all isSpaceC = true)
    (hhm : hhmm.length = 4) (hhmd : hhmm.all isDigitC = true) :
    matchNotamDate (mm ++ '/' :: (dd ++ '/' :: (yyyy ++ (ws ++ hhmm)))) =
      some (mm, dd, yyyy, hhmm) := by
  obtain ⟨h1, ht, hht⟩ : ∃ h1 ht, hhmm = h1 :: ht := by
    match hhmm, hhm with
    | h1 :: ht, _ => exact ⟨h1, ht, rfl⟩
  have hdig1 : isDigitC h1 = true := by
    rw [hht] at hhmd
    simp only [List.all_cons, Bool.and_eq_true] at hhmd
    exact hhmd.1
  have hss : skipSpaces1 (ws ++ hhmm) = some hhmm := by
    rw [hht]
    exact skipSpaces1_complete _ hws hwss (isSpaceC_eq_false_of_isDigitC _ hdig1)
  have hlast : takeExactDigits 4 hhmm = some (hhmm, []) := by
    have h := takeExactDigits_complete ([] : List Char) hhm hhmd
    rwa [List.append_nil] at h
  simp [matchNotamDate, takeExactDigits_complete _ hmm hmmd,
    expectChar_complete, takeExactDigits_complete _ hdd hddd,
    takeExactDigits_complete _ hyy hyyd, hss, hlast]

theorem parseNotamDate_isSome_iff (s : String) :
    (parseNotamDate s).isSome = true ↔ NotamDateShape s := by
  constructor
  · intro h
    unfold parseNotamDate at h
    by_cases hs : s = ""
    · rw [if_pos hs] at h; simp at h
    · rw [if_neg hs] at h
      cases hm : matchNotamDate s.toList with
      | none => rw [hm] at h; simp at h
      | some q =>
        obtain ⟨mm, dd, yyyy, hhmm⟩ := q
        obtain ⟨ws, hdec, props⟩ := matchNotamDate_sound hm
        exact ⟨mm, dd, yyyy, ws, hhmm, hdec, props⟩
  · intro hshape
    obtain ⟨mm, dd, yyyy, ws, hhmm, hdec, p1, p2, p3, p4, p5, p6, p7, p8, p9,
      p10⟩ := hshape
    have hmatch : matchNotamDate s.toList = some (mm, dd, yyyy, hhmm) := by
      rw [hdec]
      exact matchNotamDate_complete p1 p2 p3 p4 p5 p6 p7 p8 p9 p10
    have hs : s ≠ "" := by
      intro hempty
      subst hempty
      have hlen := congrArg List.length hdec
      simp only [String.toList_empty, List.length_nil, List.length_append,
        List.length_cons] at hlen
      omega
    unfold parseNotamDate
    rw [if_neg hs, hmatch]
    simp

/-! ## Point parser (`parsePoint` from `faa-notam.ts`)

`parsePoint` tries the anchored regex
`^\[([+-]?\d*\.?\d+),([+-]?\d*\.?\d+)\]$` (array form) and then
`^POINT\(([+-]?\d*\.?\d+)\s+([+-]?\d*\.?\d+)\)$` (WKT form); on a match it
range-validates latitude/longitude and returns a coordinates object. -/

/-- The coordinates object returned by `parsePoint`. -/
structure Coordinates where
  latitude : Rat
  longitude : Rat
deriving DecidableEq, Repr

/-- Maximal run of digits and the remainder (the greedy `\d*`). -/
def spanDigits (cs : List Char) : List Char × List Char :=
  (cs.takeWhile isDigitC, cs.dropWhile isDigitC)

/-- The optional sign `[+-]?`; returns whether the number is negated. -/
def parseSign (cs : List Char) : Bool × List Char :=
  match cs with
  | [] => (false, cs)
  | c :: rest =>
    if c = '+' then (false, rest)
    else if c = '-' then (true, rest)
    else (false, cs)

/-- Scanner for the number group `[+-]?\d*\.?\d+` (maximal munch, which is
equivalent to the regex with backtracking because the group is always
followed by a non-digit, non-dot literal). Returns
`((negated, integer digits, fraction digits), rest)`. -/
def parseNum (cs : List Char) : Option ((Bool × List Char × List Char) × List Char) :=
  let s := parseSign cs
  let p := spanDigits s.2
  match p.2 with
  | [] => if p.1 = [] then none else some ((s.1, p.1, []), p.2)
  | c :: cs3 =>
    if c = '.' then
      let q := spanDigits cs3
      if q.1 = [] then
        if p.1 = [] then none else some ((s.1, p.1, []), p.2)
      else some ((s.1, p.1, q.1), q.2)
    else if p.1 = [] then none else some ((s.1, p.1, []), p.2)

/-- The exact rational value of a parsed number, as `parseFloat` computes it
from sign, integer digits and fraction digits. -/
def numValue (neg : Bool) (i f : List Char) : Rat :=
  (if neg then (-1 : Rat) else 1) *
    ((digitsToNat i : Rat) + (digitsToNat f : Rat) / (10 : Rat) ^ f.length)

/-- The characters of a number literal: sign, integer digits, dot,
fraction digits. -/
def numToken (sgn i dot f : List Char) : List Char := sgn ++ i ++ dot ++ f

/-- Spec-side shape of a number literal `[+-]?\d*\.?\d+`: an optional sign,
then either a non-empty run of digits, or a possibly empty run of digits
followed by a dot and a non-empty run of digits. -/
def NumShape (sgn i dot f : List Char) : Prop :=
  (sgn = [] ∨ sgn = ['+'] ∨ sgn = ['-']) ∧ i.all isDigitC = true ∧
    ((dot = [] ∧ f = [] ∧ i ≠ []) ∨ (dot = ['.'] ∧ f ≠ [] ∧ f.all isDigitC = true))

/-- Spec-side value of a number literal. -/
def numVal (sgn i f : List Char) : Rat :=
  (if sgn = ['-'] then (-1 : Rat) else 1) *
    ((digitsToNat i : Rat) + (digitsToNat f : Rat) / (10 : Rat) ^ f.length)

theorem dropWhile_head_not {p : Char → Bool} {l : List Char} {c : Char}
    {r : List Char} (h : l.dropWhile p = c :: r) : p c = false := by
  induction l with
  | nil => simp [List.dropWhile] at h
  | cons x xs ih =>
    by_cases hx : p x
    · rw [List.dropWhile_cons_of_pos hx] at h
      exact ih h
    · rw [List.dropWhile_cons_of_neg hx] at h
      cases h
      exact Bool.of_not_eq_true hx

theorem takeWhile_all {p : Char → Bool} (l : List Char) :
    (l.takeWhile p).all p = true := by
  simp only [List.all_eq_true]
  intro x hx
  exact List.mem_takeWhile_imp hx

theorem takeWhile_append_of_all {p : Char → Bool} {ws : List Char} (rest : List Char)
    (h : ws.all p = true) : (ws ++ rest).takeWhile p = ws ++ rest.takeWhile p := by
  induction ws with
  | nil => rfl
  | cons c ws' ih =>
    simp only [List.all_cons, Bool.and_eq_true] at h
    simp [List.takeWhile_cons, h.1, ih h.2]

theorem spanDigits_complete {i : List Char} (rest : List Char)
    (hi : i.all isDigitC = true)
    (hrest : rest = [] ∨ ∃ c r, rest = c :: r ∧ isDigitC c = false) :
    spanDigits (i ++ rest) = (i, rest) := by
  have htake : rest.takeWhile isDigitC = [] := by
    rcases hrest with rfl | ⟨c, r, rfl, hc⟩
    · simp
    · simp [List.takeWhile_cons, hc]
  have hdrop : rest.dropWhile isDigitC = rest := by
    rcases hrest with rfl | ⟨c, r, rfl, hc⟩
    · simp
    · simp [List.dropWhile_cons, hc]
  unfold spanDigits
  rw [takeWhile_append_of_all _ hi, dropWhile_append_of_all _ hi, htake, hdrop]
  simp

theorem spanDigits_sound (cs : List Char) :
    cs = (spanDigits cs).1 ++ (spanDigits cs).2 ∧
      ((spanDigits cs).1).all isDigitC = true ∧
      ((spanDigits cs).2 = [] ∨
        ∃ c r, (spanDigits cs).2 = c :: r ∧ isDigitC c = false) := by
  refine ⟨(List.takeWhile_append_dropWhile isDigitC cs).symm, takeWhile_all _, ?_⟩
  cases hd : cs.dropWhile isDigitC with
  | nil => exact Or.inl hd
  | cons c r => exact Or.inr ⟨c, r, hd, dropWhile_head_not hd⟩

theorem isDigitC_ne_plus {c : Char} (h : isDigitC c = true) : c ≠ '+' := by
  rintro rfl; exact absurd h (by decide)

theorem isDigitC_ne_minus {c : Char} (h : isDigitC c = true) : c ≠ '-' := by
  rintro rfl; exact absurd h (by decide)

theorem isDigitC_ne_dot {c : Char} (h : isDigitC c = true) : c ≠ '.' := by
  rintro rfl; exact absurd h (by decide)

theorem spanDigits_eq (cs : List Char) :
    ∃ d r, spanDigits cs = (d, r) ∧ cs = d ++ r ∧ d.all isDigitC = true ∧
      (r = [] ∨ ∃ c cr, r = c :: cr ∧ isDigitC c = false) :=
  ⟨_, _, rfl, (spanDigits_sound cs).1, (spanDigits_sound cs).2.1,
    (spanDigits_sound cs).2.2⟩

theorem parseSign_append {sgn : List Char} (t : List Char)
    (hsgn : sgn = [] ∨ sgn = ['+'] ∨ sgn = ['-'])
    (ht : ∀ c r, t = c :: r → (c ≠ '+' ∧ c ≠ '-')) :
    ∃ neg, parseSign (sgn ++ t) = (neg, t) ∧ (neg = true ↔ sgn = ['-']) := by
  rcases hsgn with rfl | rfl | rfl
  · refine ⟨false, ?_, by simp⟩
    match t with
    | [] => rfl
    | c :: r =>
      obtain ⟨h1, h2⟩ := ht c r rfl
      simp [parseSign, h1, h2]
  · exact ⟨false, by simp [parseSign], by simp⟩
  · exact ⟨true, by simp [parseSign], by simp⟩

theorem parseNum_sound {cs : List Char} {neg : Bool} {i f rest : List Char}
    (h : parseNum cs = some ((neg, i, f), rest)) :
    ∃ sgn dot, cs = numToken sgn i dot f ++ rest ∧ NumShape sgn i dot f ∧
      (neg = true ↔ sgn = ['-']) := by
  obtain ⟨sgn, t, hps, hsgn, hnegSpec⟩ :
      ∃ sgn t, parseSign cs = ((sgn == ['-'] : Bool), t) ∧
        (sgn = [] ∨ sgn = ['+'] ∨ sgn = ['-']) ∧ cs = sgn ++ t := by
    match cs with
    | [] => exact ⟨[], [], rfl, Or.inl rfl, rfl⟩
    | c :: cs' =>
      by_cases hp : c = '+'
      · subst hp
        exact ⟨['+'], cs', by simp [parseSign], Or.inr (Or.inl rfl), rfl⟩
      · by_cases hm : c = '-'
        · subst hm
          exact ⟨['-'], cs', by simp [parseSign], Or.inr (Or.inr rfl), rfl⟩
        · exact ⟨[], c :: cs', by simp [parseSign, hp, hm], Or.inl rfl, rfl⟩
  obtain ⟨d1, t2, hspan, hteq, hd1dig, ht2⟩ := spanDigits_eq t
  unfold parseNum at h
  rw [hps] at h
  simp only at h
  rw [hspan] at h
  simp only at h
  have negIff : ((sgn == ['-'] : Bool) = true ↔ sgn = ['-']) := by
    simp
  cases ht2_eq : t2 with
  | nil =>
    subst ht2_eq
    dsimp only at h
    by_cases hd1 : d1 = []
    · rw [if_pos hd1] at h; simp at h
    · rw [if_neg hd1] at h
      simp only [Option.some.injEq, Prod.mk.injEq] at h
      obtain ⟨⟨e1, e2, e3⟩, e4⟩ := h
      refine ⟨sgn, [], ?_, ⟨hsgn, ?_, ?_⟩, ?_⟩
      · rw [hnegSpec, hteq, ← e2, ← e3, ← e4]
        simp [numToken]
      · rw [← e2]; exact hd1dig
      · exact Or.inl ⟨rfl, e3.symm, by rw [← e2]; exact hd1⟩
      · rw [← e1]; exact negIff
  | cons c2 r2 =>
    subst ht2_eq
    dsimp only at h
    by_cases hdot : c2 = '.'
    · rw [if_pos hdot] at h
      subst hdot
      obtain ⟨d2, r3, hspan2, hr2eq, hd2dig, hr3⟩ := spanDigits_eq r2
      rw [hspan2] at h
      simp only at h
      by_cases hd2 : d2 = []
      · rw [if_pos hd2] at h
        by_cases hd1 : d1 = []
        · rw [if_pos hd1] at h; simp at h
        · rw [if_neg hd1] at h
          simp only [Option.some.injEq, Prod.mk.injEq] at h
          obtain ⟨⟨e1, e2, e3⟩, e4⟩ := h
          refine ⟨sgn, [], ?_, ⟨hsgn, ?_, ?_⟩, ?_⟩
          · rw [hnegSpec, hteq, ← e2, ← e3, ← e4]
            simp [numToken]
          · rw [← e2]; exact hd1dig
          · exact Or.inl ⟨rfl, e3.symm, by rw [← e2]; exact hd1⟩
          · rw [← e1]; exact negIff
      · rw [if_neg hd2] at h
        simp only [Option.some.injEq, Prod.mk.injEq] at h
        obtain ⟨⟨e1, e2, e3⟩, e4⟩ := h
        refine ⟨sgn, ['.'], ?_, ⟨hsgn, ?_, ?_⟩, ?_⟩
        · rw [hnegSpec, hteq, hr2eq, ← e2, ← e3, ← e4]
          simp [numToken]
        · rw [← e2]; exact hd1dig
        · exact Or.inr ⟨rfl, by rw [← e3]; exact hd2, by rw [← e3]; exact hd2dig⟩
        · rw [← e1]; exact negIff
    · rw [if_neg hdot] at h
      by_cases hd1 : d1 = []
      · rw [if_pos hd1] at h; simp at h
      · rw [if_neg hd1] at h
        simp only [Option.some.injEq, Prod.mk.injEq] at h
        obtain ⟨⟨e1, e2, e3⟩, e4⟩ := h
        refine ⟨sgn, [], ?_, ⟨hsgn, ?_, ?_⟩, ?_⟩
        · rw [hnegSpec, hteq, ← e2, ← e3, ← e4]
          simp [numToken]
        · rw [← e2]; exact hd1dig
        · exact Or.inl ⟨rfl, e3.symm, by rw [← e2]; exact hd1⟩
        · rw [← e1]; exact negIff

theorem parseNum_complete {sgn i dot f : List Char} (rest : List Char)
    (hshape : NumShape sgn i dot f)
    (hrest : rest = [] ∨ ∃ c r, rest = c :: r ∧ isDigitC c = false ∧ c ≠ '.') :
    ∃ neg, parseNum (sgn ++ (i ++ (dot ++ (f ++ rest)))) = some ((neg, i, f), rest) ∧
      (neg = true ↔ sgn = ['-']) := by
  obtain ⟨hsgn, hi, hcase⟩ := hshape
  have hrest' : rest = [] ∨ ∃ c r, rest = c :: r ∧ isDigitC c = false := by
    rcases hrest with h' | ⟨c, r, he, hc, -⟩
    · exact Or.inl h'
    · exact Or.inr ⟨c, r, he, hc⟩
  have ht : ∀ c r, (i ++ (dot ++ (f ++ rest))) = c :: r → (c ≠ '+' ∧ c ≠ '-') := by
    intro c r hcr
    rcases hcase with ⟨hd, hf, hine⟩ | ⟨hd, hfne, hfdig⟩
    · subst hd; subst hf
      match i, hine with
      | ci :: i', _ =>
        simp only [List.cons_append, List.nil_append, List.cons.injEq] at hcr
        obtain ⟨rfl, -⟩ := hcr
        simp only [List.all_cons, Bool.and_eq_true] at hi
        exact ⟨isDigitC_ne_plus hi.1, isDigitC_ne_minus hi.1⟩
    · subst hd
      cases i with
      | nil =>
        simp only [List.nil_append, List.cons_append, List.cons.injEq] at hcr
        obtain ⟨rfl, -⟩ := hcr
        exact ⟨by decide, by decide⟩
      | cons ci i' =>
        simp only [List.cons_append, List.cons.injEq] at hcr
        obtain ⟨rfl, -⟩ := hcr
        simp only [List.all_cons, Bool.and_eq_true] at hi
        exact ⟨isDigitC_ne_plus hi.1, isDigitC_ne_minus hi.1⟩
  obtain ⟨neg, hps, hneg⟩ := parseSign_append _ hsgn ht
  refine ⟨neg, ?_, hneg⟩
  unfold parseNum
  rw [hps]
  dsimp only
  rcases hcase with ⟨hd, hf, hine⟩ | ⟨hd, hfne, hfdig⟩
  · subst hd; subst hf
    simp only [List.nil_append]
    rw [spanDigits_complete rest hi hrest']
    dsimp only
    rcases hrest with rfl | ⟨c, r, rfl, hcnd, hcdot⟩
    · dsimp only
      rw [if_neg hine]
    · dsimp only
      rw [if_neg hcdot, if_neg hine]
  · subst hd
    have hassoc : i ++ (['.'] ++ (f ++ rest)) = i ++ ('.' :: (f ++ rest)) := by
      simp
    rw [hassoc, spanDigits_complete ('.' :: (f ++ rest)) hi
      (Or.inr ⟨'.', f ++ rest, rfl, by decide⟩)]
    dsimp only
    rw [if_pos (show ('.' : Char) = '.' from rfl)]
    rw [spanDigits_complete rest hfdig hrest']
    dsimp only
    rw [if_neg hfne]

theorem numToken_append (sgn i dot f r : List Char) :
    numToken sgn i dot f ++ r = sgn ++ (i ++ (dot ++ (f ++ r))) := by
  simp [numToken, List.append_assoc]

theorem numValue_eq_numVal {neg : Bool} {sgn i f : List Char}
    (h : neg = true ↔ sgn = ['-']) : numValue neg i f = numVal sgn i f := by
  cases neg with
  | true => simp [numValue, numVal, h.mp rfl]
  | false =>
    have hne : sgn ≠ ['-'] := fun hc => by simpa using h.mpr hc
    simp [numValue, numVal, hne]

/-- The anchored regex `^\[([+-]?\d*\.?\d+),([+-]?\d*\.?\d+)\]$`, with the
two number capture groups. -/
def matchArrayPoint (cs : List Char) :
    Option ((Bool × List Char × List Char) × (Bool × List Char × List Char)) :=
  (expectChar '[' cs).bind fun r1 =>
  (parseNum r1).bind fun pn1 =>
  (expectChar ',' pn1.2).bind fun r3 =>
  (parseNum r3).bind fun pn2 =>
  (expectChar ']' pn2.2).bind fun r5 =>
  if r5 = [] then some (pn1.1, pn2.1) else none

/-- The anchored regex `^POINT\(([+-]?\d*\.?\d+)\s+([+-]?\d*\.?\d+)\)$`, with
the two number capture groups. -/
def matchWktPoint (cs : List Char) :
    Option ((Bool × List Char × List Char) × (Bool × List Char × List Char)) :=
  (expectChar 'P' cs).bind fun r1 =>
  (expectChar 'O' r1).bind fun r2 =>
  (expectChar 'I' r2).bind fun r3 =>
  (expectChar 'N' r3).bind fun r4 =>
  (expectChar 'T' r4).bind fun r5 =>
  (expectChar '(' r5).bind fun r6 =>
  (parseNum r6).bind fun pn1 =>
  (skipSpaces1 pn1.2).bind fun r8 =>
  (parseNum r8).bind fun pn2 =>
  (expectChar ')' pn2.2).bind fun r10 =>
  if r10 = [] then some (pn1.1, pn2.1) else none

/-- `parsePoint` from `faa-notam.ts`: parse a WKT `POINT(lon lat)` string or
an array string `[lon,lat]` to a coordinates object, validating the ranges
(latitude in [-90, 90], longitude in [-180, 180]); any malformed or
out-of-range input yields `none` (the function is total, so it never
throws). -/
def parsePoint (s : String) : Option Coordinates :=
  if s = "" then none
  else
    match matchArrayPoint s.toList with
    | some (n1, n2) =>
      let lon := numValue n1.1 n1.2.1 n1.2.2
      let lat := numValue n2.1 n2.2.1 n2.2.2
      if lat < -90 ∨ lat > 90 ∨ lon < -180 ∨ lon > 180 then none
      else some { latitude := lat, longitude := lon }
    | none =>
      match matchWktPoint s.toList with
      | some (n1, n2) =>
        let lon := numValue n1.1 n1.2.1 n1.2.2
        let lat := numValue n2.1 n2.2.1 n2.2.2
        if lat < -90 ∨ lat > 90 ∨ lon < -180 ∨ lon > 180 then none
        else some { latitude := lat, longitude := lon }
      | none => none

/-- The coordinate ranges accepted by `parsePoint` (spec side): latitude in
[-90, 90] and longitude in [-180, 180]. -/
def InRangeVals (lon lat : Rat) : Prop :=
  -90 ≤ lat ∧ lat ≤ 90 ∧ -180 ≤ lon ∧ lon ≤ 180

/-- Spec-side statement of the accepted point syntax: either a bracketed
two-number array `[lon,lat]` or a WKT-style `POINT(lon lat)` string, with
both numbers in range. -/
def ValidPointString (s : String) : Prop :=
  (∃ s1 i1 dot1 f1 s2 i2 dot2 f2 : List Char,
    s.toList =
      '[' :: (numToken s1 i1 dot1 f1 ++ ',' :: (numToken s2 i2 dot2 f2 ++ [']'])) ∧
    NumShape s1 i1 dot1 f1 ∧ NumShape s2 i2 dot2 f2 ∧
    InRangeVals (numVal s1 i1 f1) (numVal s2 i2 f2)) ∨
  (∃ s1 i1 dot1 f1 ws s2 i2 dot2 f2 : List Char,
    s.toList = 'P' :: 'O' :: 'I' :: 'N' :: 'T' :: '(' ::
      (numToken s1 i1 dot1 f1 ++ (ws ++ (numToken s2 i2 dot2 f2 ++ [')']))) ∧
    NumShape s1 i1 dot1 f1 ∧ NumShape s2 i2 dot2 f2 ∧
    ws ≠ [] ∧ ws.all isSpaceC = true ∧
    InRangeVals (numVal s1 i1 f1) (numVal s2 i2 f2))

theorem matchArrayPoint_sound {cs : List Char} {neg1 neg2 : Bool}
    {i1 f1 i2 f2 : List Char}
    (h : matchArrayPoint cs = some ((neg1, i1, f1), (neg2, i2, f2))) :
    ∃ s1 dot1 s2 dot2,
      cs = '[' :: (numToken s1 i1 dot1 f1 ++ ',' ::
        (numToken s2 i2 dot2 f2 ++ [']'])) ∧
      NumShape s1 i1 dot1 f1 ∧ NumShape s2 i2 dot2 f2 ∧
      (neg1 = true ↔ s1 = ['-']) ∧ (neg2 = true ↔ s2 = ['-']) := by
  simp only [matchArrayPoint, Option.bind_eq_some] at h
  obtain ⟨r1, h1, ⟨⟨neg1', i1', f1'⟩, rest1⟩, hp1, r3, h3, ⟨⟨neg2', i2', f2'⟩,
    rest2⟩, hp2, r5, h5, hfin⟩ := h
  have h3' : expectChar ',' rest1 = some r3 := h3
  have h5' : expectChar ']' rest2 = some r5 := h5
  have hp1' : parseNum r1 = some ((neg1', i1', f1'), rest1) := hp1
  have hp2' : parseNum r3 = some ((neg2', i2', f2'), rest2) := hp2
  have hfin' :
      (if r5 = [] then some ((neg1', i1', f1'), (neg2', i2', f2')) else none) =
        some ((neg1, i1, f1), (neg2, i2, f2)) := hfin
  by_cases hr5 : r5 = []
  · rw [if_pos hr5] at hfin'
    simp only [Option.some.injEq, Prod.mk.injEq] at hfin'
    obtain ⟨⟨ea, eb, ec⟩, ed, ee, ef⟩ := hfin'
    subst ea; subst eb; subst ec; subst ed; subst ee; subst ef; subst hr5
    obtain ⟨s1, dot1, hd1, hs1, hn1⟩ := parseNum_sound hp1'
    obtain ⟨s2, dot2, hd2, hs2, hn2⟩ := parseNum_sound hp2'
    refine ⟨s1, dot1, s2, dot2, ?_, hs1, hs2, hn1, hn2⟩
    rw [expectChar_sound h1, hd1, expectChar_sound h3', hd2,
      expectChar_sound h5']
  · rw [if_neg hr5] at hfin'
    exact absurd hfin' (by simp)

theorem matchArrayPoint_complete {s1 i1 dot1 f1 s2 i2 dot2 f2 : List Char}
    (h1 : NumShape s1 i1 dot1 f1) (h2 : NumShape s2 i2 dot2 f2) :
    ∃ neg1 neg2,
      matchArrayPoint ('[' :: (numToken s1 i1 dot1 f1 ++ ',' ::
        (numToken s2 i2 dot2 f2 ++ [']']))) =
        some ((neg1, i1, f1), (neg2, i2, f2)) ∧
      (neg1 = true ↔ s1 = ['-']) ∧ (neg2 = true ↔ s2 = ['-']) := by
  obtain ⟨neg1, hp1, hn1⟩ := parseNum_complete
    (',' :: (numToken s2 i2 dot2 f2 ++ [']'])) h1
    (Or.inr ⟨',', _, rfl, by decide, by decide⟩)
  obtain ⟨neg2, hp2, hn2⟩ := parseNum_complete [']'] h2
    (Or.inr ⟨']', [], rfl, by decide, by decide⟩)
  refine ⟨neg1, neg2, ?_, hn1, hn2⟩
  rw [← numToken_append] at hp1
  rw [← numToken_append] at hp2
  simp only [matchArrayPoint, expectChar_complete, Option.some_bind, hp1,
    expectChar_complete, hp2]
  simp [expectChar]

theorem matchWktPoint_sound {cs : List Char} {neg1 neg2 : Bool}
    {i1 f1 i2 f2 : List Char}
    (h : matchWktPoint cs = some ((neg1, i1, f1), (neg2, i2, f2))) :
    ∃ s1 dot1 ws s2 dot2,
      cs = 'P' :: 'O' :: 'I' :: 'N' :: 'T' :: '(' ::
        (numToken s1 i1 dot1 f1 ++ (ws ++ (numToken s2 i2 dot2 f2 ++ [')']))) ∧
      NumShape s1 i1 dot1 f1 ∧ NumShape s2 i2 dot2 f2 ∧
      ws ≠ [] ∧ ws.all isSpaceC = true ∧
      (neg1 = true ↔ s1 = ['-']) ∧ (neg2 = true ↔ s2 = ['-']) := by
  simp only [matchWktPoint, Option.bind_eq_some] at h
  obtain ⟨r1, h1, r2, h2, r3, h3, r4, h4, r5, h5, r6, h6, ⟨⟨neg1', i1', f1'⟩,
    rest1⟩, hp1, r8, h8, ⟨⟨neg2', i2', f2'⟩, rest2⟩, hp2, r10, h10, hfin⟩ := h
  have h8' : skipSpaces1 rest1 = some r8 := h8
  have h10' : expectChar ')' rest2 = some r10 := h10
  have hp1' : parseNum r6 = some ((neg1', i1', f1'), rest1) := hp1
  have hp2' : parseNum r8 = some ((neg2', i2', f2'), rest2) := hp2
  have hfin' :
      (if r10 = [] then some ((neg1', i1', f1'), (neg2', i2', f2')) else none) =
        some ((neg1, i1, f1), (neg2, i2, f2)) := hfin
  by_cases hr10 : r10 = []
  · rw [if_pos hr10] at hfin'
    simp only [Option.some.injEq, Prod.mk.injEq] at hfin'
    obtain ⟨⟨ea, eb, ec⟩, ed, ee, ef⟩ := hfin'
    subst ea; subst eb; subst ec; subst ed; subst ee; subst ef; subst hr10
    obtain ⟨s1, dot1, hd1, hs1, hn1⟩ := parseNum_sound hp1'
    obtain ⟨s2, dot2, hd2, hs2, hn2⟩ := parseNum_sound hp2'
    obtain ⟨ws, hw1, hw2, hw3⟩ := skipSpaces1_sound h8'
    refine ⟨s1, dot1, ws, s2, dot2, ?_, hs1, hs2, hw2, hw3, hn1, hn2⟩
    rw [expectChar_sound h1, expectChar_sound h2, expectChar_sound h3,
      expectChar_sound h4, expectChar_sound h5, expectChar_sound h6, hd1, hw1,
      hd2, expectChar_sound h10']
  · rw [if_neg hr10] at hfin'
    exact absurd hfin' (by simp)

theorem matchWktPoint_complete {s1 i1 dot1 f1 ws s2 i2 dot2 f2 : List Char}
    (h1 : NumShape s1 i1 dot1 f1) (h2 : NumShape s2 i2 dot2 f2)
    (hws : ws ≠ []) (hwss : ws.all isSpaceC = true) :
    ∃ neg1 neg2,
      matchWktPoint ('P' :: 'O' :: 'I' :: 'N' :: 'T' :: '(' ::
        (numToken s1 i1 dot1 f1 ++ (ws ++ (numToken s2 i2 dot2 f2 ++ [')'])))) =
        some ((neg1, i1, f1), (neg2, i2, f2)) ∧
      (neg1 = true ↔ s1 = ['-']) ∧ (neg2 = true ↔ s2 = ['-']) := by
  have hwsHead : ∀ c r, ws ++ (numToken s2 i2 dot2 f2 ++ [')']) = c :: r →
      isDigitC c = false ∧ c ≠ '.' := by
    intro c r hcr
    match ws, hws with
    | w :: ws', _ =>
      simp only [List.cons_append, List.cons.injEq] at hcr
      obtain ⟨hwc, -⟩ := hcr
      subst hwc
      simp only [List.all_cons, Bool.and_eq_true] at hwss
      constructor
      · by_cases hd : isDigitC w = true
        · rw [isSpaceC_eq_false_of_isDigitC w hd] at hwss
          exact absurd hwss.1 (by simp)
        · simpa using hd
      · intro hc
        subst hc
        exact absurd hwss.1 (by decide)
  obtain ⟨neg1, hp1, hn1⟩ := parseNum_complete
    (ws ++ (numToken s2 i2 dot2 f2 ++ [')'])) h1
    (by
      right
      match ws, hws with
      | w :: ws', _ =>
        refine ⟨w, ws' ++ (numToken s2 i2 dot2 f2 ++ [')']), by simp, ?_⟩
        exact hwsHead w (ws' ++ (numToken s2 i2 dot2 f2 ++ [')'])) (by simp))
  obtain ⟨neg2, hp2, hn2⟩ := parseNum_complete [')'] h2
    (Or.inr ⟨')', [], rfl, by decide, by decide⟩)
  refine ⟨neg1, neg2, ?_, hn1, hn2⟩
  rw [← numToken_append] at hp1
  rw [← numToken_append] at hp2
  have hskip : skipSpaces1 (ws ++ (numToken s2 i2 dot2 f2 ++ [')'])) =
      some (numToken s2 i2 dot2 f2 ++ [')']) := by
    obtain ⟨hsgn2, hi2, hcase2⟩ := h2
    have : ∃ c rest2, numToken s2 i2 dot2 f2 ++ [')'] = c :: rest2 ∧
        isSpaceC c = false := by
      rcases hsgn2 with rfl | rfl | rfl
      · rcases hcase2 with ⟨hd, hf, hine⟩ | ⟨hd, hfne, hfdig⟩
        · match i2, hine with
          | ci :: i2', _ =>
            subst hd; subst hf
            refine ⟨ci, i2' ++ [')'], by simp [numToken], ?_⟩
            simp only [List.all_cons, Bool.and_eq_true] at hi2
            exact isSpaceC_eq_false_of_isDigitC _ hi2.1
        · subst hd
          cases i2 with
          | nil =>
            exact ⟨'.', f2 ++ [')'], by simp [numToken], by decide⟩
          | cons ci i2' =>
            refine ⟨ci, i2' ++ (['.'] ++ (f2 ++ [')'])),
              by simp [numToken, List.append_assoc], ?_⟩
            simp only [List.all_cons, Bool.and_eq_true] at hi2
            exact isSpaceC_eq_false_of_isDigitC _ hi2.1
      · exact ⟨'+', i2 ++ (dot2 ++ (f2 ++ [')'])),
          by simp [numToken, List.append_assoc], by decide⟩
      · exact ⟨'-', i2 ++ (dot2 ++ (f2 ++ [')'])),
          by simp [numToken, List.append_assoc], by decide⟩
    obtain ⟨c, rest2, he, hc⟩ := this
    rw [he]
    exact skipSpaces1_complete _ hws hwss hc
  simp only [matchWktPoint, expectChar_complete, Option.some_bind, hp1, hskip,
    hp2]
  simp [expectChar]

theorem parsePoint_isSome_iff (s : String) :
    (parsePoint s).isSome = true ↔ ValidPointString s := by
  constructor
  · intro h
    unfold parsePoint at h
    by_cases hs : s = ""
    · rw [if_pos hs] at h; simp at h
    · rw [if_neg hs] at h
      cases hma : matchArrayPoint s.toList with
      | some q =>
        obtain ⟨⟨neg1, i1, f1⟩, ⟨neg2, i2, f2⟩⟩ := q
        rw [hma] at h
        dsimp only at h
        by_cases hcond : (numValue neg2 i2 f2 < -90 ∨ numValue neg2 i2 f2 > 90 ∨
            numValue neg1 i1 f1 < -180 ∨ numValue neg1 i1 f1 > 180)
        · rw [if_pos hcond] at h; simp at h
        · obtain ⟨s1, dot1, s2, dot2, hdec, hs1, hs2, hn1, hn2⟩ :=
            matchArrayPoint_sound hma
          left
          refine ⟨s1, i1, dot1, f1, s2, i2, dot2, f2, hdec, hs1, hs2, ?_⟩
          rw [← numValue_eq_numVal hn1, ← numValue_eq_numVal hn2]
          simp only [not_or, not_lt, gt_iff_lt] at hcond
          exact ⟨hcond.1, hcond.2.1, hcond.2.2.1, hcond.2.2.2⟩
      | none =>
        rw [hma] at h
        dsimp only at h
        cases hmw : matchWktPoint s.toList with
        | some q =>
          obtain ⟨⟨neg1, i1, f1⟩, ⟨neg2, i2, f2⟩⟩ := q
          rw [hmw] at h
          dsimp only at h
          by_cases hcond : (numValue neg2 i2 f2 < -90 ∨ numValue neg2 i2 f2 > 90 ∨
              numValue neg1 i1 f1 < -180 ∨ numValue neg1 i1 f1 > 180)
          · rw [if_pos hcond] at h; simp at h
          · obtain ⟨s1, dot1, ws, s2, dot2, hdec, hs1, hs2, hws, hwss, hn1, hn2⟩ :=
              matchWktPoint_sound hmw
            right
            refine ⟨s1, i1, dot1, f1, ws, s2, i2, dot2, f2, hdec, hs1, hs2, hws,
              hwss, ?_⟩
            rw [← numValue_eq_numVal hn1, ← numValue_eq_numVal hn2]
            simp only [not_or, not_lt, gt_iff_lt] at hcond
            exact ⟨hcond.1, hcond.2.1, hcond.2.2.1, hcond.2.2.2⟩
        | none => rw [hmw] at h; simp at h
  · intro hv
    rcases hv with ⟨s1, i1, dot1, f1, s2, i2, dot2, f2, hdec, hs1, hs2, hr⟩ |
      ⟨s1, i1, dot1, f1, ws, s2, i2, dot2, f2, hdec, hs1, hs2, hws, hwss, hr⟩
    · obtain ⟨neg1, neg2, hm, hn1, hn2⟩ := matchArrayPoint_complete hs1 hs2
      have hsne : s ≠ "" := by
        intro he
        subst he
        exact List.noConfusion hdec
      have hma : matchArrayPoint s.toList = some ((neg1, i1, f1), (neg2, i2, f2)) := by
        rw [hdec]; exact hm
      have hcond : ¬(numValue neg2 i2 f2 < -90 ∨ numValue neg2 i2 f2 > 90 ∨
          numValue neg1 i1 f1 < -180 ∨ numValue neg1 i1 f1 > 180) := by
        rw [numValue_eq_numVal hn1, numValue_eq_numVal hn2]
        simp only [not_or, not_lt, gt_iff_lt]
        exact ⟨hr.1, hr.2.1, hr.2.2.1, hr.2.2.2⟩
      unfold parsePoint
      rw [if_neg hsne, hma]
      dsimp only
      rw [if_neg hcond]
      simp
    · obtain ⟨neg1, neg2, hm, hn1, hn2⟩ := matchWktPoint_complete hs1 hs2 hws hwss
      have hsne : s ≠ "" := by
        intro he
        subst he
        exact List.noConfusion hdec
      have hma : matchArrayPoint s.toList = none := by
        rw [hdec]; rfl
      have hmw : matchWktPoint s.toList = some ((neg1, i1, f1), (neg2, i2, f2)) := by
        rw [hdec]; exact hm
      have hcond : ¬(numValue neg2 i2 f2 < -90 ∨ numValue neg2 i2 f2 > 90 ∨
          numValue neg1 i1 f1 < -180 ∨ numValue neg1 i1 f1 > 180) := by
        rw [numValue_eq_numVal hn1, numValue_eq_numVal hn2]
        simp only [not_or, not_lt, gt_iff_lt]
        exact ⟨hr.1, hr.2.1, hr.2.2.1, hr.2.2.2⟩
      unfold parsePoint
      rw [if_neg hsne, hma]
      dsimp only
      rw [hmw]
      dsimp only
      rw [if_neg hcond]
      simp

/-! ## Text normalizer (`parseText` from `faa-notam.ts`)

`parseText` replaces newlines with spaces, trims, expands each entry of a
closed abbreviation dictionary with a global case-insensitive word-bounded
replace (`new RegExp('\\b' + abbrev + '\\b', 'gi')`), collapses whitespace
runs to single spaces, trims again and upper-cases.

`replaceWord` models one `text.replace(/\bKEY\b/gi, expansion)` call: the
original string is scanned left to right; a match requires the key's
characters case-insensitively and a word boundary on both sides; the
replacement is emitted and scanning continues after the matched text
(replacements are not rescanned).  Every dictionary key begins and ends
with a word character, so the boundary before a match is "previous
character is not a word character" and after a match the previous-character
state is a word character. -/

/-- Case-insensitive match of a key at the head of a string; returns the
remainder past the match. -/
def matchKeyCI : List Char → List Char → Option (List Char)
  | [], s => some s
  | _ :: _, [] => none
  | k :: ks, c :: cs => if k.toUpper = c.toUpper then matchKeyCI ks cs else none

theorem matchKeyCI_length {key s r : List Char} (h : matchKeyCI key s = some r) :
    r.length + key.length = s.length := by
  induction key generalizing s with
  | nil =>
    simp only [matchKeyCI, Option.some.injEq] at h
    simp [← h]
  | cons k ks ih =>
    match s with
    | [] => simp [matchKeyCI] at h
    | c :: cs =>
      simp only [matchKeyCI] at h
      by_cases hc : k.toUpper = c.toUpper
      · rw [if_pos hc] at h
        have := ih h
        simp only [List.length_cons]
        omega
      · rw [if_neg hc] at h; simp at h

/-- The regex `\b` test on the character that follows a match. -/
def wordBoundaryAfter : List Char → Bool
  | [] => true
  | c :: _ => !isWordC c

/-- One global case-insensitive word-bounded replacement pass
(`replace(/\bKEY\b/gi, exp)`), for a non-empty key `k0 :: krest`.
`prevWord` says whether the character before the current scan position is a
word character (`\b` before the key, whose first character is a word
character, requires it to be `false`). -/
def replaceWord (k0 : Char) (krest exp : List Char) (prevWord : Bool) :
    List Char → List Char
  | [] => []
  | c :: rest =>
    match h : matchKeyCI (k0 :: krest) (c :: rest) with
    | some r =>
      if prevWord = false ∧ wordBoundaryAfter r = true then
        exp ++ replaceWord k0 krest exp true r
      else c :: replaceWord k0 krest exp (isWordC c) rest
    | none => c :: replaceWord k0 krest exp (isWordC c) rest
termination_by s => s.length
decreasing_by
  · have hlen := matchKeyCI_length h
    simp only [List.length_cons] at hlen ⊢
    omega
  · simp
  · simp

/-- The abbreviation dictionary of `parseText`, in source (insertion)
order. -/
def abbreviations : List (String × String) :=
  [("AD", "AERODROME"),
   ("AFTN", "AERONAUTICAL FIXED TELECOMMUNICATION NETWORK"),
   ("AGL", "ABOVE GROUND LEVEL"),
   ("AMSL", "ABOVE MEAN SEA LEVEL"),
   ("APCH", "APPROACH"),
   ("APT", "AIRPORT"),
   ("ARPT", "AIRPORT"),
   ("TWR", "TOWER"),
   ("GND", "GROUND"),
   ("APP", "APPROACH"),
   ("DEP", "DEPARTURE"),
   ("RWY", "RUNWAY"),
   ("TWY", "TAXIWAY"),
   ("TKOF", "TAKEOFF"),
   ("LDG", "LANDING"),
   ("CLSD", "CLOSED"),
   ("AVBL", "AVAILABLE"),
   ("REQ", "REQUEST"),
   ("BTN", "BETWEEN"),
   ("LCL", "LOCAL"),
   ("FM", "FROM"),
   ("TIL", "UNTIL"),
   ("PERM", "PERMANENT"),
   ("TEMP", "TEMPORARY"),
   ("DLY", "DAILY"),
   ("WEF", "WITH EFFECT FROM"),
   ("APPX", "APPROXIMATELY"),
   ("WX", "WEATHER"),
   ("VIS", "VISIBILITY"),
   ("OBSCN", "OBSCURATION"),
   ("FG", "FOG"),
   ("BR", "MIST"),
   ("RA", "RAIN"),
   ("SN", "SNOW"),
   ("TS", "THUNDERSTORM"),
   ("OPR", "OPERATE/OPERATING"),
   ("OPNL", "OPERATIONAL"),
   ("INOP", "INOPERATIVE"),
   ("U/S", "UNSERVICEABLE"),
   ("MAINT", "MAINTENANCE"),
   ("CONST", "CONSTRUCTION"),
   ("WIP", "WORK IN PROGRESS"),
   ("OBST", "OBSTACLE"),
   ("EQPT", "EQUIPMENT"),
   ("SYS", "SYSTEM"),
   ("PWR", "POWER"),
   ("ELEC", "ELECTRICAL"),
   ("LGTG", "LIGHTING"),
   ("REIL", "RUNWAY END IDENTIFIER LIGHTS"),
   ("LGTD", "LIGHTED"),
   ("MIL", "MILITARY"),
   ("ACFT", "AIRCRAFT"),
   ("ALT", "ALTITUDE"),
   ("FL", "FLIGHT LEVEL"),
   ("FT", "FEET"),
   ("NM", "NAUTICAL MILES"),
   ("KT", "KNOTS"),
   ("DEG", "DEGREES"),
   ("MAG", "MAGNETIC"),
   ("TRUE", "TRUE"),
   ("VAR", "VARIATION"),
   ("FREQ", "FREQUENCY"),
   ("MHZ", "MEGAHERTZ"),
   ("KHZ", "KILOHERTZ"),
   ("COM", "COMMUNICATION"),
   ("RAD", "RADIO"),
   ("TEL", "TELEPHONE")]

/-- Apply one dictionary entry (a `replace(/\bKEY\b/gi, exp)` call). -/
def applyAbbrev (s : List Char) (p : String × String) : List Char :=
  match p.1.toList with
  | [] => s
  | k0 :: krest => replaceWord k0 krest p.2.toList false s

/-- The `for (const [abbrev, expansion] of Object.entries(abbreviations))`
loop: each entry applied in insertion order. -/
def replaceAllAbbrev (s : List Char) : List Char :=
  abbreviations.foldl applyAbbrev s

theorem length_dropWhile_le_self (p : Char → Bool) (l : List Char) :
    (l.dropWhile p).length ≤ l.length := by
  induction l with
  | nil => simp
  | cons c cs ih =>
    by_cases hc : p c
    · rw [List.dropWhile_cons_of_pos hc]
      exact Nat.le_succ_of_le ih
    · rw [List.dropWhile_cons_of_neg hc]

/-- `replace(/\s+/g, ' ')`: every maximal whitespace run becomes one
space. -/
def collapseWs : List Char → List Char
  | [] => []
  | c :: rest =>
    if isSpaceC c then ' ' :: collapseWs (rest.dropWhile isSpaceC)
    else c :: collapseWs rest
termination_by s => s.length
decreasing_by
  · have := length_dropWhile_le_self isSpaceC rest
    simp only [List.length_cons]
    omega
  · simp

/-- JavaScript `String.prototype.trim`. -/
def trimChars (s : List Char) : List Char :=
  ((s.dropWhile isSpaceC).reverse.dropWhile isSpaceC).reverse

/-- `parseText` from `faa-notam.ts`: replace newlines with spaces, trim,
expand the abbreviation dictionary (word-bounded, case-insensitive),
collapse repeated whitespace, trim and upper-case. -/
def parseText (s : String) : String :=
  if s = "" then ""
  else
    let t1 := s.toList.map (fun c => if c = '\n' then ' ' else c)
    let t2 := trimChars t1
    let t3 := replaceAllAbbrev t2
    String.mk ((trimChars (collapseWs t3)).map Char.toUpper)

/-! ## Numeric rendering helpers -/

/-- The decimal digit character for `n < 10`. -/
def digitChar (n : Nat) : Char := Char.ofNat ('0'.toNat + n)

/-- Decimal digits of a natural number (fuel-based so that it reduces). -/
def natDigitsAux : Nat → Nat → List Char
  | 0, _ => []
  | fuel + 1, n =>
    if n < 10 then [digitChar n]
    else natDigitsAux fuel (n / 10) ++ [digitChar (n % 10)]

/-- Decimal string of a natural number. -/
def natStr (n : Nat) : String := String.mk (natDigitsAux (n + 1) n)

/-! ## External collaborator models

The `flight-planner` package is an external collaborator of this core
("consumed, not implemented"); the following definitions model only its
interface as the specification describes it. -/

/-- Modelled from the spec: `isICAO` from the external `flight-planner`
package is missing from the sources; the glossary defines an ICAO code as a
4-character (4-letter) airport/facility identifier, so syntactic validity
is modelled as: exactly four ASCII letters. -/
def isICAO (s : String) : Bool :=
  s.toList.length = 4 && s.toList.all Char.isAlpha

/-- Modelled from the spec: `normalizeICAO` from the external
`flight-planner` package ("case-normalized" codes); modelled as
upper-casing. -/
def normalizeICAO (s : String) : String := String.mk (s.toList.map Char.toUpper)

/-- Modelled from the spec: `normalizeIATA` from the external
`flight-planner` package; modelled as upper-casing. -/
def normalizeIATA (s : String) : String := String.mk (s.toList.map Char.toUpper)

/-- Word-start tracking for `capitalizeWords`. -/
def capWords : Bool → List Char → List Char
  | _, [] => []
  | atStart, c :: rest =>
    if c = ' ' then c :: capWords true rest
    else (if atStart then c.toUpper else c.toLower) :: capWords false rest

/-- Modelled from the spec: `capitalizeWords` from the external
`flight-planner/utils` package ("title-cased string"): the first letter of
each space-separated word is upper-cased, the rest lower-cased. -/
def capitalizeWords (s : String) : String := String.mk (capWords true s.toList)

/-- Modelled from the spec: `validateFrequencyType` from the external
`flight-planner` package validates a frequency type code "against a closed
enumeration supplied by the domain-type collaborator" and rejected values
fail (throw).  Only membership versus rejection matters to the claims, so
the closed enumeration is modelled as the codes `0..14`. -/
def validateFrequencyType (t : Nat) : Except String Nat :=
  if t ≤ 14 then .ok t else .error ("Invalid frequency type: " ++ natStr t)

/-- Modelled from the spec: the structured METAR produced by the external
METAR-decoding collaborator (`createMetarFromString`); decoding is
external, so the decoded value is represented by its raw input. -/
structure DecodedMetar where
  raw : String
deriving DecidableEq, Repr

/-- Modelled from the spec: the external METAR decoder collaborator. -/
def createMetarFromString (s : String) : DecodedMetar := ⟨s⟩

/-! ## Error envelope model (`error.ts`) and HTTP response model

A JavaScript error value is either a plain `Error` (with its message; a
string used as a `cause` is modelled the same way) or an `ApiError`
envelope from `error.ts`, which carries the source name, the endpoint and
an optional underlying cause.  The request options are not carried in the
model; no claim depends on them. -/

inductive JsErr where
  | plain (message : String)
  | api (serviceName : String) (endpoint : String) (cause : Option JsErr)

/-- Whether a failure value is the uniform `ApiError` envelope. -/
def JsErr.isApiEnvelope : JsErr → Bool
  | .api _ _ _ => true
  | .plain _ => false

/-- The response seen by a pipeline after the Gateway call, with the body
already decoded to `β` (`none` models a null/absent decoded body). -/
structure HttpResponse (β : Type) where
  status : Nat
  statusText : String
  body : β

/-- `response.ok`: HTTP status in the 2xx range. -/
def HttpResponse.ok {β : Type} (r : HttpResponse β) : Bool :=
  200 ≤ r.status && r.status ≤ 299

/-- The `HTTP ${status} - ${statusText}` cause string used by the
pipelines. -/
def httpCause {β : Type} (r : HttpResponse β) : String :=
  "HTTP " ++ natStr r.status ++ " - " ++ r.statusText

/-! ## Aerodrome pipeline (`aerodrome.ts`, with the raw item shapes from
`openaip-config.ts`)

The live aerodrome pipeline (imported by `index.ts`) validates with
`distance <= 0`, raises `ApiError` itself on a non-success status, and has
no surrounding try/catch around the item mapping; the superseded draft
`openaip.ts` differs (it checks `distance < 0` and wraps every failure in
`ApiError`). -/

/-- A dimension value with its unit code (`0` = meters). -/
structure UnitValue where
  value : Rat
  unit : Nat

structure RunwayDimension where
  length : UnitValue
  width : UnitValue

structure RawRunway where
  designator : String
  trueHeading : Rat
  dimension : Option RunwayDimension
  surfaceMainComposite : String

structure RawFrequency where
  type : Nat
  name : Option String
  value : Rat

structure RawElevation where
  value : Rat
  unit : Nat
  referenceDatum : Nat

/-- `OpenAipAirportItem` from `openaip-config.ts`. -/
structure OpenAipAirportItem where
  icaoCode : Option String
  iataCode : Option String
  name : String
  geometryCoordinates : Rat × Rat
  elevation : Option RawElevation
  magneticDeclination : Option Rat
  ppr : Option Bool
  runways : Option (List RawRunway)
  frequencies : Option (List RawFrequency)

/-- `OpenAipResponse` from `openaip-config.ts`: the `{items, totalCount?}`
envelope. -/
structure OpenAipResponse (α : Type) where
  items : List α
  totalCount : Option Nat

/-- Canonical `Runway`. -/
structure Runway where
  designator : String
  heading : Rat
  length : Option Rat
  width : Option Rat
  surface : String

/-- Canonical `Frequency` (type already validated). -/
structure Frequency where
  type : Nat
  name : String
  value : Rat

/-- Canonical `Aerodrome` record. -/
structure Aerodrome where
  icao : String
  iata : Option String
  name : String
  coords : Rat × Rat
  elevation : Option Rat
  declination : Option Rat
  runways : List Runway
  frequencies : List Frequency
  ppr : Option Bool
  waypointVariant : String

def METERS_TO_FEET : Rat := 328084 / 100000

def KM_TO_METERS : Rat := 1000

def AIRPORT_TYPES : List Nat := [0, 1, 2, 3, 9, 5]

/-- The ICAO filter of the aerodrome pipeline:
`aerodrome.icaoCode && isICAO(aerodrome.icaoCode)`. -/
def keepAerodrome (a : OpenAipAirportItem) : Bool :=
  match a.icaoCode with
  | some c => c ≠ "" && isICAO c
  | none => false

/-- Runway mapping: dimensions are kept only when their unit code is `0`
(meters). -/
def mapRunway (r : RawRunway) : Runway :=
  { designator := r.designator
    heading := r.trueHeading
    length :=
      match r.dimension with
      | some d => if d.length.unit = 0 then some d.length.value else none
      | none => none
    width :=
      match r.dimension with
      | some d => if d.width.unit = 0 then some d.width.value else none
      | none => none
    surface := r.surfaceMainComposite }

/-- Frequency mapping: the type code is validated against the external
enumeration; a rejected value fails (throws). -/
def mapFrequency (f : RawFrequency) : Except String Frequency :=
  (validateFrequencyType f.type).map fun t =>
    { type := t, name := f.name.getD "", value := f.value }

/-- Whether an `Except` result is a success. -/
def exceptIsOk {ε α : Type} : Except ε α → Bool
  | .ok _ => true
  | .error _ => false

/-- `Array.prototype.map` with a callback that can throw: the first thrown
error aborts the whole map. -/
def exceptMapList {ε α β : Type} (g : α → Except ε β) : List α → Except ε (List β)
  | [] => .ok []
  | a :: l =>
    match g a with
    | .error e => .error e
    | .ok b =>
      match exceptMapList g l with
      | .error e => .error e
      | .ok bs => .ok (b :: bs)

theorem exceptMapList_ok_length {ε α β : Type} {g : α → Except ε β}
    {l : List α} {out : List β} (h : exceptMapList g l = .ok out) :
    out.length = l.length := by
  induction l generalizing out with
  | nil =>
    simp only [exceptMapList, Except.ok.injEq] at h
    simp [← h]
  | cons a l ih =>
    simp only [exceptMapList] at h
    cases hg : g a with
    | error e => rw [hg] at h; simp at h
    | ok b =>
      rw [hg] at h
      cases hrec : exceptMapList g l with
      | error e => rw [hrec] at h; simp at h
      | ok bs =>
        rw [hrec] at h
        simp only [Except.ok.injEq] at h
        simp [← h, ih hrec]

theorem exceptMapList_ok_mem {ε α β : Type} {g : α → Except ε β}
    {l : List α} {out : List β} (h : exceptMapList g l = .ok out) :
    ∀ b ∈ out, ∃ a ∈ l, g a = .ok b := by
  induction l generalizing out with
  | nil =>
    simp only [exceptMapList, Except.ok.injEq] at h
    subst h
    intro b hb
    simp at hb
  | cons a l ih =>
    simp only [exceptMapList] at h
    cases hg : g a with
    | error e => rw [hg] at h; simp at h
    | ok b0 =>
      rw [hg] at h
      cases hrec : exceptMapList g l with
      | error e => rw [hrec] at h; simp at h
      | ok bs =>
        rw [hrec] at h
        simp only [Except.ok.injEq] at h
        subst h
        intro b hb
        rcases List.mem_cons.mp hb with rfl | hb'
        · exact ⟨a, List.mem_cons_self a l, hg⟩
        · obtain ⟨a', ha', hga'⟩ := ih hrec b hb'
          exact ⟨a', List.mem_cons_of_mem a ha', hga'⟩

theorem exceptMapList_error_of_mem {ε α β : Type} {g : α → Except ε β}
    {l : List α} {a : α} (hmem : a ∈ l) (hfail : exceptIsOk (g a) = false) :
    ∃ e, exceptMapList g l = .error e := by
  induction l with
  | nil => simp at hmem
  | cons x l ih =>
    rcases List.mem_cons.mp hmem with rfl | hmem'
    · cases hg : g a with
      | error e => exact ⟨e, by simp [exceptMapList, hg]⟩
      | ok b => rw [hg] at hfail; simp [exceptIsOk] at hfail
    · cases hg : g x with
      | error e => exact ⟨e, by simp [exceptMapList, hg]⟩
      | ok b =>
        obtain ⟨e, he⟩ := ih hmem'
        exact ⟨e, by simp [exceptMapList, hg, he]⟩

/-- The frequency list of one aerodrome item:
`Array.isArray(aerodrome.frequencies) ? aerodrome.frequencies.map(...) : []`,
where the map throws on a rejected type. -/
def aerodromeFrequencies (a : OpenAipAirportItem) : Except String (List Frequency) :=
  match a.frequencies with
  | some fs => exceptMapList mapFrequency fs
  | none => .ok []

/-- One aerodrome item mapped to the canonical record. -/
def mapAerodromeItem (a : OpenAipAirportItem) : Except String Aerodrome :=
  match aerodromeFrequencies a with
  | .error e => .error e
  | .ok freqs =>
    .ok { icao := normalizeICAO (a.icaoCode.getD "")
          iata :=
            match a.iataCode with
            | some i => if i ≠ "" then some (normalizeIATA i) else none
            | none => none
          name := capitalizeWords a.name
          coords := a.geometryCoordinates
          elevation :=
            match a.elevation with
            | some e =>
              if e.unit = 0 ∧ e.referenceDatum = 1 then
                some (e.value * METERS_TO_FEET)
              else none
            | none => none
          declination := a.magneticDeclination
          runways :=
            match a.runways with
            | some rs => rs.map mapRunway
            | none => []
          frequencies := freqs
          ppr := a.ppr
          waypointVariant := "Aerodrome" }

/-- `baseApi` of the aerodrome pipeline (`aerodrome.ts`), modelled from the
point where the Gateway has returned a response whose JSON body is already
decoded.  On a non-success status it raises the `ApiError` envelope; a
missing or empty items list yields an empty success; an error thrown while
mapping an item (the frequency-type validator) propagates as a plain
error, because this pipeline has no surrounding try/catch. -/
def aerodromeBaseApi (endpoint : String)
    (r : HttpResponse (Option (OpenAipResponse OpenAipAirportItem))) :
    Except JsErr (List Aerodrome) :=
  if r.ok = false then
    .error (.api "OpenAIP" endpoint (some (.plain (httpCause r))))
  else
    match r.body with
    | none => .ok []
    | some data =>
      if data.items.length = 0 then .ok []
      else
        match exceptMapList mapAerodromeItem (data.items.filter keepAerodrome) with
        | .ok out => .ok out
        | .error msg => .error (.plain msg)

/-- The radius-search request that `getAerodromeByRadius` would issue. -/
structure AerodromeRadiusRequest where
  lat : Rat
  lon : Rat
  distMeters : Rat
  types : List Nat
  limit : Nat

/-- `toFixed(2)` followed by `parseFloat`: round to 2 decimal places (to
the nearest multiple of 1/100, ties toward the larger scaled integer, as
the ECMAScript `toFixed` algorithm specifies). -/
def toFixed2 (q : Rat) : Rat := ((⌊q * 100 + 1 / 2⌋ : Int) : Rat) / 100

/-- The input validation and request construction of `getAerodromeByRadius`
(`aerodrome.ts`): non-positive distances and non-2-element locations throw
before any request is built; otherwise coordinates are rounded to 2
decimals and the distance converted from kilometers to meters. -/
def getAerodromeByRadius (location : List Rat) (distance : Rat) :
    Except JsErr AerodromeRadiusRequest :=
  if distance ≤ 0 then .error (.plain "Distance must be a positive number")
  else if location.length ≠ 2 then .error (.plain "Location must be a 2D coordinate")
  else
    .ok { lat := toFixed2 (location.getD 1 0)
          lon := toFixed2 (location.getD 0 0)
          distMeters := distance * KM_TO_METERS
          types := AIRPORT_TYPES
          limit := 200 }

/-! ## Navaid pipeline (`navaid.ts`) -/

/-- `OpenAipNavaidItem` from `openaip-config.ts`. -/
structure OpenAipNavaidItem where
  identifier : String
  name : Option String
  geometryCoordinates : Rat × Rat
  elevationValue : Option Rat
  frequencyValue : Option Rat

/-- The synthetic `"NAV"`-type frequency entry of a navaid record. -/
structure NavFrequency where
  type : String
  frequency : Rat
  name : Option String

/-- A navaid mapped onto the Aerodrome shape (the documented modeling
compromise): identifier as code, no runways, zero-or-one synthetic
frequency. -/
structure NavaidRecord where
  icao : String
  name : String
  coords : Rat × Rat
  elevation : Rat
  runways : List Runway
  frequencies : List NavFrequency

/-- The navaid filter: `.filter((navaid) => navaid.identifier)` — only a
non-empty identifier is required, with no syntactic ICAO validation. -/
def keepNavaid (n : OpenAipNavaidItem) : Bool := n.identifier ≠ ""

/-- One navaid item mapped to the interim Aerodrome-shaped record. -/
def mapNavaidItem (n : OpenAipNavaidItem) : NavaidRecord :=
  { icao := n.identifier
    name :=
      match n.name with
      | some s => if s ≠ "" then s else n.identifier
      | none => n.identifier
    coords := n.geometryCoordinates
    elevation := n.elevationValue.getD 0
    runways := []
    frequencies :=
      match n.frequencyValue with
      | some v => [{ type := "NAV", frequency := v, name := n.name }]
      | none => [] }

/-- `baseApi` of the navaid pipeline (`navaid.ts`), from the decoded
response onward. -/
def navaidBaseApi (endpoint : String)
    (r : HttpResponse (Option (OpenAipResponse OpenAipNavaidItem))) :
    Except JsErr (List NavaidRecord) :=
  if r.ok = false then
    .error (.api "OpenAIP" endpoint (some (.plain (httpCause r))))
  else
    match r.body with
    | none => .ok []
    | some data =>
      if data.items.length = 0 then .ok []
      else .ok ((data.items.filter keepNavaid).map mapNavaidItem)

/-! ## METAR pipeline (`aviationweather.ts`) -/

/-- A raw METAR item as decoded from the upstream JSON list. -/
structure RawMetar where
  icaoId : String
  rawOb : String
  rawTaf : Option String
  lon : Rat
  lat : Rat

/-- Canonical `MetarStation`. -/
structure MetarStation where
  station : String
  metar : DecodedMetar
  tafRaw : Option String
  coords : Rat × Rat

/-- The body of the try block of the METAR `baseApi`: a 204 status throws
`ApiError('METAR', url, options, 'No Content')` before the `response.ok`
check; a non-2xx status throws the `ApiError` envelope; an absent or empty
list is an empty success; surviving items are mapped through the external
decoder. -/
def metarBaseApiInner (endpoint : String)
    (r : HttpResponse (Option (List RawMetar))) :
    Except JsErr (List MetarStation) :=
  if r.status = 204 then
    .error (.api "METAR" endpoint (some (.plain "No Content")))
  else if r.ok = false then
    .error (.api "METAR" endpoint (some (.plain (httpCause r))))
  else
    match r.body with
    | none => .ok []
    | some data =>
      if data.length = 0 then .ok []
      else
        .ok (data.map fun m =>
          { station := normalizeICAO m.icaoId
            metar := createMetarFromString m.rawOb
            tafRaw := m.rawTaf
            coords := (m.lon, m.lat) })

/-- `baseApi` of the METAR pipeline: the catch clause re-wraps any error in
the `ApiError` envelope. -/
def metarBaseApi (endpoint : String) (r : HttpResponse (Option (List RawMetar))) :
    Except JsErr (List MetarStation) :=
  match metarBaseApiInner endpoint r with
  | .ok v => .ok v
  | .error e => .error (.api "METAR" endpoint (some e))

/-- String join with a separator (JavaScript `Array.prototype.join`). -/
def joinSep (sep : String) : List String → String
  | [] => ""
  | [x] => x
  | x :: xs => x ++ sep ++ joinSep sep xs

/-- Renders the value `t / 100` in minimal decimal notation (no trailing
zeros, no decimal point for integers). -/
def fixed2StrInt (t : Int) : String :=
  let sgn := if t < 0 then "-" else ""
  let a := t.natAbs
  let ip := a / 100
  let fr := a % 100
  if fr = 0 then sgn ++ natStr ip
  else if fr % 10 = 0 then sgn ++ natStr ip ++ "." ++ natStr (fr / 10)
  else if fr < 10 then sgn ++ natStr ip ++ ".0" ++ natStr fr
  else sgn ++ natStr ip ++ "." ++ natStr fr

/-- JavaScript number-to-string for a value produced by
`parseFloat(x.toFixed(2))`, i.e. an exact multiple of 1/100: minimal
decimal notation without trailing zeros. -/
def fixed2Str (q : Rat) : String := fixed2StrInt ⌊q * 100⌋

/-- The reordering and rounding of `getMetarStationsByBbox`: the GeoJSON
bounding box `[west, south, east, north]` is re-emitted as
`[south, west, north, east]`, each rounded to 2 decimal places. -/
def bboxReversed (west south east north : Rat) : List Rat :=
  [toFixed2 south, toFixed2 west, toFixed2 north, toFixed2 east]

/-- The query URI built by `getMetarStationsByBbox` (`aviationweather.ts`)
when no date is supplied (the date parameter is then the empty string). -/
def getMetarStationsByBboxUri (west south east north : Rat) : String :=
  "metar?bbox=" ++ joinSep "," ((bboxReversed west south east north).map fixed2Str)
    ++ "&format=json&taf=true"

/-! ## NOTAM transformation (`faa-notam.ts`)

String-valued raw fields use `""` for a missing (undefined) value: for
these fields the source only tests truthiness (`x || y`, `x ? _ : _`),
where the empty string and `undefined` behave identically. -/

/-- A raw FAA NOTAM record. -/
structure RawNotam where
  notamNumber : String
  icaoId : String
  traditionalMessageFrom4thWord : String
  traditionalMessage : String
  icaoMessage : String
  notamGeometry : String
  mapPointer : String
  startDate : String
  endDate : String
  issueDate : String
  source : String

inductive NotamType | A
deriving DecidableEq, Repr

inductive NotamScope | A
deriving DecidableEq, Repr

inductive NotamPriority | NORMAL
deriving DecidableEq, Repr

structure NotamSchedule where
  effectiveFrom : Int
  effectiveUntil : Option Int
deriving DecidableEq, Repr

/-- Canonical `Notam` record (timestamps in minutes since the Unix
epoch). -/
structure Notam where
  id : String
  icao : Option String
  type : NotamType
  scope : NotamScope
  priority : NotamPriority
  subject : String
  text : String
  coordinates : Option Coordinates
  schedule : NotamSchedule
  source : Option String
  raw : String
  issued : Int
deriving DecidableEq, Repr

/-- `transformNotamData` from `faa-notam.ts`; `now` is the current time
used as the default for unparsable dates. -/
def transformNotamData (now : Int) (notam : RawNotam) : Notam :=
  { id := notam.notamNumber
    icao := if isICAO notam.icaoId then some (normalizeICAO notam.icaoId) else none
    type := NotamType.A
    scope := NotamScope.A
    priority := NotamPriority.NORMAL
    subject := ""
    text := parseText
      (if notam.traditionalMessageFrom4thWord ≠ "" then
        notam.traditionalMessageFrom4thWord
      else if notam.traditionalMessage ≠ "" then notam.traditionalMessage
      else notam.icaoMessage)
    coordinates :=
      if notam.notamGeometry ≠ "" then parsePoint notam.notamGeometry
      else if notam.mapPointer ≠ "" then parsePoint notam.mapPointer
      else none
    schedule :=
      { effectiveFrom := (parseNotamDate notam.startDate).getD now
        effectiveUntil := parseNotamDate notam.endDate }
    source := if notam.source ≠ "" then some notam.source else none
    raw := notam.icaoMessage
    issued := (parseNotamDate notam.issueDate).getD now }

/-! ## Claim theorems -/

/-- C1: For every input string, the NOTAM date parser returns a timestamp
exactly when the input matches the fixed pattern `MM/DD/YYYY HHMM`
(two-digit month, two-digit day, four-digit year, four-digit time),
interpreting the components as UTC; in particular `"09/11/2025 1707"`
parses to the UTC timestamp 2025-09-11T17:07:00Z, and any other shape
(wrong zero-padding such as `"9/11/2025 1707"`, or the empty string)
yields `none` rather than an error. -/
theorem C1_parseNotamDate_shape_and_utc :
    (∀ s : String, (parseNotamDate s).isSome = true ↔ NotamDateShape s) ∧
    parseNotamDate "09/11/2025 1707" = some (utcMinutes 2025 9 11 17 7) ∧
    parseNotamDate "9/11/2025 1707" = none ∧
    parseNotamDate "" = none :=
  ⟨parseNotamDate_isSome_iff, by decide, by decide, by decide⟩

/-- C10: For every input matching the digit shape `MM/DD/YYYY HHMM`, the
NOTAM date parser returns a timestamp even when a component is outside its
calendar range; the out-of-range components roll over into adjacent dates
(`Date.UTC` normalization): month 13 rolls into January of the next year,
day 30 of February rolls into March, hours/minutes 25:75 roll into the
next day.  The caller's default-to-now substitution is therefore never
applied to shape-valid dates. -/
theorem C10_parseNotamDate_rollover :
    (∀ s : String, NotamDateShape s → (parseNotamDate s).isSome = true) ∧
    parseNotamDate "13/01/2025 0000" = some (utcMinutes 2026 1 1 0 0) ∧
    parseNotamDate "02/30/2025 0000" = some (utcMinutes 2025 3 2 0 0) ∧
    parseNotamDate "09/11/2025 2575" = some (utcMinutes 2025 9 12 2 15) :=
  ⟨fun s h => (parseNotamDate_isSome_iff s).mpr h, by decide, by decide,
    by decide⟩

/-- C10 witness: the rollover theorem applied at the concrete shape-valid
input `"13/01/2025 0000"`. -/
theorem C10_parseNotamDate_rollover_witness :
    (parseNotamDate "13/01/2025 0000").isSome = true :=
  C10_parseNotamDate_rollover.1 "13/01/2025 0000"
    ⟨['1', '3'], ['0', '1'], ['2', '0', '2', '5'], [' '], ['0', '0', '0', '0'],
      by decide, by decide, by decide, by decide, by decide, by decide,
      by decide, by decide, by decide, by decide, by decide⟩

/-- C9: For every raw NOTAM record, the `icao` field of the canonical
record is present exactly when the source identifier `icaoId` is
syntactically valid as an ICAO code (and then equals its normalization);
it is absent otherwise. -/
theorem C9_transformNotamData_icao :
    ∀ (now : Int) (raw : RawNotam),
      ((transformNotamData now raw).icao).isSome = isICAO raw.icaoId ∧
      (transformNotamData now raw).icao =
        (if isICAO raw.icaoId then some (normalizeICAO raw.icaoId) else none) := by
  intro now raw
  constructor
  · by_cases h : isICAO raw.icaoId = true
    · simp [transformNotamData, h]
    · simp only [Bool.not_eq_true] at h
      simp [transformNotamData, h]
  · rfl

/-- C3: Every call to the aerodrome radius search with a non-positive
distance, or with a location whose length is not exactly 2, fails
validation with the corresponding error before any request is built (the
error branch carries no request value); in particular `distance = 0`,
`distance = -5` and `location = [1,2,3]` all fail. -/
theorem C3_getAerodromeByRadius_validation :
    (∀ (location : List Rat) (distance : Rat),
      distance ≤ 0 ∨ location.length ≠ 2 →
        getAerodromeByRadius location distance =
          .error (.plain (if distance ≤ 0 then "Distance must be a positive number"
            else "Location must be a 2D coordinate"))) ∧
    getAerodromeByRadius [1, 2] 0 =
      .error (.plain "Distance must be a positive number") ∧
    getAerodromeByRadius [1, 2] (-5) =
      .error (.plain "Distance must be a positive number") ∧
    getAerodromeByRadius [1, 2, 3] 50 =
      .error (.plain "Location must be a 2D coordinate") := by
  refine ⟨?_, ?_, ?_, ?_⟩
  · intro location distance h
    by_cases hd : distance ≤ 0
    · unfold getAerodromeByRadius
      rw [if_pos hd, if_pos hd]
    · have hl : location.length ≠ 2 := h.resolve_left hd
      unfold getAerodromeByRadius
      rw [if_neg hd, if_neg hd, if_pos hl]
  · unfold getAerodromeByRadius
    rw [if_pos (by norm_num)]
  · unfold getAerodromeByRadius
    rw [if_pos (by norm_num)]
  · unfold getAerodromeByRadius
    rw [if_neg (by norm_num), if_pos (by norm_num)]

/-- C3 witness: the validation theorem applied at the concrete inputs
`location = [1,2,3]`, `distance = 50`. -/
theorem C3_getAerodromeByRadius_validation_witness :
    getAerodromeByRadius [1, 2, 3] 50 =
      .error (.plain (if (50 : Rat) ≤ 0 then "Distance must be a positive number"
        else "Location must be a 2D coordinate")) :=
  C3_getAerodromeByRadius_validation.1 [1, 2, 3] 50 (Or.inr (by norm_num))

/-- C4: Every METAR pipeline invocation whose upstream response carries
HTTP status 204 fails with the `ApiError` envelope (the 204-specific
"No Content" `ApiError` is thrown inside the try block and re-wrapped by
the catch clause), rather than returning an empty success list. -/
theorem C4_metarBaseApi_204 :
    ∀ (endpoint : String) (r : HttpResponse (Option (List RawMetar))),
      r.status = 204 →
        metarBaseApi endpoint r =
          .error (.api "METAR" endpoint
            (some (.api "METAR" endpoint (some (.plain "No Content"))))) := by
  intro endpoint r h
  have hinner : metarBaseApiInner endpoint r =
      .error (.api "METAR" endpoint (some (.plain "No Content"))) := by
    unfold metarBaseApiInner
    rw [if_pos h]
  unfold metarBaseApi
  rw [hinner]

/-- C4 witness: the 204 theorem applied at a concrete 204 response. -/
theorem C4_metarBaseApi_204_witness :
    metarBaseApi "metar?ids=KJFK&format=json&taf=true"
      ⟨204, "No Content", none⟩ =
      .error (.api "METAR" "metar?ids=KJFK&format=json&taf=true"
        (some (.api "METAR" "metar?ids=KJFK&format=json&taf=true"
          (some (.plain "No Content"))))) :=
  C4_metarBaseApi_204 "metar?ids=KJFK&format=json&taf=true"
    ⟨204, "No Content", none⟩ rfl

/-- C5: For every bounding box `[west, south, east, north]`, the METAR
bounding-box operation places the coordinates into the query reordered as
south, west, north, east, each rounded to 2 decimal places; in particular
`[west=-10, south=20, east=-5, north=30]` is emitted as `20,-10,30,-5`. -/
theorem C5_getMetarStationsByBbox_reorder :
    (∀ west south east north : Rat,
      bboxReversed west south east north =
        [toFixed2 south, toFixed2 west, toFixed2 north, toFixed2 east] ∧
      getMetarStationsByBboxUri west south east north =
        "metar?bbox=" ++
          joinSep "," ([toFixed2 south, toFixed2 west, toFixed2 north,
            toFixed2 east].map fixed2Str) ++ "&format=json&taf=true") ∧
    getMetarStationsByBboxUri (-10) 20 (-5) 30 =
      "metar?bbox=20,-10,30,-5&format=json&taf=true" := by
  refine ⟨fun west south east north => ⟨rfl, rfl⟩, ?_⟩
  have t20 : toFixed2 (20 : Rat) = 20 := by
    unfold toFixed2
    norm_num
  have tm10 : toFixed2 (-10 : Rat) = -10 := by
    unfold toFixed2
    norm_num
  have t30 : toFixed2 (30 : Rat) = 30 := by
    unfold toFixed2
    norm_num
  have tm5 : toFixed2 (-5 : Rat) = -5 := by
    unfold toFixed2
    norm_num
  have f20 : fixed2Str (20 : Rat) = "20" := by
    unfold fixed2Str
    rw [show ⌊(20 : Rat) * 100⌋ = 2000 by norm_num]
    decide
  have fm10 : fixed2Str (-10 : Rat) = "-10" := by
    unfold fixed2Str
    rw [show ⌊(-10 : Rat) * 100⌋ = -1000 by norm_num]
    decide
  have f30 : fixed2Str (30 : Rat) = "30" := by
    unfold fixed2Str
    rw [show ⌊(30 : Rat) * 100⌋ = 3000 by norm_num]
    decide
  have fm5 : fixed2Str (-5 : Rat) = "-5" := by
    unfold fixed2Str
    rw [show ⌊(-5 : Rat) * 100⌋ = -500 by norm_num]
    decide
  unfold getMetarStationsByBboxUri bboxReversed
  rw [t20, tm10, t30, tm5]
  rw [List.map_cons, List.map_cons, List.map_cons, List.map_cons, List.map_nil]
  rw [f20, fm10, f30, fm5]
  decide

/-- C6: For every input string, the point parser returns a coordinates
pair exactly when the input is a bracketed two-number array `[lon,lat]` or
a WKT-style `POINT(lon lat)` string with latitude in [-90, 90] and
longitude in [-180, 180]; both `"[-73.78,40.65]"` and
`"POINT(-73.78 40.65)"` parse to longitude -73.78 / latitude 40.65, while
out-of-range input such as `"[200,40]"` yields `none`; the parser is a
total function, so it never throws. -/
theorem C6_parsePoint_spec :
    (∀ s : String, (parsePoint s).isSome = true ↔ ValidPointString s) ∧
    parsePoint "[-73.78,40.65]" =
      some { latitude := (40.65 : Rat), longitude := (-73.78 : Rat) } ∧
    parsePoint "POINT(-73.78 40.65)" =
      some { latitude := (40.65 : Rat), longitude := (-73.78 : Rat) } ∧
    parsePoint "[200,40]" = none := by
  refine ⟨parsePoint_isSome_iff, ?_, ?_, ?_⟩
  · have hm : matchArrayPoint "[-73.78,40.65]".toList =
        some ((true, ['7', '3'], ['7', '8']), (false, ['4', '0'], ['6', '5'])) := by
      decide
    have d1 : digitsToNat ['7', '3'] = 73 := by decide
    have d2 : digitsToNat ['7', '8'] = 78 := by decide
    have d3 : digitsToNat ['4', '0'] = 40 := by decide
    have d4 : digitsToNat ['6', '5'] = 65 := by decide
    unfold parsePoint
    rw [if_neg (by decide : ¬("[-73.78,40.65]" = "")), hm]
    dsimp only
    rw [numValue, numValue, d1, d2, d3, d4]
    norm_num
  · have hma : matchArrayPoint "POINT(-73.78 40.65)".toList = none := by decide
    have hm : matchWktPoint "POINT(-73.78 40.65)".toList =
        some ((true, ['7', '3'], ['7', '8']), (false, ['4', '0'], ['6', '5'])) := by
      decide
    have d1 : digitsToNat ['7', '3'] = 73 := by decide
    have d2 : digitsToNat ['7', '8'] = 78 := by decide
    have d3 : digitsToNat ['4', '0'] = 40 := by decide
    have d4 : digitsToNat ['6', '5'] = 65 := by decide
    unfold parsePoint
    rw [if_neg (by decide : ¬("POINT(-73.78 40.65)" = "")), hma, hm]
    dsimp only
    rw [numValue, numValue, d1, d2, d3, d4]
    norm_num
  · have hm : matchArrayPoint "[200,40]".toList =
        some ((false, ['2', '0', '0'], []), (false, ['4', '0'], [])) := by
      decide
    have d1 : digitsToNat ['2', '0', '0'] = 200 := by decide
    have d3 : digitsToNat ['4', '0'] = 40 := by decide
    have d0 : digitsToNat [] = 0 := by decide
    unfold parsePoint
    rw [if_neg (by decide : ¬("[200,40]" = "")), hm]
    dsimp only
    rw [numValue, numValue, d1, d3, d0]
    norm_num

/-- Whether a pipeline result is a failure raised as a plain error (not the
`ApiError` envelope). -/
def failureIsPlain {α : Type} : Except JsErr α → Bool
  | .error (.plain _) => true
  | _ => false

/-- Whether a pipeline result is a failure carried by the `ApiError`
envelope. -/
def failureIsApiEnvelope {α : Type} : Except JsErr α → Bool
  | .error (.api _ _ _) => true
  | _ => false

theorem mapFrequency_isOk (f : RawFrequency) :
    exceptIsOk (mapFrequency f) = exceptIsOk (validateFrequencyType f.type) := by
  unfold mapFrequency
  cases hv : validateFrequencyType f.type with
  | error e => simp [Except.map, exceptIsOk]
  | ok t => simp [Except.map, exceptIsOk]

/-- C2 (amended): in the live Aerodrome pipeline (`aerodrome.ts`), a
frequency entry whose type is rejected by the external validator causes
the whole pipeline invocation to fail — no item or frequency is skipped —
but the failure is the validator's own raised error, not wrapped in the
`ApiError` envelope, because this pipeline has no try/catch around the
mapping (the superseded `openaip.ts` draft did wrap it). -/
theorem C2_invalid_frequency_fails_pipeline :
    ∀ (endpoint : String)
      (r : HttpResponse (Option (OpenAipResponse OpenAipAirportItem)))
      (data : OpenAipResponse OpenAipAirportItem) (item : OpenAipAirportItem)
      (fs : List RawFrequency) (f : RawFrequency),
      r.ok = true → r.body = some data → item ∈ data.items →
      keepAerodrome item = true → item.frequencies = some fs → f ∈ fs →
      exceptIsOk (validateFrequencyType f.type) = false →
      failureIsPlain (aerodromeBaseApi endpoint r) = true ∧
      failureIsApiEnvelope (aerodromeBaseApi endpoint r) = false := by
  intro endpoint r data item fs f hok hbody hmem hkeep hfs hf hfail
  have hfail1 : exceptIsOk (mapFrequency f) = false := by
    rw [mapFrequency_isOk]; exact hfail
  have hfreqs : ∃ e, aerodromeFrequencies item = .error e := by
    unfold aerodromeFrequencies
    rw [hfs]
    exact exceptMapList_error_of_mem hf hfail1
  obtain ⟨e0, he0⟩ := hfreqs
  have hitem : exceptIsOk (mapAerodromeItem item) = false := by
    unfold mapAerodromeItem
    rw [he0]
    rfl
  have hmemf : item ∈ data.items.filter keepAerodrome :=
    List.mem_filter.mpr ⟨hmem, hkeep⟩
  obtain ⟨msg, hmsg⟩ := exceptMapList_error_of_mem hmemf hitem
  have hne : ¬(data.items.length = 0) := by
    intro h0
    rw [List.length_eq_zero] at h0
    rw [h0] at hmem
    simp at hmem
  have hresult : aerodromeBaseApi endpoint r = .error (.plain msg) := by
    unfold aerodromeBaseApi
    rw [if_neg (by rw [hok]; simp), hbody]
    dsimp only
    rw [if_neg hne, hmsg]
  rw [hresult]
  exact ⟨rfl, rfl⟩

/-- An aerodrome item whose single frequency has the rejected type code
99. -/
def exFreqItem : OpenAipAirportItem :=
  { icaoCode := some "EHAM"
    iataCode := none
    name := "Amsterdam"
    geometryCoordinates := (4, 52)
    elevation := none
    magneticDeclination := none
    ppr := none
    runways := none
    frequencies := some [{ type := 99, name := none, value := 120 }] }

/-- A successful response whose only item is `exFreqItem`. -/
def exFreqResp : HttpResponse (Option (OpenAipResponse OpenAipAirportItem)) :=
  ⟨200, "OK", some ⟨[exFreqItem], none⟩⟩

/-- C2 counterexample: on a decoded response whose surviving item carries a
frequency of rejected type 99, the live Aerodrome pipeline fails with the
validator's plain error, not with the `ApiError` envelope the claim
states. -/
theorem C2_invalid_frequency_counterexample :
    aerodromeBaseApi "airports?search=EHAM&limit=1" exFreqResp =
      .error (.plain ("Invalid frequency type: " ++ natStr 99)) ∧
    failureIsApiEnvelope
      (aerodromeBaseApi "airports?search=EHAM&limit=1" exFreqResp) = false ∧
    failureIsPlain
      (aerodromeBaseApi "airports?search=EHAM&limit=1" exFreqResp) = true :=
  ⟨rfl, rfl, rfl⟩

/-- C2 witness: the amended theorem applied at the concrete response
`exFreqResp` with the rejected frequency type 99. -/
theorem C2_invalid_frequency_fails_pipeline_witness :
    failureIsPlain (aerodromeBaseApi "airports?search=EHAM&limit=1" exFreqResp)
        = true ∧
    failureIsApiEnvelope
      (aerodromeBaseApi "airports?search=EHAM&limit=1" exFreqResp) = false :=
  C2_invalid_frequency_fails_pipeline "airports?search=EHAM&limit=1" exFreqResp
    ⟨[exFreqItem], none⟩ exFreqItem [{ type := 99, name := none, value := 120 }]
    { type := 99, name := none, value := 120 } rfl rfl (by simp [exFreqItem])
    (by decide) rfl (by simp) (by decide)

/-- C8 (amended): the Aerodrome mapping excludes every raw item lacking a
valid ICAO code — each output record descends from an item whose code
passed the syntactic ICAO check, and the output is never longer than the
input item list.  The Navaid mapping, however, filters only on a
*non-empty* identifier, so navaid records are not guaranteed a
syntactically valid code (see the counterexample); its output length is
also bounded by the input item count. -/
theorem C8_icao_filtering :
    (∀ (endpoint : String)
      (r : HttpResponse (Option (OpenAipResponse OpenAipAirportItem)))
      (data : OpenAipResponse OpenAipAirportItem) (out : List Aerodrome),
      r.body = some data → aerodromeBaseApi endpoint r = .ok out →
        out.length ≤ data.items.length ∧
        ∀ rec ∈ out, ∃ a ∈ data.items, ∃ c, a.icaoCode = some c ∧
          isICAO c = true ∧ rec.icao = normalizeICAO c) ∧
    (∀ (endpoint : String)
      (r : HttpResponse (Option (OpenAipResponse OpenAipNavaidItem)))
      (data : OpenAipResponse OpenAipNavaidItem) (out : List NavaidRecord),
      r.body = some data → navaidBaseApi endpoint r = .ok out →
        out.length ≤ data.items.length ∧
        ∀ rec ∈ out, rec.icao ≠ "") := by
  constructor
  · intro endpoint r data out hbody h
    unfold aerodromeBaseApi at h
    by_cases hok : r.ok = false
    · rw [if_pos hok] at h
      exact Except.noConfusion h
    · rw [if_neg hok, hbody] at h
      dsimp only at h
      by_cases hlen : data.items.length = 0
      · rw [if_pos hlen] at h
        injection h with h'
        subst h'
        exact ⟨by simp, by intro rec hrec; simp at hrec⟩
      · rw [if_neg hlen] at h
        cases hm : exceptMapList mapAerodromeItem (data.items.filter keepAerodrome) with
        | error e => rw [hm] at h; exact Except.noConfusion h
        | ok out' =>
          rw [hm] at h
          injection h with h'
          subst h'
          constructor
          · rw [exceptMapList_ok_length hm]
            exact List.length_filter_le keepAerodrome data.items
          · intro rec hrec
            obtain ⟨a, ha, hga⟩ := exceptMapList_ok_mem hm rec hrec
            obtain ⟨hmem, hkeep⟩ := List.mem_filter.mp ha
            unfold keepAerodrome at hkeep
            cases hcode : a.icaoCode with
            | none => rw [hcode] at hkeep; simp at hkeep
            | some c =>
              rw [hcode] at hkeep
              simp only [Bool.and_eq_true, decide_eq_true_eq] at hkeep
              have hicao : rec.icao = normalizeICAO (a.icaoCode.getD "") := by
                unfold mapAerodromeItem at hga
                cases hfr : aerodromeFrequencies a with
                | error e => rw [hfr] at hga; exact Except.noConfusion hga
                | ok freqs =>
                  rw [hfr] at hga
                  injection hga with hga'
                  rw [← hga']
              refine ⟨a, hmem, c, hcode, hkeep.2, ?_⟩
              rw [hicao, hcode]
              rfl
  · intro endpoint r data out hbody h
    unfold navaidBaseApi at h
    by_cases hok : r.ok = false
    · rw [if_pos hok] at h
      exact Except.noConfusion h
    · rw [if_neg hok, hbody] at h
      dsimp only at h
      by_cases hlen : data.items.length = 0
      · rw [if_pos hlen] at h
        injection h with h'
        subst h'
        exact ⟨by simp, by intro rec hrec; simp at hrec⟩
      · rw [if_neg hlen] at h
        injection h with h'
        subst h'
        constructor
        · rw [List.length_map]
          exact List.length_filter_le keepNavaid data.items
        · intro rec hrec
          obtain ⟨n, hn, heq⟩ := List.mem_map.mp hrec
          obtain ⟨-, hkeep⟩ := List.mem_filter.mp hn
          unfold keepNavaid at hkeep
          simp only [decide_eq_true_eq] at hkeep
          rw [← heq]
          exact hkeep

/-- A navaid item whose identifier `"AB"` is not a syntactically valid
4-letter ICAO code. -/
def exNavItem : OpenAipNavaidItem :=
  { identifier := "AB"
    name := none
    geometryCoordinates := (5, 51)
    elevationValue := none
    frequencyValue := none }

/-- A successful response whose only item is `exNavItem`. -/
def exNavResp : HttpResponse (Option (OpenAipResponse OpenAipNavaidItem)) :=
  ⟨200, "OK", some ⟨[exNavItem], none⟩⟩

/-- C8 counterexample: the Navaid mapping constructs a canonical record
whose code `"AB"` is not a syntactically valid ICAO code — the navaid
filter only drops items with an empty identifier, so the claim's "no
canonical record is ever constructed without a syntactically valid code"
fails on the Navaid side. -/
theorem C8_icao_filtering_counterexample :
    navaidBaseApi "navaids?search=AB&limit=1" exNavResp =
      .ok [mapNavaidItem exNavItem] ∧
    (mapNavaidItem exNavItem).icao = "AB" ∧
    isICAO "AB" = false :=
  ⟨rfl, rfl, by decide⟩

/-! ## Idempotence of the NOTAM text normalizer (`parseText`) -/
/-! ## Character-level facts about `Char.toUpper` and the word classes -/

theorem charEq_iff_toNat (c c' : Char) : c = c' ↔ c.toNat = c'.toNat := by
  constructor
  · rintro rfl; rfl
  · intro h
    exact Char.eq_of_val_eq (UInt32.ext h)

theorem toNat_ofNat_valid (n : Nat) (h : n.isValidChar) : (Char.ofNat n).toNat = n := by
  unfold Char.ofNat
  rw [dif_pos h]
  rfl

theorem toUpper_def (c : Char) :
    c.toUpper = if 97 ≤ c.toNat ∧ c.toNat ≤ 122 then Char.ofNat (c.toNat - 32) else c := rfl

theorem toNat_toUpper (c : Char) :
    c.toUpper.toNat = if 97 ≤ c.toNat ∧ c.toNat ≤ 122 then c.toNat - 32 else c.toNat := by
  rw [toUpper_def]
  by_cases h : 97 ≤ c.toNat ∧ c.toNat ≤ 122
  · rw [if_pos h, if_pos h, toNat_ofNat_valid]
    exact Or.inl (by omega)
  · rw [if_neg h, if_neg h]

theorem isWordC_iff_toNat (c : Char) :
    isWordC c = true ↔
      (65 ≤ c.toNat ∧ c.toNat ≤ 90) ∨ (97 ≤ c.toNat ∧ c.toNat ≤ 122) ∨
      (48 ≤ c.toNat ∧ c.toNat ≤ 57) ∨ c.toNat = 95 := by
  have h95 : c = '_' ↔ c.toNat = 95 := by
    rw [charEq_iff_toNat]
    rw [show ('_' : Char).toNat = 95 from rfl]
  simp only [isWordC, Char.isAlpha, Char.isUpper, Char.isLower, Char.isDigit,
    Bool.or_eq_true, Bool.and_eq_true, decide_eq_true_eq, beq_iff_eq]
  constructor
  · rintro (((⟨h1, h2⟩ | ⟨h1, h2⟩) | ⟨h1, h2⟩) | h1)
    · exact Or.inl ⟨h1, h2⟩
    · exact Or.inr (Or.inl ⟨h1, h2⟩)
    · exact Or.inr (Or.inr (Or.inl ⟨h1, h2⟩))
    · exact Or.inr (Or.inr (Or.inr (h95.mp h1)))
  · rintro (⟨h1, h2⟩ | ⟨h1, h2⟩ | ⟨h1, h2⟩ | h1)
    · exact Or.inl (Or.inl (Or.inl ⟨h1, h2⟩))
    · exact Or.inl (Or.inl (Or.inr ⟨h1, h2⟩))
    · exact Or.inl (Or.inr ⟨h1, h2⟩)
    · exact Or.inr (h95.mpr h1)

theorem isWordC_toUpper (c : Char) : isWordC c.toUpper = isWordC c := by
  have h1 := isWordC_iff_toNat c.toUpper
  have h2 := isWordC_iff_toNat c
  rw [toNat_toUpper] at h1
  by_cases h : 97 ≤ c.toNat ∧ c.toNat ≤ 122
  · rw [if_pos h] at h1
    have ha : isWordC c.toUpper = true := h1.mpr (Or.inl (by omega))
    have hb : isWordC c = true := h2.mpr (Or.inr (Or.inl h))
    rw [ha, hb]
  · rw [if_neg h] at h1
    rw [← h2] at h1
    cases hcu : isWordC c.toUpper <;> cases hc : isWordC c <;> simp_all

theorem toUpper_toUpper (c : Char) : c.toUpper.toUpper = c.toUpper := by
  have hx := toNat_toUpper c
  by_cases h : 97 ≤ c.toNat ∧ c.toNat ≤ 122
  · rw [if_pos h] at hx
    rw [charEq_iff_toNat, toNat_toUpper, hx,
      if_neg (by omega : ¬(97 ≤ c.toNat - 32 ∧ c.toNat - 32 ≤ 122))]
  · rw [if_neg h] at hx
    have hc : c.toUpper = c := (charEq_iff_toNat _ _).mpr hx
    rw [hc]
    exact hc

theorem toUpper_eq_self_of_not_word {c : Char} (h : isWordC c = false) : c.toUpper = c := by
  by_cases hl : 97 ≤ c.toNat ∧ c.toNat ≤ 122
  · have : isWordC c = true := (isWordC_iff_toNat c).mpr (Or.inr (Or.inl hl))
    rw [this] at h; cases h
  · rw [charEq_iff_toNat, toNat_toUpper, if_neg hl]

theorem isWordC_eq_of_toUpper_eq {a b : Char} (h : a.toUpper = b.toUpper) :
    isWordC a = isWordC b := by
  rw [← isWordC_toUpper a, ← isWordC_toUpper b, h]

theorem isSpaceC_iff_toNat (c : Char) :
    isSpaceC c = true ↔
      c.toNat = 32 ∨ c.toNat = 9 ∨ c.toNat = 10 ∨ c.toNat = 13 ∨
      c.toNat = 11 ∨ c.toNat = 12 := by
  simp only [isSpaceC, Bool.or_eq_true, beq_iff_eq, charEq_iff_toNat]
  rw [show (' ' : Char).toNat = 32 from rfl, show ('\t' : Char).toNat = 9 from rfl,
    show ('\n' : Char).toNat = 10 from rfl, show ('\r' : Char).toNat = 13 from rfl,
    show ('\x0b' : Char).toNat = 11 from rfl, show ('\x0c' : Char).toNat = 12 from rfl]
  tauto

theorem isSpaceC_toUpper (c : Char) : isSpaceC c.toUpper = isSpaceC c := by
  have h1 := isSpaceC_iff_toNat c.toUpper
  have h2 := isSpaceC_iff_toNat c
  rw [toNat_toUpper] at h1
  by_cases h : 97 ≤ c.toNat ∧ c.toNat ≤ 122
  · rw [if_pos h] at h1
    have ha : isSpaceC c.toUpper = false := by
      cases hv : isSpaceC c.toUpper
      · rfl
      · rcases h1.mp hv with h' | h' | h' | h' | h' | h' <;> omega
    have hb : isSpaceC c = false := by
      cases hv : isSpaceC c
      · rfl
      · rcases h2.mp hv with h' | h' | h' | h' | h' | h' <;> omega
    rw [ha, hb]
  · rw [if_neg h] at h1
    rw [← h2] at h1
    cases hcu : isSpaceC c.toUpper <;> cases hc : isSpaceC c <;> simp_all

theorem not_isWordC_of_isSpaceC {c : Char} (h : isSpaceC c = true) : isWordC c = false := by
  rcases (isSpaceC_iff_toNat c).mp h with h' | h' | h' | h' | h' | h' <;>
  · cases hv : isWordC c
    · rfl
    · rcases (isWordC_iff_toNat c).mp hv with hw | hw | hw | hw <;> omega

theorem toUpper_eq_slash_iff (c : Char) : c.toUpper = '/' ↔ c = '/' := by
  rw [charEq_iff_toNat, charEq_iff_toNat c, toNat_toUpper,
    show ('/' : Char).toNat = 47 from rfl]
  by_cases h : 97 ≤ c.toNat ∧ c.toNat ≤ 122
  · rw [if_pos h]
    omega
  · rw [if_neg h]

/-! ## Case-insensitive equality and word-run segmentation -/

/-- Case-insensitive equality of character lists (the sense in which
`/\bKEY\b/gi` compares a key with a slice of the text). -/
def ciEq (a b : List Char) : Bool := a.map Char.toUpper == b.map Char.toUpper

theorem ciEq_length {a b : List Char} (h : ciEq a b = true) : a.length = b.length := by
  have h' : a.map Char.toUpper = b.map Char.toUpper := by
    simpa [ciEq] using h
  have := congrArg List.length h'
  simpa using this

theorem ciEq_refl (a : List Char) : ciEq a a = true := by
  simp [ciEq]

/-- Segmentation of a text into maximal word-character runs (`true` tag) and
single non-word characters (`false` tag). -/
def segs : List Char → List (Bool × List Char)
  | [] => []
  | c :: rest =>
    if isWordC c then
      match segs rest with
      | (true, w) :: tl => (true, c :: w) :: tl
      | ss => (true, [c]) :: ss
    else (false, [c]) :: segs rest

theorem segs_nil : segs [] = [] := rfl

theorem segs_cons_sep {c : Char} (h : isWordC c = false) (t : List Char) :
    segs (c :: t) = (false, [c]) :: segs t := by
  simp [segs, h]

/-- A text that is empty or starts with a non-word character. -/
def SepHead (t : List Char) : Prop :=
  t = [] ∨ ∃ c t', t = c :: t' ∧ isWordC c = false

theorem segs_head_shape (t : List Char) (h : SepHead t) :
    segs t = [] ∨ ∃ c tl, segs t = (false, [c]) :: tl := by
  rcases h with rfl | ⟨c, t', rfl, hc⟩
  · exact Or.inl rfl
  · exact Or.inr ⟨c, segs t', segs_cons_sep hc t'⟩

theorem segs_run : ∀ w, w ≠ [] → (∀ c ∈ w, isWordC c = true) →
    ∀ t, SepHead t → segs (w ++ t) = (true, w) :: segs t := by
  intro w
  induction w with
  | nil => intro h; cases h rfl
  | cons c w' ih =>
    intro _ hww t ht
    have hc : isWordC c = true := hww c (by simp)
    by_cases hw' : w' = []
    · subst hw'
      rcases segs_head_shape t ht with h0 | ⟨d, tl, h0⟩
      · simp [segs, hc, h0]
      · simp [segs, hc, h0]
    · have hrec := ih hw' (fun d hd => hww d (by simp [hd])) t ht
      have hc2 : ((c :: w') ++ t : List Char) = c :: (w' ++ t) := rfl
      rw [hc2]
      simp only [segs]
      rw [if_pos hc, hrec]

theorem segs_append (a b : List Char) (hb : SepHead b) :
    segs (a ++ b) = segs a ++ segs b := by
  induction a with
  | nil => simp [segs_nil]
  | cons c a' ih =>
    have hstep : ((c :: a') ++ b : List Char) = c :: (a' ++ b) := rfl
    rw [hstep]
    by_cases hc : isWordC c = true
    · simp only [segs]
      rw [if_pos hc, if_pos hc, ih]
      cases ha' : segs a' with
      | nil =>
        rcases segs_head_shape b hb with h0 | ⟨d, tl, h0⟩ <;> simp [h0]
      | cons p tl =>
        rcases p with ⟨bb, w⟩
        cases bb <;> simp
    · have hc' : isWordC c = false := by
        cases hv : isWordC c
        · rfl
        · exact absurd hv hc
      rw [segs_cons_sep hc', segs_cons_sep hc', ih]
      simp

/-! ## Scan lemmas for `replaceWord` over word runs -/

theorem matchKeyCI_decomp : ∀ (key s r : List Char), matchKeyCI key s = some r →
    ∃ m, s = m ++ r ∧ ciEq m key = true := by
  intro key
  induction key with
  | nil =>
    intro s r h
    simp only [matchKeyCI, Option.some.injEq] at h
    exact ⟨[], by simp [h], ciEq_refl []⟩
  | cons k ks ih =>
    intro s r h
    match s with
    | [] => simp [matchKeyCI] at h
    | c :: cs =>
      simp only [matchKeyCI] at h
      by_cases hct : k.toUpper = c.toUpper
      · rw [if_pos hct] at h
        obtain ⟨m', hm1, hm2⟩ := ih cs r h
        refine ⟨c :: m', by simp [hm1], ?_⟩
        have h2 : m'.map Char.toUpper = ks.map Char.toUpper := by
          simpa [ciEq] using hm2
        simp [ciEq, h2, hct.symm]
      · rw [if_neg hct] at h
        cases h

theorem matchKeyCI_of_ciEq : ∀ (m key r : List Char), ciEq m key = true →
    matchKeyCI key (m ++ r) = some r := by
  intro m
  induction m with
  | nil =>
    intro key r h
    have : key.map Char.toUpper = [] := by simpa [ciEq] using h.symm
    have hkey : key = [] := by simpa using this
    subst hkey
    rfl
  | cons c m' ih =>
    intro key r h
    match key with
    | [] =>
      have : (c :: m').map Char.toUpper = [] := by simpa [ciEq] using h
      simp at this
    | k :: ks =>
      have h' : c.toUpper :: m'.map Char.toUpper = k.toUpper :: ks.map Char.toUpper := by
        simpa [ciEq] using h
      have h1 : k.toUpper = c.toUpper := (List.cons.injEq _ _ _ _ ▸ h').1.symm
      have h2 : ciEq m' ks = true := by
        simp [ciEq, (List.cons.injEq _ _ _ _ ▸ h').2]
      simp only [List.cons_append, matchKeyCI]
      rw [if_pos h1]
      exact ih ks r h2

theorem matchKeyCI_none_of_short_run :
    ∀ (w key t : List Char), (∀ c ∈ key, isWordC c = true) →
      (∀ c ∈ w, isWordC c = true) → w.length < key.length → SepHead t →
      matchKeyCI key (w ++ t) = none := by
  intro w
  induction w with
  | nil =>
    intro key t hkey _ hlen ht
    match key, hlen with
    | k :: ks, _ =>
      rcases ht with rfl | ⟨c, t', rfl, hc⟩
      · rfl
      · simp only [List.nil_append, matchKeyCI]
        rw [if_neg]
        intro hct
        have := isWordC_eq_of_toUpper_eq hct
        rw [hkey k (by simp), hc] at this
        cases this
  | cons a w' ih =>
    intro key t hkey hw hlen ht
    match key with
    | k :: ks =>
      simp only [List.cons_append, matchKeyCI]
      by_cases hct : k.toUpper = a.toUpper
      · rw [if_pos hct]
        refine ih ks t (fun c hc => hkey c (by simp [hc]))
          (fun c hc => hw c (by simp [hc])) ?_ ht
        simp only [List.length_cons] at hlen
        omega
      · rw [if_neg hct]

theorem wordBoundaryAfter_of_SepHead {t : List Char} (h : SepHead t) :
    wordBoundaryAfter t = true := by
  rcases h with rfl | ⟨c, t', rfl, hc⟩
  · rfl
  · simp [wordBoundaryAfter, hc]

theorem replaceWord_sep (k0 : Char) (krest e : List Char) (hk0 : isWordC k0 = true)
    {c : Char} (hc : isWordC c = false) (prev : Bool) (t : List Char) :
    replaceWord k0 krest e prev (c :: t) = c :: replaceWord k0 krest e false t := by
  have hm : matchKeyCI (k0 :: krest) (c :: t) = none := by
    simp only [matchKeyCI]
    rw [if_neg]
    intro hct
    have := isWordC_eq_of_toUpper_eq hct
    rw [hk0, hc] at this
    cases this
  simp only [replaceWord]
  split
  · rename_i r hr
    rw [hm] at hr
    cases hr
  · rw [hc]

theorem replaceWord_run_skip (k0 : Char) (krest e : List Char) :
    ∀ w, (∀ c ∈ w, isWordC c = true) → ∀ t,
      replaceWord k0 krest e true (w ++ t) = w ++ replaceWord k0 krest e true t := by
  intro w
  induction w with
  | nil => intro _ t; rfl
  | cons c w' ih =>
    intro hw t
    have hc : isWordC c = true := hw c (by simp)
    have hrest := ih (fun d hd => hw d (by simp [hd])) t
    show replaceWord k0 krest e true (c :: (w' ++ t)) = _
    simp only [replaceWord]
    split
    · rw [if_neg (by simp), hc, hrest]
      rfl
    · rw [hc, hrest]
      rfl

theorem replaceWord_run_fire (k0 : Char) (krest e : List Char) (w t : List Char)
    (hci : ciEq w (k0 :: krest) = true) (ht : SepHead t) :
    replaceWord k0 krest e false (w ++ t) = e ++ replaceWord k0 krest e true t := by
  have hm : matchKeyCI (k0 :: krest) (w ++ t) = some t := matchKeyCI_of_ciEq w _ t hci
  have hwne : w ≠ [] := by
    intro h
    subst h
    have := ciEq_length hci
    simp at this
  match w, hwne with
  | c :: w', _ =>
    have hm' : matchKeyCI (k0 :: krest) (c :: (w' ++ t)) = some t := by
      simpa using hm
    show replaceWord k0 krest e false (c :: (w' ++ t)) = _
    simp only [replaceWord]
    split
    · rename_i r hr
      rw [hm'] at hr
      have hrt : t = r := by injection hr
      subst hrt
      rw [if_pos ⟨trivial, wordBoundaryAfter_of_SepHead ht⟩]
    · rename_i hr
      rw [hm'] at hr
      cases hr

theorem replaceWord_run_nofire (k0 : Char) (krest e : List Char)
    (hkey : ∀ c ∈ k0 :: krest, isWordC c = true)
    (w : List Char) (hw : w ≠ []) (hww : ∀ c ∈ w, isWordC c = true)
    (t : List Char) (ht : SepHead t) (hci : ciEq w (k0 :: krest) = false) :
    replaceWord k0 krest e false (w ++ t) = w ++ replaceWord k0 krest e true t := by
  match w, hw with
  | c :: w', _ =>
    have hc : isWordC c = true := hww c (by simp)
    have hw' : ∀ d ∈ w', isWordC d = true := fun d hd => hww d (by simp [hd])
    show replaceWord k0 krest e false (c :: (w' ++ t)) = _
    simp only [replaceWord]
    split
    · rename_i r hr
      have hcond : ¬(True ∧ wordBoundaryAfter r = true) := by
        rintro ⟨-, hb⟩
        obtain ⟨m, hdecomp, hmci⟩ := matchKeyCI_decomp _ _ _ hr
        have hdecomp' : (c :: w') ++ t = m ++ r := by simpa using hdecomp
        have hlenm : m.length = (k0 :: krest).length := ciEq_length hmci
        rcases Nat.lt_trichotomy m.length (c :: w').length with hlt | heq | hgt
        · have hsplit : (c :: w') ++ t =
              (c :: w').take m.length ++ ((c :: w').drop m.length ++ t) := by
            rw [← List.append_assoc, List.take_append_drop]
          have hlen2 : m.length = ((c :: w').take m.length).length := by
            rw [List.length_take]
            omega
          obtain ⟨hm1, hm2⟩ := List.append_inj (hdecomp'.symm.trans hsplit) hlen2
          have hdne : (c :: w').drop m.length ≠ [] := by
            intro hnil
            have h1 := congrArg List.length hnil
            rw [List.length_drop] at h1
            simp only [List.length_nil] at h1
            omega
          match hd : (c :: w').drop m.length, hdne with
          | d :: d', _ =>
            have hdin : d ∈ (c :: w').drop m.length := by
              rw [hd]
              simp
            have hdw : isWordC d = true := hww d (List.drop_subset _ _ hdin)
            rw [hd] at hm2
            rw [hm2] at hb
            simp [wordBoundaryAfter, hdw] at hb
        · obtain ⟨hm1, hm2⟩ := List.append_inj hdecomp'.symm heq
          rw [← hm1] at hci
          rw [hmci] at hci
          cases hci
        · have hnone : matchKeyCI (k0 :: krest) ((c :: w') ++ t) = none :=
            matchKeyCI_none_of_short_run (c :: w') _ t hkey hww (by omega) ht
          have : matchKeyCI (k0 :: krest) (c :: (w' ++ t)) = none := by simpa using hnone
          rw [this] at hr
          cases hr
      rw [if_neg hcond, hc, replaceWord_run_skip k0 krest e w' hw' t]
      rfl
    · rw [hc, replaceWord_run_skip k0 krest e w' hw' t]
      rfl

theorem SepHead_replaceWord (k0 : Char) (krest e : List Char) (hk0 : isWordC k0 = true)
    {t : List Char} (ht : SepHead t) (prev : Bool) :
    SepHead (replaceWord k0 krest e prev t) := by
  rcases ht with rfl | ⟨c, t', rfl, hc⟩
  · left
    simp [replaceWord]
  · rw [replaceWord_sep k0 krest e hk0 hc]
    exact Or.inr ⟨c, _, rfl, hc⟩

/-! ## The segment-level action of one replacement pass (all-word key) -/

/-- Segment-level effect of `replace(/\bKEY\b/gi, exp)` for a key made of
word characters: a word run case-insensitively equal to the key becomes the
segments of the expansion; everything else is unchanged. -/
def expandSeg (key : List Char) (esegs : List (Bool × List Char))
    (p : Bool × List Char) : List (Bool × List Char) :=
  if p.1 = true ∧ ciEq p.2 key = true then esegs else [p]

theorem replaceWord_segs_aux (k0 : Char) (krest e : List Char)
    (hkey : ∀ c ∈ k0 :: krest, isWordC c = true) :
    ∀ n (s : List Char), s.length ≤ n →
      segs (replaceWord k0 krest e false s) =
        (segs s).flatMap (expandSeg (k0 :: krest) (segs e)) := by
  have hk0 : isWordC k0 = true := hkey k0 (by simp)
  intro n
  induction n with
  | zero =>
    intro s hs
    have hnil : s = [] := by
      cases s
      · rfl
      · simp at hs
    subst hnil
    simp [replaceWord, segs_nil]
  | succ n ih =>
    intro s hs
    match s with
    | [] => simp [replaceWord, segs_nil]
    | c :: t =>
      by_cases hc : isWordC c = true
      · -- word-run head
        have hdecomp : c :: t = (c :: t.takeWhile isWordC) ++ t.dropWhile isWordC := by
          simp [List.takeWhile_append_dropWhile]
        have hww : ∀ d ∈ c :: t.takeWhile isWordC, isWordC d = true := by
          intro d hd
          rcases List.mem_cons.mp hd with rfl | hd'
          · exact hc
          · exact List.mem_takeWhile_imp hd'
        have hsep : SepHead (t.dropWhile isWordC) := by
          cases ht' : t.dropWhile isWordC with
          | nil => exact Or.inl rfl
          | cons d t'' => exact Or.inr ⟨d, t'', rfl, dropWhile_head_not ht'⟩
        have hwne : (c :: t.takeWhile isWordC) ≠ [] := by simp
        have hlt' : (t.dropWhile isWordC).length ≤ n := by
          have h1 := length_dropWhile_le_self isWordC t
          simp only [List.length_cons] at hs
          omega
        have htail : segs (replaceWord k0 krest e true (t.dropWhile isWordC)) =
            (segs (t.dropWhile isWordC)).flatMap (expandSeg (k0 :: krest) (segs e)) := by
          rcases hsep with h0 | ⟨d, t'', h0, hd⟩
          · rw [h0]
            simp [replaceWord, segs_nil]
          · have hlen'' : t''.length ≤ n := by
              have hh := congrArg List.length h0
              simp only [List.length_cons] at hh
              omega
            rw [h0, replaceWord_sep k0 krest e hk0 hd, segs_cons_sep hd, segs_cons_sep hd,
              ih t'' hlen'']
            simp [expandSeg]
        rw [hdecomp]
        by_cases hci : ciEq (c :: t.takeWhile isWordC) (k0 :: krest) = true
        · rw [replaceWord_run_fire k0 krest e _ _ hci hsep,
            segs_append e _ (SepHead_replaceWord k0 krest e hk0 hsep true), htail,
            segs_run _ hwne hww _ hsep]
          simp [expandSeg, hci]
        · have hci' : ciEq (c :: t.takeWhile isWordC) (k0 :: krest) = false := by
            cases hv : ciEq (c :: t.takeWhile isWordC) (k0 :: krest)
            · rfl
            · exact absurd hv hci
          rw [replaceWord_run_nofire k0 krest e hkey _ hwne hww _ hsep hci',
            segs_run _ hwne hww _ (SepHead_replaceWord k0 krest e hk0 hsep true), htail,
            segs_run _ hwne hww _ hsep]
          simp [expandSeg, hci']
      · have hc' : isWordC c = false := by
          cases hv : isWordC c
          · rfl
          · exact absurd hv hc
        have hlen : t.length ≤ n := by
          simp only [List.length_cons] at hs
          omega
        rw [replaceWord_sep k0 krest e hk0 hc', segs_cons_sep hc', segs_cons_sep hc',
          ih t hlen]
        simp [expandSeg]

theorem replaceWord_segs (k0 : Char) (krest e : List Char)
    (hkey : ∀ c ∈ k0 :: krest, isWordC c = true) (s : List Char) :
    segs (replaceWord k0 krest e false s) =
      (segs s).flatMap (expandSeg (k0 :: krest) (segs e)) :=
  replaceWord_segs_aux k0 krest e hkey s.length s le_rfl

/-! ## Identity of a pass when every matching run is its own expansion -/

theorem replaceWord_id_aux (k0 : Char) (krest e : List Char)
    (hkey : ∀ c ∈ k0 :: krest, isWordC c = true) :
    ∀ n (s : List Char), s.length ≤ n →
      (∀ w, (true, w) ∈ segs s → ciEq w (k0 :: krest) = true → w = e) →
      replaceWord k0 krest e false s = s := by
  have hk0 : isWordC k0 = true := hkey k0 (by simp)
  intro n
  induction n with
  | zero =>
    intro s hs _
    have hnil : s = [] := by
      cases s
      · rfl
      · simp at hs
    subst hnil
    simp [replaceWord]
  | succ n ih =>
    intro s hs hself
    match s with
    | [] => simp [replaceWord]
    | c :: t =>
      by_cases hc : isWordC c = true
      · have hdecomp : c :: t = (c :: t.takeWhile isWordC) ++ t.dropWhile isWordC := by
          simp [List.takeWhile_append_dropWhile]
        have hww : ∀ d ∈ c :: t.takeWhile isWordC, isWordC d = true := by
          intro d hd
          rcases List.mem_cons.mp hd with rfl | hd'
          · exact hc
          · exact List.mem_takeWhile_imp hd'
        have hsep : SepHead (t.dropWhile isWordC) := by
          cases ht' : t.dropWhile isWordC with
          | nil => exact Or.inl rfl
          | cons d t'' => exact Or.inr ⟨d, t'', rfl, dropWhile_head_not ht'⟩
        have hwne : (c :: t.takeWhile isWordC) ≠ [] := by simp
        have hlt' : (t.dropWhile isWordC).length ≤ n := by
          have h1 := length_dropWhile_le_self isWordC t
          simp only [List.length_cons] at hs
          omega
        have hsegs : segs (c :: t) = (true, c :: t.takeWhile isWordC) :: segs (t.dropWhile isWordC) := by
          rw [hdecomp]
          exact segs_run _ hwne hww _ hsep
        have htail : replaceWord k0 krest e true (t.dropWhile isWordC) = t.dropWhile isWordC := by
          rcases hsep with h0 | ⟨d, t'', h0, hd⟩
          · rw [h0]
            simp [replaceWord]
          · have hlen'' : t''.length ≤ n := by
              have hh := congrArg List.length h0
              simp only [List.length_cons] at hh
              omega
            rw [h0, replaceWord_sep k0 krest e hk0 hd, ih t'' hlen'']
            intro w hw hci
            refine hself w ?_ hci
            rw [hsegs, h0, segs_cons_sep hd]
            simp [hw]
        rw [hdecomp]
        by_cases hci : ciEq (c :: t.takeWhile isWordC) (k0 :: krest) = true
        · have hwe : c :: t.takeWhile isWordC = e := by
            refine hself _ ?_ hci
            rw [hsegs]
            simp
          rw [replaceWord_run_fire k0 krest e _ _ hci hsep, htail, ← hwe]
        · have hci' : ciEq (c :: t.takeWhile isWordC) (k0 :: krest) = false := by
            cases hv : ciEq (c :: t.takeWhile isWordC) (k0 :: krest)
            · rfl
            · exact absurd hv hci
          rw [replaceWord_run_nofire k0 krest e hkey _ hwne hww _ hsep hci', htail]
      · have hc' : isWordC c = false := by
          cases hv : isWordC c
          · rfl
          · exact absurd hv hc
        have hlen : t.length ≤ n := by
          simp only [List.length_cons] at hs
          omega
        rw [replaceWord_sep k0 krest e hk0 hc', ih t hlen]
        intro w hw hci
        refine hself w ?_ hci
        rw [segs_cons_sep hc']
        simp [hw]

theorem replaceWord_id (k0 : Char) (krest e : List Char)
    (hkey : ∀ c ∈ k0 :: krest, isWordC c = true) (s : List Char)
    (hself : ∀ w, (true, w) ∈ segs s → ciEq w (k0 :: krest) = true → w = e) :
    replaceWord k0 krest e false s = s :=
  replaceWord_id_aux k0 krest e hkey s.length s le_rfl hself

/-! ## The `U/S` key: triples and identity -/

/-- Does a segment list begin with a word run `≈ U`, a `/` separator and a
word run `≈ S` (the only way `/\bU\/S\b/gi` can match)? -/
def tripleHead : List (Bool × List Char) → Bool
  | (true, u) :: (false, m) :: (true, v) :: _ =>
    ciEq u ['U'] && (m == ['/']) && ciEq v ['S']
  | _ => false

/-- No window of the segment list is a `U`/`/`/`S` triple. -/
def noTriple : List (Bool × List Char) → Bool
  | [] => true
  | p :: tl => !tripleHead (p :: tl) && noTriple tl

theorem noTriple_head {L : List (Bool × List Char)} (h : noTriple L = true) :
    tripleHead L = false := by
  cases L with
  | nil => rfl
  | cons p tl =>
    simp only [noTriple, Bool.and_eq_true, Bool.not_eq_true'] at h
    exact h.1

theorem noTriple_tail {p : Bool × List Char} {tl : List (Bool × List Char)}
    (h : noTriple (p :: tl) = true) : noTriple tl = true := by
  simp only [noTriple, Bool.and_eq_true] at h
  exact h.2

theorem SepHead_of_boundary {r : List Char} (h : wordBoundaryAfter r = true) :
    SepHead r := by
  cases r with
  | nil => exact Or.inl rfl
  | cons x r' =>
    simp only [wordBoundaryAfter, Bool.not_eq_true'] at h
    exact Or.inr ⟨x, r', rfl, h⟩

theorem replaceWord_US_run_nofire (e : List Char) (w : List Char) (hw : w ≠ [])
    (hww : ∀ c ∈ w, isWordC c = true) (t : List Char) (ht : SepHead t)
    (hnt : tripleHead (segs (w ++ t)) = false) :
    replaceWord 'U' ['/', 'S'] e false (w ++ t) =
      w ++ replaceWord 'U' ['/', 'S'] e true t := by
  match w, hw with
  | c :: w', _ =>
    have hc : isWordC c = true := hww c (by simp)
    have hw' : ∀ d ∈ w', isWordC d = true := fun d hd => hww d (by simp [hd])
    show replaceWord 'U' ['/', 'S'] e false (c :: (w' ++ t)) = _
    simp only [replaceWord]
    split
    · rename_i r hr
      have hcond : ¬(True ∧ wordBoundaryAfter r = true) := by
        rintro ⟨-, hb⟩
        obtain ⟨m, hdecomp, hmci⟩ := matchKeyCI_decomp _ _ _ hr
        have hlenm : m.length = 3 := by
          have := ciEq_length hmci
          simpa using this
        match m, hlenm with
        | [a, b, d], _ =>
          have hmap : [a.toUpper, b.toUpper, d.toUpper] = ['U', '/', 'S'] := by
            have : ([a, b, d].map Char.toUpper) = (['U', '/', 'S'].map Char.toUpper) := by
              simpa [ciEq] using hmci
            simpa using this
          have haU : a.toUpper = 'U' := by
            injection hmap with h1 h2
          have hrest1 : [b.toUpper, d.toUpper] = ['/', 'S'] := by
            injection hmap with h1 h2
          have hbS : b.toUpper = '/' := by
            injection hrest1 with h1 h2
          have hdS : d.toUpper = 'S' := by
            injection hrest1 with h1 h2
            injection h2 with h3 h4
          have hbslash : b = '/' := (toUpper_eq_slash_iff b).mp hbS
          match w' with
          | w1 :: w'' =>
            have hca : c = a ∧ w1 = b := by
              have := hdecomp
              simp only [List.cons_append, List.cons.injEq] at this
              exact ⟨this.1, this.2.1⟩
            have hw1 : isWordC w1 = true := hw' w1 (by simp)
            rw [hca.2, hbslash] at hw1
            have : isWordC '/' = false := by decide
            rw [this] at hw1
            cases hw1
          | [] =>
            have hca : c = a ∧ t = b :: d :: r := by
              have := hdecomp
              simp only [List.nil_append, List.cons_append, List.cons.injEq] at this
              exact ⟨this.1, by
                have h2 := this.2
                simpa using h2⟩
            have hsr : SepHead r := SepHead_of_boundary hb
            have hdw : isWordC d = true := by
              have : isWordC d = isWordC 'S' := isWordC_eq_of_toUpper_eq (by rw [hdS]; rfl)
              rw [this]
              decide
            have hslash_nw : isWordC '/' = false := by decide
            have hsegs : segs ((c :: []) ++ t) =
                (true, [c]) :: (false, ['/']) :: (true, [d]) :: segs r := by
              rw [segs_run [c] (by simp) (by intro x hx; simp at hx; subst hx; exact hc) t ht]
              rw [hca.2, hbslash]
              rw [segs_cons_sep hslash_nw]
              have : segs (d :: r) = (true, [d]) :: segs r := by
                have := segs_run [d] (by simp)
                  (by intro x hx; simp at hx; subst hx; exact hdw) r hsr
                simpa using this
              rw [this]
            rw [hsegs] at hnt
            simp only [tripleHead, Bool.and_eq_true] at hnt
            have hcu : ciEq [c] ['U'] = true := by
              simp [ciEq, hca.1, haU]
            have hds : ciEq [d] ['S'] = true := by
              simp [ciEq, hdS]
            simp [hcu, hds] at hnt
      rw [if_neg hcond, hc, replaceWord_run_skip 'U' ['/', 'S'] e w' hw' t]
      rfl
    · rw [hc, replaceWord_run_skip 'U' ['/', 'S'] e w' hw' t]
      rfl

theorem replaceWord_US_id_aux (e : List Char) :
    ∀ n (s : List Char), s.length ≤ n → noTriple (segs s) = true →
      replaceWord 'U' ['/', 'S'] e false s = s := by
  have hk0 : isWordC 'U' = true := by decide
  intro n
  induction n with
  | zero =>
    intro s hs _
    have hnil : s = [] := by
      cases s
      · rfl
      · simp at hs
    subst hnil
    simp [replaceWord]
  | succ n ih =>
    intro s hs hnts
    match s with
    | [] => simp [replaceWord]
    | c :: t =>
      by_cases hc : isWordC c = true
      · have hdecomp : c :: t = (c :: t.takeWhile isWordC) ++ t.dropWhile isWordC := by
          simp [List.takeWhile_append_dropWhile]
        have hww : ∀ d ∈ c :: t.takeWhile isWordC, isWordC d = true := by
          intro d hd
          rcases List.mem_cons.mp hd with rfl | hd'
          · exact hc
          · exact List.mem_takeWhile_imp hd'
        have hsep : SepHead (t.dropWhile isWordC) := by
          cases ht' : t.dropWhile isWordC with
          | nil => exact Or.inl rfl
          | cons d t'' => exact Or.inr ⟨d, t'', rfl, dropWhile_head_not ht'⟩
        have hwne : (c :: t.takeWhile isWordC) ≠ [] := by simp
        have hlt' : (t.dropWhile isWordC).length ≤ n := by
          have h1 := length_dropWhile_le_self isWordC t
          simp only [List.length_cons] at hs
          omega
        have hsegs : segs (c :: t) =
            (true, c :: t.takeWhile isWordC) :: segs (t.dropWhile isWordC) := by
          rw [hdecomp]
          exact segs_run _ hwne hww _ hsep
        have hnts' : noTriple (segs (t.dropWhile isWordC)) = true := by
          have h1 := hnts
          rw [hsegs] at h1
          exact noTriple_tail h1
        have htail : replaceWord 'U' ['/', 'S'] e true (t.dropWhile isWordC) =
            t.dropWhile isWordC := by
          rcases hsep with h0 | ⟨d, t'', h0, hd⟩
          · rw [h0]
            simp [replaceWord]
          · have hlen'' : t''.length ≤ n := by
              have hh := congrArg List.length h0
              simp only [List.length_cons] at hh
              omega
            have hnt'' : noTriple (segs t'') = true := by
              have h1 := hnts'
              rw [h0, segs_cons_sep hd] at h1
              exact noTriple_tail h1
            rw [h0, replaceWord_sep 'U' ['/', 'S'] e hk0 hd, ih t'' hlen'' hnt'']
        have hnt0 : tripleHead (segs ((c :: t.takeWhile isWordC) ++ t.dropWhile isWordC)) = false := by
          rw [← hdecomp]
          exact noTriple_head hnts
        rw [hdecomp, replaceWord_US_run_nofire e _ hwne hww _ hsep hnt0, htail]
      · have hc' : isWordC c = false := by
          cases hv : isWordC c
          · rfl
          · exact absurd hv hc
        have hlen : t.length ≤ n := by
          simp only [List.length_cons] at hs
          omega
        have hnt' : noTriple (segs t) = true := by
          have h1 := hnts
          rw [segs_cons_sep hc'] at h1
          exact noTriple_tail h1
        rw [replaceWord_sep 'U' ['/', 'S'] e hk0 hc', ih t hlen hnt']

theorem replaceWord_US_id (e : List Char) (s : List Char)
    (h : noTriple (segs s) = true) :
    replaceWord 'U' ['/', 'S'] e false s = s :=
  replaceWord_US_id_aux e s.length s le_rfl h

/-! ## Suffix toolkit for triple windows -/

theorem suffix_append_cases {α : Type} (A X S : List α) (h : S <:+ A ++ X) :
    S <:+ X ∨ ∃ T, T <:+ A ∧ T ≠ [] ∧ S = T ++ X := by
  induction A with
  | nil => exact Or.inl (by simpa using h)
  | cons a A' ih =>
    have h' : S <:+ a :: (A' ++ X) := by simpa using h
    rcases List.suffix_cons_iff.mp h' with rfl | h2
    · exact Or.inr ⟨a :: A', List.suffix_refl _, by simp, by simp⟩
    · rcases ih h2 with h3 | ⟨T, hT1, hT2, hT3⟩
      · exact Or.inl h3
      · exact Or.inr ⟨T, hT1.trans (List.suffix_cons a A'), hT2, hT3⟩

theorem noTriple_iff_suffix (L : List (Bool × List Char)) :
    noTriple L = true ↔ ∀ S, S <:+ L → tripleHead S = false := by
  induction L with
  | nil =>
    constructor
    · intro _ S hS
      have : S = [] := List.suffix_nil.mp hS
      subst this
      rfl
    · intro _
      rfl
  | cons p tl ih =>
    constructor
    · intro h S hS
      rcases List.suffix_cons_iff.mp hS with rfl | h2
      · simpa using noTriple_head h
      · exact (ih.mp (noTriple_tail h)) S h2
    · intro h
      simp only [noTriple, Bool.and_eq_true, Bool.not_eq_true']
      exact ⟨h _ (List.suffix_refl _),
        ih.mpr (fun S hS => h S (hS.trans (List.suffix_cons p tl)))⟩

theorem tripleHead_append_long {T X : List (Bool × List Char)} (h : 3 ≤ T.length) :
    tripleHead (T ++ X) = tripleHead T := by
  match T, h with
  | a :: b :: c :: T', _ =>
    rcases a with ⟨ba, ua⟩
    rcases b with ⟨bb, ub⟩
    rcases c with ⟨bc, uc⟩
    cases ba <;> cases bb <;> cases bc <;> rfl

theorem tripleHead_false_of_fst_false {p : Bool × List Char}
    (Z : List (Bool × List Char)) (h : p.1 = false) : tripleHead (p :: Z) = false := by
  rcases p with ⟨b, u⟩
  cases b
  · match Z with
    | [] => rfl
    | [q] => rfl
    | q :: r :: Z' => rfl
  · cases h

theorem tripleHead_false_of_not_U {u : List Char} (Z : List (Bool × List Char))
    (h : ciEq u ['U'] = false) : tripleHead ((true, u) :: Z) = false := by
  match Z with
  | [] => rfl
  | [q] =>
    rcases q with ⟨b, m⟩
    cases b <;> rfl
  | q :: r :: Z' =>
    rcases q with ⟨bq, mq⟩
    rcases r with ⟨br, mr⟩
    cases bq <;> cases br <;> simp [tripleHead, h]

theorem tripleHead_false_of_snd_true {a q : Bool × List Char}
    (Z : List (Bool × List Char)) (h : q.1 = true) : tripleHead (a :: q :: Z) = false := by
  rcases a with ⟨ba, ua⟩
  rcases q with ⟨bq, uq⟩
  cases bq
  · cases h
  · cases ba <;>
    · match Z with
      | [] => rfl
      | r :: Z' => rfl

theorem tripleHead_false_of_not_slash {u m : List Char} (Z : List (Bool × List Char))
    (h : (m == ['/']) = false) : tripleHead ((true, u) :: (false, m) :: Z) = false := by
  match Z with
  | [] => rfl
  | r :: Z' =>
    rcases r with ⟨br, mr⟩
    cases br <;> simp [tripleHead, h]

theorem tripleHead_false_of_not_S {u m v : List Char} (Z : List (Bool × List Char))
    (h : ciEq v ['S'] = false) :
    tripleHead ((true, u) :: (false, m) :: (true, v) :: Z) = false := by
  simp [tripleHead, h]

theorem tripleHead_short {S : List (Bool × List Char)} (h : S.length ≤ 2) :
    tripleHead S = false := by
  match S with
  | [] => rfl
  | [a] =>
    rcases a with ⟨ba, ua⟩
    cases ba <;> rfl
  | [a, b] =>
    rcases a with ⟨ba, ua⟩
    rcases b with ⟨bb, ub⟩
    cases ba <;> cases bb <;> rfl
  | a :: b :: c :: S' => simp at h

/-! ## Conditions on an expansion's segments -/

/-- Decidable side conditions on the segments `E` of an expansion: non-empty,
bracketed by word runs, containing no `U`/`/`/`S` triple, not starting with a
run `≈ S` and not ending with a run `≈ U`. -/
def goodExp (E : List (Bool × List Char)) : Bool :=
  match E with
  | [] => false
  | x :: rest =>
    x.1 && !(ciEq x.2 ['S']) && noTriple (x :: rest) &&
      (match (x :: rest).getLast? with
       | some y => y.1 && !(ciEq y.2 ['U'])
       | none => true)

theorem goodExp_ne_nil {E : List (Bool × List Char)} (h : goodExp E = true) : E ≠ [] := by
  cases E with
  | nil => cases h
  | cons x rest => simp

theorem goodExp_exists_cons {E : List (Bool × List Char)} (h : goodExp E = true) :
    ∃ x E', E = x :: E' ∧ x.1 = true ∧ ciEq x.2 ['S'] = false := by
  match E, goodExp_ne_nil h with
  | x :: rest, _ =>
    simp only [goodExp, Bool.and_eq_true, Bool.not_eq_true'] at h
    exact ⟨x, rest, rfl, h.1.1.1, h.1.1.2⟩

theorem goodExp_noTriple {E : List (Bool × List Char)} (h : goodExp E = true) :
    noTriple E = true := by
  match E, goodExp_ne_nil h with
  | x :: rest, _ =>
    simp only [goodExp, Bool.and_eq_true, Bool.not_eq_true'] at h
    exact h.1.2

theorem goodExp_last {E : List (Bool × List Char)} (h : goodExp E = true)
    (init : List (Bool × List Char)) (y : Bool × List Char) (hEeq : E = init ++ [y]) :
    y.1 = true ∧ ciEq y.2 ['U'] = false := by
  match E, goodExp_ne_nil h with
  | x :: rest, _ =>
    simp only [goodExp, Bool.and_eq_true, Bool.not_eq_true'] at h
    have hlast : (x :: rest).getLast? = some y := by
      rw [hEeq, List.getLast?_concat]
    rw [hlast] at h
    simp only [Bool.and_eq_true, Bool.not_eq_true'] at h
    exact h.2

theorem expandSeg_sep (key : List Char) (E : List (Bool × List Char)) (m : List Char) :
    expandSeg key E (false, m) = [(false, m)] := by
  simp [expandSeg]

theorem tripleHead_false_of_third_false {u m v : List Char} (Z : List (Bool × List Char)) :
    tripleHead ((true, u) :: (false, m) :: (false, v) :: Z) = false := rfl

theorem flatMap_suffix_cases {α β : Type} (φ : α → List β) :
    ∀ (L : List α) (S : List β), S <:+ L.flatMap φ →
      (∃ L₂, L₂ <:+ L ∧ S = L₂.flatMap φ) ∨
      (∃ p L₂ T, (p :: L₂) <:+ L ∧ T <:+ φ p ∧ T ≠ [] ∧ S = T ++ L₂.flatMap φ) := by
  intro L
  induction L with
  | nil =>
    intro S hS
    left
    exact ⟨[], List.suffix_refl _, by simpa using List.suffix_nil.mp hS⟩
  | cons p L' ih =>
    intro S hS
    have hS' : S <:+ φ p ++ L'.flatMap φ := by simpa using hS
    rcases suffix_append_cases _ _ _ hS' with h1 | ⟨T, hT1, hT2, hT3⟩
    · rcases ih S h1 with ⟨L₂, h2, h3⟩ | ⟨q, L₂, T, h2, h3, h4, h5⟩
      · exact Or.inl ⟨L₂, h2.trans (List.suffix_cons p L'), h3⟩
      · exact Or.inr ⟨q, L₂, T, h2.trans (List.suffix_cons p L'), h3, h4, h5⟩
    · exact Or.inr ⟨p, L', T, List.suffix_refl _, hT1, hT2, hT3⟩

/-- The window analysis: a non-empty suffix of one block of a substituted
segment list, followed by the rest of the substitution, never starts a
`U`/`/`/`S` triple. -/
theorem tripleHead_core (key : List Char) (E : List (Bool × List Char))
    (hE : goodExp E = true) (L : List (Bool × List Char)) (hL : noTriple L = true)
    (p : Bool × List Char) (L₂ T : List (Bool × List Char))
    (hsub : (p :: L₂) <:+ L) (hTsub : T <:+ expandSeg key E p) (hTne : T ≠ []) :
    tripleHead (T ++ L₂.flatMap (expandSeg key E)) = false := by
  by_cases hm : p.1 = true ∧ ciEq p.2 key = true
  · have hφ : expandSeg key E p = E := by simp [expandSeg, hm]
    rw [hφ] at hTsub
    match T, hTne with
    | [q], _ =>
      obtain ⟨init, hinit⟩ := hTsub
      obtain ⟨hq1, hqU⟩ := goodExp_last hE init q hinit.symm
      rcases q with ⟨bq, uq⟩
      cases bq
      · cases hq1
      · exact tripleHead_false_of_not_U _ hqU
    | [q, q₂], _ =>
      obtain ⟨init, hinit⟩ := hTsub
      have hinit' : E = (init ++ [q]) ++ [q₂] := by
        rw [← hinit]
        simp
      obtain ⟨hq1, -⟩ := goodExp_last hE (init ++ [q]) q₂ hinit'
      exact tripleHead_false_of_snd_true _ hq1
    | q :: q₂ :: q₃ :: T', _ =>
      rw [tripleHead_append_long (by simp)]
      exact (noTriple_iff_suffix E).mp (goodExp_noTriple hE) _ hTsub
  · have hφ : expandSeg key E p = [p] := by
      simp only [expandSeg, if_neg hm]
    rw [hφ] at hTsub
    have hT : T = [p] := by
      rcases List.suffix_cons_iff.mp hTsub with h | h
      · exact h
      · exact absurd (List.suffix_nil.mp h) hTne
    subst hT
    rcases p with ⟨bp, up⟩
    cases bp
    · exact tripleHead_false_of_fst_false _ rfl
    · by_cases hU : ciEq up ['U'] = true
      · match L₂ with
        | [] => exact tripleHead_short (by simp)
        | p₂ :: L₃ =>
          have hflat : (p₂ :: L₃).flatMap (expandSeg key E) =
              expandSeg key E p₂ ++ L₃.flatMap (expandSeg key E) := by simp
          rw [hflat]
          rcases p₂ with ⟨b₂, m₂⟩
          cases b₂
          · rw [expandSeg_sep key E m₂]
            by_cases hslash : (m₂ == ['/']) = true
            · have hm₂eq : m₂ = ['/'] := by simpa using hslash
              subst hm₂eq
              match L₃ with
              | [] =>
                refine tripleHead_short ?_
                simp
              | p₃ :: L₄ =>
                have hflat₃ : (p₃ :: L₄).flatMap (expandSeg key E) =
                    expandSeg key E p₃ ++ L₄.flatMap (expandSeg key E) := by simp
                rw [hflat₃]
                rcases p₃ with ⟨b₃, m₃⟩
                cases b₃
                · rw [expandSeg_sep key E m₃]
                  exact tripleHead_false_of_third_false _
                · by_cases hm₃ : ciEq m₃ key = true
                  · have hφ₃ : expandSeg key E (true, m₃) = E := by
                      simp [expandSeg, hm₃]
                    rw [hφ₃]
                    obtain ⟨x, E', hEeq, hx1, hxS⟩ := goodExp_exists_cons hE
                    rcases x with ⟨bx, ux⟩
                    cases bx
                    · cases hx1
                    · rw [hEeq]
                      simp only [List.singleton_append, List.cons_append, List.append_assoc]
                      exact tripleHead_false_of_not_S _ hxS
                  · have hφ₃ : expandSeg key E (true, m₃) = [(true, m₃)] := by
                      simp only [expandSeg]
                      rw [if_neg]
                      rintro ⟨-, hc⟩
                      exact hm₃ hc
                    rw [hφ₃]
                    by_cases hS : ciEq m₃ ['S'] = true
                    · exfalso
                      have hsub3 : ((true, up) :: (false, ['/']) :: (true, m₃) :: L₄) <:+ L :=
                        hsub
                      have hfalse := (noTriple_iff_suffix L).mp hL _ hsub3
                      simp [tripleHead, hU, hS] at hfalse
                    · have hS' : ciEq m₃ ['S'] = false := by
                        cases hv : ciEq m₃ ['S']
                        · rfl
                        · exact absurd hv hS
                      exact tripleHead_false_of_not_S _ hS'
            · have hslash' : (m₂ == ['/']) = false := by
                cases hv : (m₂ == ['/'])
                · rfl
                · exact absurd hv hslash
              exact tripleHead_false_of_not_slash _ hslash'
          · by_cases hm₂ : ciEq m₂ key = true
            · have hφ₂ : expandSeg key E (true, m₂) = E := by
                simp [expandSeg, hm₂]
              rw [hφ₂]
              obtain ⟨x, E', hEeq, hx1, hxS⟩ := goodExp_exists_cons hE
              rw [hEeq]
              simp only [List.singleton_append, List.cons_append, List.append_assoc]
              exact tripleHead_false_of_snd_true _ hx1
            · have hφ₂ : expandSeg key E (true, m₂) = [(true, m₂)] := by
                simp only [expandSeg]
                rw [if_neg]
                rintro ⟨-, hc⟩
                exact hm₂ hc
              rw [hφ₂]
              exact tripleHead_false_of_snd_true _ rfl
      · have hU' : ciEq up ['U'] = false := by
          cases hv : ciEq up ['U']
          · rfl
          · exact absurd hv hU
        exact tripleHead_false_of_not_U _ hU'

/-- A substitution pass with a well-behaved expansion preserves freedom from
`U`/`/`/`S` triples. -/
theorem noTriple_flatMap (key : List Char) (E : List (Bool × List Char))
    (hE : goodExp E = true) (L : List (Bool × List Char)) (hL : noTriple L = true) :
    noTriple (L.flatMap (expandSeg key E)) = true := by
  rw [noTriple_iff_suffix]
  intro S hS
  rcases flatMap_suffix_cases (expandSeg key E) L S hS with ⟨L₂, hsub, rfl⟩ |
    ⟨p, L₂, T, hsub, hTsub, hTne, rfl⟩
  · match L₂, hsub with
    | [], _ => rfl
    | p :: L₃, hsub =>
      have hflat : (p :: L₃).flatMap (expandSeg key E) =
          expandSeg key E p ++ L₃.flatMap (expandSeg key E) := by simp
      rw [hflat]
      refine tripleHead_core key E hE L hL p L₃ _ hsub (List.suffix_refl _) ?_
      by_cases hm : p.1 = true ∧ ciEq p.2 key = true
      · simpa [expandSeg, hm] using goodExp_ne_nil hE
      · simp [expandSeg, if_neg hm]
  · exact tripleHead_core key E hE L hL p L₂ T hsub hTsub hTne

/-! ## Structure of the `U/S` pass -/

theorem segs_word_head {c : Char} (hc : isWordC c = true) (t : List Char) :
    segs (c :: t) =
      (true, c :: t.takeWhile isWordC) :: segs (t.dropWhile isWordC) := by
  have hdecomp : c :: t = (c :: t.takeWhile isWordC) ++ t.dropWhile isWordC := by
    simp [List.takeWhile_append_dropWhile]
  have hww : ∀ d ∈ c :: t.takeWhile isWordC, isWordC d = true := by
    intro d hd
    rcases List.mem_cons.mp hd with rfl | hd'
    · exact hc
    · exact List.mem_takeWhile_imp hd'
  have hsep : SepHead (t.dropWhile isWordC) := by
    cases ht' : t.dropWhile isWordC with
    | nil => exact Or.inl rfl
    | cons d t'' => exact Or.inr ⟨d, t'', rfl, dropWhile_head_not ht'⟩
  rw [hdecomp]
  exact segs_run _ (by simp) hww _ hsep

theorem segs_inv_sep {x m : List Char} {tl : List (Bool × List Char)}
    (h : segs x = (false, m) :: tl) :
    ∃ d x', x = d :: x' ∧ m = [d] ∧ isWordC d = false ∧ segs x' = tl := by
  cases x with
  | nil => cases h
  | cons c x' =>
    by_cases hc : isWordC c = true
    · rw [segs_word_head hc] at h
      cases h
    · have hc' : isWordC c = false := by
        cases hv : isWordC c
        · rfl
        · exact absurd hv hc
      rw [segs_cons_sep hc'] at h
      have h1 : (false, [c]) = ((false, m) : Bool × List Char) ∧ segs x' = tl := by
        constructor
        · exact (List.cons.injEq _ _ _ _ ▸ h).1
        · exact (List.cons.injEq _ _ _ _ ▸ h).2
      refine ⟨c, x', rfl, ?_, hc', h1.2⟩
      have := h1.1
      simpa using this.symm

theorem segs_inv_run {x v : List Char} {tl : List (Bool × List Char)}
    (h : segs x = (true, v) :: tl) :
    ∃ x'', x = v ++ x'' ∧ v ≠ [] ∧ (∀ c ∈ v, isWordC c = true) ∧ SepHead x'' ∧
      segs x'' = tl := by
  cases x with
  | nil => cases h
  | cons c x' =>
    by_cases hc : isWordC c = true
    · rw [segs_word_head hc] at h
      have h1 : c :: x'.takeWhile isWordC = v ∧ segs (x'.dropWhile isWordC) = tl := by
        constructor
        · have := (List.cons.injEq _ _ _ _ ▸ h).1
          simpa using this
        · exact (List.cons.injEq _ _ _ _ ▸ h).2
      refine ⟨x'.dropWhile isWordC, ?_, ?_, ?_, ?_, h1.2⟩
      · rw [← h1.1]
        simp [List.takeWhile_append_dropWhile]
      · rw [← h1.1]
        simp
      · intro d hd
        rw [← h1.1] at hd
        rcases List.mem_cons.mp hd with rfl | hd'
        · exact hc
        · exact List.mem_takeWhile_imp hd'
      · cases ht' : x'.dropWhile isWordC with
        | nil => exact Or.inl rfl
        | cons d t'' => exact Or.inr ⟨d, t'', rfl, dropWhile_head_not ht'⟩
    · have hc' : isWordC c = false := by
        cases hv : isWordC c
        · rfl
        · exact absurd hv hc
      rw [segs_cons_sep hc'] at h
      cases h

theorem replaceWord_US_fire (e : List Char) (c d : Char) (t₂ : List Char)
    (hcU : c.toUpper = 'U') (hdS : d.toUpper = 'S') (ht₂ : SepHead t₂) :
    replaceWord 'U' ['/', 'S'] e false (c :: '/' :: d :: t₂) =
      e ++ replaceWord 'U' ['/', 'S'] e true t₂ := by
  have hci : ciEq [c, '/', d] ['U', '/', 'S'] = true := by
    simp [ciEq, hcU, hdS]
  have hm : matchKeyCI ['U', '/', 'S'] (c :: '/' :: d :: t₂) = some t₂ := by
    have := matchKeyCI_of_ciEq [c, '/', d] ['U', '/', 'S'] t₂ hci
    simpa using this
  simp only [replaceWord]
  split
  · rename_i r hr
    rw [hm] at hr
    have hrt : t₂ = r := by injection hr
    subst hrt
    rw [if_pos ⟨trivial, wordBoundaryAfter_of_SepHead ht₂⟩]
  · rename_i hr
    rw [hm] at hr
    cases hr

theorem ciEq_singleton_toUpper {c u : Char} (hu : u.toUpper = u)
    (h : ciEq [c] [u] = true) : c.toUpper = u := by
  have h' : [c].map Char.toUpper = [u].map Char.toUpper := by
    simpa [ciEq] using h
  simp only [List.map, List.cons.injEq] at h'
  rw [h'.1, hu]

theorem replaceWord_US_step (e : List Char) (c : Char) (t : List Char)
    (hc : isWordC c = true) :
    (tripleHead (segs (c :: t)) = false ∧
      replaceWord 'U' ['/', 'S'] e false (c :: t) =
        (c :: t.takeWhile isWordC) ++
          replaceWord 'U' ['/', 'S'] e true (t.dropWhile isWordC)) ∨
    (∃ d t₂, t = '/' :: d :: t₂ ∧ c.toUpper = 'U' ∧ d.toUpper = 'S' ∧
      isWordC d = true ∧ SepHead t₂ ∧
      segs (c :: t) = (true, [c]) :: (false, ['/']) :: (true, [d]) :: segs t₂ ∧
      replaceWord 'U' ['/', 'S'] e false (c :: t) =
        e ++ replaceWord 'U' ['/', 'S'] e true t₂) := by
  have hdecomp : c :: t = (c :: t.takeWhile isWordC) ++ t.dropWhile isWordC := by
    simp [List.takeWhile_append_dropWhile]
  have hww : ∀ d ∈ c :: t.takeWhile isWordC, isWordC d = true := by
    intro d hd
    rcases List.mem_cons.mp hd with rfl | hd'
    · exact hc
    · exact List.mem_takeWhile_imp hd'
  have hsep : SepHead (t.dropWhile isWordC) := by
    cases ht' : t.dropWhile isWordC with
    | nil => exact Or.inl rfl
    | cons d t'' => exact Or.inr ⟨d, t'', rfl, dropWhile_head_not ht'⟩
  by_cases htrip : tripleHead (segs (c :: t)) = false
  · left
    refine ⟨htrip, ?_⟩
    have htrip' : tripleHead (segs ((c :: t.takeWhile isWordC) ++ t.dropWhile isWordC)) = false := by
      rw [← hdecomp]
      exact htrip
    calc replaceWord 'U' ['/', 'S'] e false (c :: t)
        = replaceWord 'U' ['/', 'S'] e false
            ((c :: t.takeWhile isWordC) ++ t.dropWhile isWordC) := by rw [← hdecomp]
      _ = (c :: t.takeWhile isWordC) ++
            replaceWord 'U' ['/', 'S'] e true (t.dropWhile isWordC) :=
          replaceWord_US_run_nofire e _ (by simp) hww _ hsep htrip'
  · right
    have htrip2 : tripleHead (segs (c :: t)) = true := by
      cases hv : tripleHead (segs (c :: t))
      · exact absurd hv htrip
      · rfl
    rw [segs_word_head hc] at htrip2
    rcases hs1 : segs (t.dropWhile isWordC) with _ | ⟨⟨b1, m⟩, tl1⟩
    · rw [hs1] at htrip2
      simp [tripleHead] at htrip2
    · rw [hs1] at htrip2
      cases b1
      · rcases hs2 : tl1 with _ | ⟨⟨b2, v⟩, tl2⟩
        · rw [hs2] at htrip2
          simp [tripleHead] at htrip2
        · rw [hs2] at htrip2
          cases b2
          · rw [tripleHead_false_of_third_false] at htrip2
            cases htrip2
          · simp only [tripleHead, Bool.and_eq_true] at htrip2
            obtain ⟨⟨hwU, hmS⟩, hvS⟩ := htrip2
            have hmsl : m = ['/'] := by simpa using hmS
            have htw : t.takeWhile isWordC = [] := by
              have hlen := ciEq_length hwU
              simp only [List.length_cons, List.length_nil] at hlen
              exact List.length_eq_zero.mp (by omega)
            subst hmsl
            rw [hs2] at hs1
            obtain ⟨d₀, t₁, ht', hm0, hd₀, hsegs₁⟩ := segs_inv_sep hs1
            have hd₀' : d₀ = '/' := by
              have := hm0
              simpa using this.symm
            subst hd₀'
            obtain ⟨t₂, ht₁, hvne, hvw, hsep₂, hsegs₂⟩ := segs_inv_run hsegs₁
            have hvlen : v.length = 1 := by
              have := ciEq_length hvS
              simpa using this
            match v, hvlen with
            | [d], _ =>
              have hteq : t = '/' :: d :: t₂ := by
                have h1 : t = t.takeWhile isWordC ++ t.dropWhile isWordC := by
                  simp [List.takeWhile_append_dropWhile]
                rw [htw] at h1
                simp only [List.nil_append] at h1
                rw [h1, ht', ht₁]
                simp
              have hcU : c.toUpper = 'U' := by
                have hwU' : ciEq [c] ['U'] = true := by
                  rw [htw] at hwU
                  exact hwU
                exact ciEq_singleton_toUpper (by decide) hwU'
              have hdS : d.toUpper = 'S' := ciEq_singleton_toUpper (by decide) hvS
              refine ⟨d, t₂, hteq, hcU, hdS, hvw d (by simp), hsep₂, ?_, ?_⟩
              · rw [segs_word_head hc, htw, hs1, hsegs₂]
              · rw [hteq]
                exact replaceWord_US_fire e c d t₂ hcU hdS hsep₂
      · rw [tripleHead_false_of_snd_true _ rfl] at htrip2
        cases htrip2

theorem mem_segs_replaceWord_US_aux (e : List Char) :
    ∀ n (s : List Char), s.length ≤ n → ∀ p,
      p ∈ segs (replaceWord 'U' ['/', 'S'] e false s) → p ∈ segs s ∨ p ∈ segs e := by
  have hk0 : isWordC 'U' = true := by decide
  intro n
  induction n with
  | zero =>
    intro s hs p hp
    have hnil : s = [] := by
      cases s
      · rfl
      · simp at hs
    subst hnil
    simp [replaceWord, segs_nil] at hp
  | succ n ih =>
    intro s hs p hp
    match s with
    | [] => simp [replaceWord, segs_nil] at hp
    | c :: t =>
      by_cases hc : isWordC c = true
      · have hww : ∀ d ∈ c :: t.takeWhile isWordC, isWordC d = true := by
          intro d hd
          rcases List.mem_cons.mp hd with rfl | hd'
          · exact hc
          · exact List.mem_takeWhile_imp hd'
        have hsep : SepHead (t.dropWhile isWordC) := by
          cases ht' : t.dropWhile isWordC with
          | nil => exact Or.inl rfl
          | cons d t'' => exact Or.inr ⟨d, t'', rfl, dropWhile_head_not ht'⟩
        rcases replaceWord_US_step e c t hc with ⟨-, hout⟩ |
          ⟨d, t₂, hteq, hcU, hdS, hdw, hsep₂, hsegs, hout⟩
        · rw [hout] at hp
          have hsepX : SepHead (replaceWord 'U' ['/', 'S'] e true (t.dropWhile isWordC)) :=
            SepHead_replaceWord 'U' ['/', 'S'] e hk0 hsep true
          rw [segs_run _ (by simp) hww _ hsepX] at hp
          rcases List.mem_cons.mp hp with rfl | hp'
          · left
            rw [segs_word_head hc]
            simp
          · rcases hsep with h0 | ⟨d₁, t'', h0, hd₁⟩
            · rw [h0] at hp'
              simp [replaceWord, segs_nil] at hp'
            · rw [h0, replaceWord_sep 'U' ['/', 'S'] e hk0 hd₁, segs_cons_sep hd₁] at hp'
              rcases List.mem_cons.mp hp' with rfl | hp''
              · left
                rw [segs_word_head hc, h0, segs_cons_sep hd₁]
                simp
              · have hlen'' : t''.length ≤ n := by
                  have l1 := length_dropWhile_le_self isWordC t
                  have l2 := congrArg List.length h0
                  simp only [List.length_cons] at l2 hs
                  omega
                rcases ih t'' hlen'' p hp'' with hL | hR
                · left
                  rw [segs_word_head hc, h0, segs_cons_sep hd₁]
                  simp [hL]
                · right
                  exact hR
        · rw [hout] at hp
          have hsepX : SepHead (replaceWord 'U' ['/', 'S'] e true t₂) :=
            SepHead_replaceWord 'U' ['/', 'S'] e hk0 hsep₂ true
          rw [segs_append e _ hsepX] at hp
          rcases List.mem_append.mp hp with hpe | hp'
          · right
            exact hpe
          · rcases hsep₂ with h0 | ⟨d₂, t₃, h0, hd₂⟩
            · rw [h0] at hp'
              simp [replaceWord, segs_nil] at hp'
            · rw [h0, replaceWord_sep 'U' ['/', 'S'] e hk0 hd₂, segs_cons_sep hd₂] at hp'
              rcases List.mem_cons.mp hp' with rfl | hp''
              · left
                rw [hsegs, h0, segs_cons_sep hd₂]
                simp
              · have hlen₃ : t₃.length ≤ n := by
                  have l1 := congrArg List.length hteq
                  have l2 := congrArg List.length h0
                  simp only [List.length_cons] at l1 l2 hs
                  omega
                rcases ih t₃ hlen₃ p hp'' with hL | hR
                · left
                  rw [hsegs, h0, segs_cons_sep hd₂]
                  simp [hL]
                · right
                  exact hR
      · have hc' : isWordC c = false := by
          cases hv : isWordC c
          · rfl
          · exact absurd hv hc
        rw [replaceWord_sep 'U' ['/', 'S'] e hk0 hc', segs_cons_sep hc'] at hp
        rcases List.mem_cons.mp hp with rfl | hp'
        · left
          rw [segs_cons_sep hc']
          simp
        · have hlen : t.length ≤ n := by
            simp only [List.length_cons] at hs
            omega
          rcases ih t hlen p hp' with hL | hR
          · left
            rw [segs_cons_sep hc']
            simp [hL]
          · right
            exact hR

theorem mem_segs_replaceWord_US (e : List Char) (s : List Char) (p : Bool × List Char)
    (hp : p ∈ segs (replaceWord 'U' ['/', 'S'] e false s)) :
    p ∈ segs s ∨ p ∈ segs e :=
  mem_segs_replaceWord_US_aux e s.length s le_rfl p hp

theorem segs_replaceWord_US_head_S (e : List Char) (hE : goodExp (segs e) = true)
    (t : List Char)
    (hno : ∀ v tl, segs t = (true, v) :: tl → ciEq v ['S'] = false) :
    ∀ v tl, segs (replaceWord 'U' ['/', 'S'] e false t) = (true, v) :: tl →
      ciEq v ['S'] = false := by
  have hk0 : isWordC 'U' = true := by decide
  intro v tl hv
  cases t with
  | nil => simp [replaceWord, segs_nil] at hv
  | cons c t' =>
    by_cases hc : isWordC c = true
    · have hww : ∀ d ∈ c :: t'.takeWhile isWordC, isWordC d = true := by
        intro d hd
        rcases List.mem_cons.mp hd with rfl | hd'
        · exact hc
        · exact List.mem_takeWhile_imp hd'
      have hsep : SepHead (t'.dropWhile isWordC) := by
        cases ht'' : t'.dropWhile isWordC with
        | nil => exact Or.inl rfl
        | cons d t₃ => exact Or.inr ⟨d, t₃, rfl, dropWhile_head_not ht''⟩
      rcases replaceWord_US_step e c t' hc with ⟨-, hout⟩ |
        ⟨d, t₂, hteq, hcU, hdS, hdw, hsep₂, hsegs, hout⟩
      · rw [hout] at hv
        have hsepX : SepHead (replaceWord 'U' ['/', 'S'] e true (t'.dropWhile isWordC)) :=
          SepHead_replaceWord 'U' ['/', 'S'] e hk0 hsep true
        rw [segs_run _ (by simp) hww _ hsepX] at hv
        have hv1 : c :: t'.takeWhile isWordC = v :=
          congrArg Prod.snd (List.cons.injEq _ _ _ _ ▸ hv).1
        rw [← hv1]
        exact hno _ _ (segs_word_head hc t')
      · rw [hout] at hv
        have hsepX : SepHead (replaceWord 'U' ['/', 'S'] e true t₂) :=
          SepHead_replaceWord 'U' ['/', 'S'] e hk0 hsep₂ true
        rw [segs_append e _ hsepX] at hv
        obtain ⟨x, E', hEeq, hx1, hxS⟩ := goodExp_exists_cons hE
        rw [hEeq] at hv
        simp only [List.cons_append] at hv
        have hx : x = (true, v) := (List.cons.injEq _ _ _ _ ▸ hv).1
        rw [hx] at hxS
        exact hxS
    · have hc' : isWordC c = false := by
        cases hvv : isWordC c
        · rfl
        · exact absurd hvv hc
      rw [replaceWord_sep 'U' ['/', 'S'] e hk0 hc', segs_cons_sep hc'] at hv
      have := (List.cons.injEq _ _ _ _ ▸ hv).1
      cases this

theorem noTriple_replaceWord_US_aux (e : List Char) (hE : goodExp (segs e) = true) :
    ∀ n (s : List Char), s.length ≤ n →
      noTriple (segs (replaceWord 'U' ['/', 'S'] e false s)) = true := by
  have hk0 : isWordC 'U' = true := by decide
  intro n
  induction n with
  | zero =>
    intro s hs
    have hnil : s = [] := by
      cases s
      · rfl
      · simp at hs
    subst hnil
    simp [replaceWord, segs_nil, noTriple]
  | succ n ih =>
    intro s hs
    match s with
    | [] => simp [replaceWord, segs_nil, noTriple]
    | c :: t =>
      by_cases hc : isWordC c = true
      · have hww : ∀ d ∈ c :: t.takeWhile isWordC, isWordC d = true := by
          intro d hd
          rcases List.mem_cons.mp hd with rfl | hd'
          · exact hc
          · exact List.mem_takeWhile_imp hd'
        have hsep : SepHead (t.dropWhile isWordC) := by
          cases ht' : t.dropWhile isWordC with
          | nil => exact Or.inl rfl
          | cons d t'' => exact Or.inr ⟨d, t'', rfl, dropWhile_head_not ht'⟩
        rcases replaceWord_US_step e c t hc with ⟨htrip, hout⟩ |
          ⟨d, t₂, hteq, hcU, hdS, hdw, hsep₂, hsegs, hout⟩
        · rw [hout]
          have hsepX : SepHead (replaceWord 'U' ['/', 'S'] e true (t.dropWhile isWordC)) :=
            SepHead_replaceWord 'U' ['/', 'S'] e hk0 hsep true
          rw [segs_run _ (by simp) hww _ hsepX]
          rcases hsep with h0 | ⟨d₁, t'', h0, hd₁⟩
          · rw [h0]
            simp only [replaceWord, segs_nil]
            simp [noTriple, tripleHead_short]
          · have hlen'' : t''.length ≤ n := by
              have l1 := length_dropWhile_le_self isWordC t
              have l2 := congrArg List.length h0
              simp only [List.length_cons] at l2 hs
              omega
            rw [h0, replaceWord_sep 'U' ['/', 'S'] e hk0 hd₁, segs_cons_sep hd₁]
            have hY := ih t'' hlen''
            have hTH2 : tripleHead ((false, [d₁]) ::
                segs (replaceWord 'U' ['/', 'S'] e false t'')) = false :=
              tripleHead_false_of_fst_false _ rfl
            have hTH1 : tripleHead ((true, c :: t.takeWhile isWordC) :: (false, [d₁]) ::
                segs (replaceWord 'U' ['/', 'S'] e false t'')) = false := by
              by_cases hwU : ciEq (c :: t.takeWhile isWordC) ['U'] = true
              · by_cases hdsl : ([d₁] == ['/']) = true
                · have hnoS : ∀ v tl, segs t'' = (true, v) :: tl → ciEq v ['S'] = false := by
                    intro v tl hvt
                    cases hvS : ciEq v ['S'] with
                    | false => rfl
                    | true =>
                      exfalso
                      rw [segs_word_head hc, h0, segs_cons_sep hd₁, hvt] at htrip
                      simp [tripleHead, hwU, hdsl, hvS] at htrip
                  rcases hY' : segs (replaceWord 'U' ['/', 'S'] e false t'') with
                    _ | ⟨⟨bv, v⟩, tl'⟩
                  · exact tripleHead_short (by simp)
                  · cases bv
                    · exact tripleHead_false_of_third_false _
                    · exact tripleHead_false_of_not_S _
                        (segs_replaceWord_US_head_S e hE t'' hnoS v tl' hY')
                · exact tripleHead_false_of_not_slash _ (by
                    cases hvv : ([d₁] == ['/'])
                    · rfl
                    · exact absurd hvv hdsl)
              · exact tripleHead_false_of_not_U _ (by
                  cases hvv : ciEq (c :: t.takeWhile isWordC) ['U']
                  · rfl
                  · exact absurd hvv hwU)
            simp [noTriple, hTH1, hTH2, hY]
        · rw [hout]
          have hsepX : SepHead (replaceWord 'U' ['/', 'S'] e true t₂) :=
            SepHead_replaceWord 'U' ['/', 'S'] e hk0 hsep₂ true
          rw [segs_append e _ hsepX]
          have hX₂ : noTriple (segs (replaceWord 'U' ['/', 'S'] e true t₂)) = true := by
            rcases hsep₂ with h0 | ⟨d₂, t₃, h0, hd₂⟩
            · rw [h0]
              simp [replaceWord, segs_nil, noTriple]
            · have hlen₃ : t₃.length ≤ n := by
                have l1 := congrArg List.length hteq
                have l2 := congrArg List.length h0
                simp only [List.length_cons] at l1 l2 hs
                omega
              rw [h0, replaceWord_sep 'U' ['/', 'S'] e hk0 hd₂, segs_cons_sep hd₂]
              have hY := ih t₃ hlen₃
              have hf : tripleHead ((false, [d₂]) ::
                  segs (replaceWord 'U' ['/', 'S'] e false t₃)) = false :=
                tripleHead_false_of_fst_false _ rfl
              simp [noTriple, hf, hY]
          rw [noTriple_iff_suffix]
          intro S hS
          rcases suffix_append_cases (segs e) _ S hS with h1 | ⟨T, hT1, hT2, rfl⟩
          · exact (noTriple_iff_suffix _).mp hX₂ S h1
          · match T, hT2 with
            | [q], _ =>
              obtain ⟨init, hinit⟩ := hT1
              obtain ⟨hq1, hqU⟩ := goodExp_last hE init q hinit.symm
              rcases q with ⟨bq, uq⟩
              cases bq
              · cases hq1
              · exact tripleHead_false_of_not_U _ hqU
            | [q, q₂], _ =>
              obtain ⟨init, hinit⟩ := hT1
              have hinit' : segs e = (init ++ [q]) ++ [q₂] := by
                rw [← hinit]
                simp
              obtain ⟨hq1, -⟩ := goodExp_last hE (init ++ [q]) q₂ hinit'
              exact tripleHead_false_of_snd_true _ hq1
            | q :: q₂ :: q₃ :: T', _ =>
              rw [tripleHead_append_long (by simp)]
              exact (noTriple_iff_suffix _).mp (goodExp_noTriple hE) _ hT1
      · have hc' : isWordC c = false := by
          cases hv : isWordC c
          · rfl
          · exact absurd hv hc
        have hlen : t.length ≤ n := by
          simp only [List.length_cons] at hs
          omega
        rw [replaceWord_sep 'U' ['/', 'S'] e hk0 hc', segs_cons_sep hc']
        have hY := ih t hlen
        have hf : tripleHead ((false, [c]) ::
            segs (replaceWord 'U' ['/', 'S'] e false t)) = false :=
          tripleHead_false_of_fst_false _ rfl
        simp [noTriple, hf, hY]

theorem noTriple_replaceWord_US (e : List Char) (hE : goodExp (segs e) = true)
    (s : List Char) :
    noTriple (segs (replaceWord 'U' ['/', 'S'] e false s)) = true :=
  noTriple_replaceWord_US_aux e hE s.length s le_rfl

/-! ## Membership corollaries and fold helpers -/

theorem mem_segs_replaceWord (k0 : Char) (krest e : List Char)
    (hkey : ∀ c ∈ k0 :: krest, isWordC c = true) (s : List Char)
    (p : Bool × List Char) (hp : p ∈ segs (replaceWord k0 krest e false s)) :
    (p ∈ segs s ∧ ¬(p.1 = true ∧ ciEq p.2 (k0 :: krest) = true)) ∨ p ∈ segs e := by
  rw [replaceWord_segs k0 krest e hkey] at hp
  rcases List.mem_flatMap.mp hp with ⟨q, hq, hpq⟩
  by_cases hm : q.1 = true ∧ ciEq q.2 (k0 :: krest) = true
  · right
    simpa [expandSeg, hm] using hpq
  · left
    have hpq' : p = q := by
      have : expandSeg (k0 :: krest) (segs e) q = [q] := by
        simp only [expandSeg, if_neg hm]
      rw [this] at hpq
      simpa using hpq
    subst hpq'
    exact ⟨hq, hm⟩

theorem noTriple_replaceWord (k0 : Char) (krest e : List Char)
    (hkey : ∀ c ∈ k0 :: krest, isWordC c = true) (hE : goodExp (segs e) = true)
    (s : List Char) (hs : noTriple (segs s) = true) :
    noTriple (segs (replaceWord k0 krest e false s)) = true := by
  rw [replaceWord_segs k0 krest e hkey]
  exact noTriple_flatMap (k0 :: krest) (segs e) hE (segs s) hs

theorem foldl_id {α β : Type} (f : α → β → α) (L : List β) (s : α)
    (h : ∀ p ∈ L, f s p = s) : L.foldl f s = s := by
  induction L with
  | nil => rfl
  | cons p L' ih =>
    have h1 : f s p = s := h p (by simp)
    simp only [List.foldl_cons, h1]
    exact ih (fun q hq => h q (by simp [hq]))

/-- Characters of a segment belong to the underlying text. -/
theorem mem_of_mem_segs :
    ∀ (s : List Char) (p : Bool × List Char), p ∈ segs s → ∀ c ∈ p.2, c ∈ s := by
  intro s
  induction s with
  | nil =>
    intro p hp
    simp [segs_nil] at hp
  | cons a s' ih =>
    intro p hp c hc
    by_cases ha : isWordC a = true
    · rcases hs' : segs s' with _ | ⟨⟨b, w⟩, tl⟩
      · have hseg : segs (a :: s') = [(true, [a])] := by
          simp [segs, ha, hs']
        rw [hseg] at hp
        rcases List.mem_singleton.mp hp with rfl
        rcases List.mem_singleton.mp hc with rfl
        simp
      · cases b
        · have hseg : segs (a :: s') = (true, [a]) :: (false, w) :: tl := by
            simp [segs, ha, hs']
          rw [hseg] at hp
          rcases List.mem_cons.mp hp with rfl | hp'
          · rcases List.mem_singleton.mp hc with rfl
            simp
          · have : p ∈ segs s' := by
              rw [hs']
              exact hp'
            exact List.mem_cons_of_mem a (ih p this c hc)
        · have hseg : segs (a :: s') = (true, a :: w) :: tl := by
            simp [segs, ha, hs']
          rw [hseg] at hp
          rcases List.mem_cons.mp hp with rfl | hp'
          · rcases List.mem_cons.mp hc with rfl | hc'
            · simp
            · have : (true, w) ∈ segs s' := by
                rw [hs']
                simp
              exact List.mem_cons_of_mem a (ih _ this c hc')
          · have : p ∈ segs s' := by
              rw [hs']
              simp [hp']
            exact List.mem_cons_of_mem a (ih p this c hc)
    · have ha' : isWordC a = false := by
        cases hv : isWordC a
        · rfl
        · exact absurd hv ha
      rw [segs_cons_sep ha'] at hp
      rcases List.mem_cons.mp hp with rfl | hp'
      · rcases List.mem_singleton.mp hc with rfl
        simp
      · exact List.mem_cons_of_mem a (ih p hp' c hc)

/-! ## The segment-level action of whitespace collapsing -/

theorem length_dropWhile_le_gen {α : Type} (p : α → Bool) (l : List α) :
    (l.dropWhile p).length ≤ l.length := by
  induction l with
  | nil => simp
  | cons c cs ih =>
    by_cases hc : p c
    · rw [List.dropWhile_cons_of_pos hc]
      exact Nat.le_succ_of_le ih
    · rw [List.dropWhile_cons_of_neg hc]

/-- A separator segment holding only whitespace. -/
def isSpaceSeg (p : Bool × List Char) : Bool := !p.1 && p.2.all isSpaceC

/-- Segment-level form of `replace(/\s+/g, ' ')`: a maximal run of
whitespace separator segments becomes one space separator. -/
def spaceNorm : List (Bool × List Char) → List (Bool × List Char)
  | [] => []
  | p :: tl =>
    if isSpaceSeg p then (false, [' ']) :: spaceNorm (tl.dropWhile isSpaceSeg)
    else p :: spaceNorm tl
termination_by l => l.length
decreasing_by
  all_goals simp only [List.length_cons]
  all_goals first
    | exact Nat.lt_succ_of_le (length_dropWhile_le_gen _ _)
    | omega

theorem spaceNorm_word (w : List Char) (tl : List (Bool × List Char)) :
    spaceNorm ((true, w) :: tl) = (true, w) :: spaceNorm tl := by
  have h : isSpaceSeg (true, w) = false := by simp [isSpaceSeg]
  simp [spaceNorm, h]

theorem spaceNorm_sep_head (m : List Char) (tl : List (Bool × List Char)) :
    ∃ x X, spaceNorm ((false, m) :: tl) = (false, x) :: X := by
  by_cases h : isSpaceSeg (false, m) = true
  · exact ⟨[' '], spaceNorm (tl.dropWhile isSpaceSeg), by simp [spaceNorm, h]⟩
  · have h' : isSpaceSeg (false, m) = false := by
      cases hv : isSpaceSeg (false, m)
      · rfl
      · exact absurd hv h
    exact ⟨m, spaceNorm tl, by simp [spaceNorm, h']⟩

theorem segs_dropWhile_space (x : List Char) :
    (segs x).dropWhile isSpaceSeg = segs (x.dropWhile isSpaceC) := by
  induction x with
  | nil => simp [segs_nil]
  | cons d x' ih =>
    by_cases hd : isSpaceC d = true
    · have hdw : isWordC d = false := not_isWordC_of_isSpaceC hd
      rw [segs_cons_sep hdw]
      have h1 : isSpaceSeg (false, [d]) = true := by simp [isSpaceSeg, hd]
      rw [List.dropWhile_cons_of_pos h1, List.dropWhile_cons_of_pos hd]
      exact ih
    · have hd' : isSpaceC d = false := by
        cases hv : isSpaceC d
        · rfl
        · exact absurd hv hd
      rw [List.dropWhile_cons_of_neg (by simp [hd'])]
      by_cases hw : isWordC d = true
      · rw [segs_word_head hw]
        rw [List.dropWhile_cons_of_neg (by simp [isSpaceSeg])]
      · have hw' : isWordC d = false := by
          cases hv : isWordC d
          · rfl
          · exact absurd hv hw
        rw [segs_cons_sep hw']
        rw [List.dropWhile_cons_of_neg (by simp [isSpaceSeg, hd'])]

theorem segs_collapseWs :
    ∀ (n : Nat) (z : List Char), z.length ≤ n →
      segs (collapseWs z) = spaceNorm (segs z) := by
  intro n
  induction n with
  | zero =>
    intro z hz
    have hnil : z = [] := by
      cases z
      · rfl
      · simp at hz
    subst hnil
    simp [collapseWs, segs_nil, spaceNorm]
  | succ n ih =>
    intro z hz
    match z with
    | [] => simp [collapseWs, segs_nil, spaceNorm]
    | c :: rest =>
      by_cases hsC : isSpaceC c = true
      · have hcw : isWordC c = false := not_isWordC_of_isSpaceC hsC
        have hcol : collapseWs (c :: rest) = ' ' :: collapseWs (rest.dropWhile isSpaceC) := by
          simp [collapseWs, hsC]
        have hlen : (rest.dropWhile isSpaceC).length ≤ n := by
          have h1 := length_dropWhile_le_self isSpaceC rest
          simp only [List.length_cons] at hz
          omega
        have hspw : isWordC ' ' = false := by decide
        rw [hcol, segs_cons_sep hspw, ih _ hlen, segs_cons_sep hcw]
        have h1 : isSpaceSeg (false, [c]) = true := by simp [isSpaceSeg, hsC]
        rw [show spaceNorm ((false, [c]) :: segs rest) =
          (false, [' ']) :: spaceNorm ((segs rest).dropWhile isSpaceSeg) from by
            simp [spaceNorm, h1]]
        rw [segs_dropWhile_space rest]
      · have hsC' : isSpaceC c = false := by
          cases hv : isSpaceC c
          · rfl
          · exact absurd hv hsC
        have hcol : collapseWs (c :: rest) = c :: collapseWs rest := by
          simp [collapseWs, hsC']
        have hlen : rest.length ≤ n := by
          simp only [List.length_cons] at hz
          omega
        have hCW : segs (collapseWs rest) = spaceNorm (segs rest) := ih rest hlen
        rw [hcol]
        by_cases hw : isWordC c = true
        · rcases hsr : segs rest with _ | ⟨⟨b₁, w₁⟩, tl₁⟩
          · have hrest : rest = [] := by
              cases rest with
              | nil => rfl
              | cons a r' =>
                by_cases haw : isWordC a = true
                · rw [segs_word_head haw] at hsr
                  cases hsr
                · have haw' : isWordC a = false := by
                    cases hv : isWordC a
                    · rfl
                    · exact absurd hv haw
                  rw [segs_cons_sep haw'] at hsr
                  cases hsr
            subst hrest
            have h1 : isSpaceSeg (true, [c]) = false := by simp [isSpaceSeg]
            simp [collapseWs, segs, hw, spaceNorm, segs_nil, h1]
          · cases b₁
            · obtain ⟨x, X, hsn⟩ := spaceNorm_sep_head w₁ tl₁
              have hCW' : segs (collapseWs rest) = (false, x) :: X := by
                rw [hCW, hsr, hsn]
              have hL : segs (c :: collapseWs rest) = (true, [c]) :: (false, x) :: X := by
                simp [segs, hw, hCW']
              have hR : segs (c :: rest) = (true, [c]) :: (false, w₁) :: tl₁ := by
                simp [segs, hw, hsr]
              rw [hL, hR, spaceNorm_word, hsn]
            · have hCW' : segs (collapseWs rest) = (true, w₁) :: spaceNorm tl₁ := by
                rw [hCW, hsr, spaceNorm_word]
              have hL : segs (c :: collapseWs rest) = (true, c :: w₁) :: spaceNorm tl₁ := by
                simp [segs, hw, hCW']
              have hR : segs (c :: rest) = (true, c :: w₁) :: tl₁ := by
                simp [segs, hw, hsr]
              rw [hL, hR, spaceNorm_word]
        · have hw' : isWordC c = false := by
            cases hv : isWordC c
            · rfl
            · exact absurd hv hw
          rw [segs_cons_sep hw', segs_cons_sep hw', hCW]
          have h1 : isSpaceSeg (false, [c]) = false := by simp [isSpaceSeg, hsC']
          rw [show spaceNorm ((false, [c]) :: segs rest) =
            (false, [c]) :: spaceNorm (segs rest) from by simp [spaceNorm, h1]]

theorem noTriple_suffix {L S : List (Bool × List Char)} (h : noTriple L = true)
    (hS : S <:+ L) : noTriple S = true := by
  rw [noTriple_iff_suffix] at h ⊢
  intro S' hS'
  exact h S' (hS'.trans hS)

theorem mem_spaceNorm_word :
    ∀ (n : Nat) (L : List (Bool × List Char)), L.length ≤ n →
      ∀ p ∈ spaceNorm L, p.1 = true → p ∈ L := by
  intro n
  induction n with
  | zero =>
    intro L hlen p hp _
    have hnil : L = [] := by
      cases L
      · rfl
      · simp at hlen
    subst hnil
    simp [spaceNorm] at hp
  | succ n ih =>
    intro L hlen p hp hp1
    match L with
    | [] => simp [spaceNorm] at hp
    | q :: tl =>
      by_cases hsp : isSpaceSeg q = true
      · rw [show spaceNorm (q :: tl) = (false, [' ']) ::
            spaceNorm (tl.dropWhile isSpaceSeg) from by simp [spaceNorm, hsp]] at hp
        rcases List.mem_cons.mp hp with rfl | hp'
        · cases hp1
        · have hlen' : (tl.dropWhile isSpaceSeg).length ≤ n := by
            have h1 := length_dropWhile_le_gen isSpaceSeg tl
            simp only [List.length_cons] at hlen
            omega
          have := ih _ hlen' p hp' hp1
          exact List.mem_cons_of_mem q ((List.dropWhile_sublist isSpaceSeg).subset this)
      · have hsp' : isSpaceSeg q = false := by
          cases hv : isSpaceSeg q
          · rfl
          · exact absurd hv hsp
        rw [show spaceNorm (q :: tl) = q :: spaceNorm tl from by
          simp [spaceNorm, hsp']] at hp
        rcases List.mem_cons.mp hp with rfl | hp'
        · simp
        · have hlen' : tl.length ≤ n := by
            simp only [List.length_cons] at hlen
            omega
          exact List.mem_cons_of_mem q (ih _ hlen' p hp' hp1)

theorem noTriple_spaceNorm :
    ∀ (n : Nat) (L : List (Bool × List Char)), L.length ≤ n →
      noTriple L = true → noTriple (spaceNorm L) = true := by
  intro n
  induction n with
  | zero =>
    intro L hlen hL
    have hnil : L = [] := by
      cases L
      · rfl
      · simp at hlen
    subst hnil
    simp [spaceNorm, noTriple]
  | succ n ih =>
    intro L hlen hL
    match L with
    | [] => simp [spaceNorm, noTriple]
    | p :: tl =>
      by_cases hsp : isSpaceSeg p = true
      · rw [show spaceNorm (p :: tl) = (false, [' ']) ::
            spaceNorm (tl.dropWhile isSpaceSeg) from by simp [spaceNorm, hsp]]
        have hlen' : (tl.dropWhile isSpaceSeg).length ≤ n := by
          have h1 := length_dropWhile_le_gen isSpaceSeg tl
          simp only [List.length_cons] at hlen
          omega
        have hsfx : tl.dropWhile isSpaceSeg <:+ tl := List.dropWhile_suffix isSpaceSeg
        have hrec := ih _ hlen' (noTriple_suffix (noTriple_tail hL) hsfx)
        have hf : tripleHead ((false, [' ']) ::
            spaceNorm (tl.dropWhile isSpaceSeg)) = false :=
          tripleHead_false_of_fst_false _ rfl
        simp [noTriple, hf, hrec]
      · have hsp' : isSpaceSeg p = false := by
          cases hv : isSpaceSeg p
          · rfl
          · exact absurd hv hsp
        rw [show spaceNorm (p :: tl) = p :: spaceNorm tl from by simp [spaceNorm, hsp']]
        have hlen' : tl.length ≤ n := by
          simp only [List.length_cons] at hlen
          omega
        have hrec := ih tl hlen' (noTriple_tail hL)
        have hTH : tripleHead (p :: spaceNorm tl) = false := by
          rcases p with ⟨bp, up⟩
          cases bp
          · exact tripleHead_false_of_fst_false _ rfl
          · by_cases hU : ciEq up ['U'] = true
            · rcases hsn : spaceNorm tl with _ | ⟨⟨b₂, m₂⟩, X₂⟩
              · exact tripleHead_short (by simp)
              · cases b₂
                · by_cases hm₂ : (m₂ == ['/']) = true
                  · have hm₂' : m₂ = ['/'] := by simpa using hm₂
                    subst hm₂'
                    cases tl with
                    | nil => simp [spaceNorm] at hsn
                    | cons q tl₂ =>
                      by_cases hq : isSpaceSeg q = true
                      · rw [show spaceNorm (q :: tl₂) = (false, [' ']) ::
                            spaceNorm (tl₂.dropWhile isSpaceSeg) from by
                            simp [spaceNorm, hq]] at hsn
                        have h1 : ((false, [' ']) : Bool × List Char) = (false, ['/']) :=
                          (List.cons.injEq _ _ _ _ ▸ hsn).1
                        have h2 : ([' '] : List Char) = ['/'] := by
                          have := congrArg Prod.snd h1
                          simpa using this
                        have h3 : (' ' : Char) = '/' := by
                          injection h2
                        exact absurd h3 (by decide)
                      · have hq' : isSpaceSeg q = false := by
                          cases hv : isSpaceSeg q
                          · rfl
                          · exact absurd hv hq
                        rw [show spaceNorm (q :: tl₂) = q :: spaceNorm tl₂ from by
                          simp [spaceNorm, hq']] at hsn
                        have hq1 : q = (false, ['/']) := (List.cons.injEq _ _ _ _ ▸ hsn).1
                        have hX₂ : spaceNorm tl₂ = X₂ := (List.cons.injEq _ _ _ _ ▸ hsn).2
                        rcases hsn₂ : X₂ with _ | ⟨⟨b₃, m₃⟩, X₃⟩
                        · exact tripleHead_short (by simp)
                        · cases b₃
                          · exact tripleHead_false_of_third_false _
                          · by_cases hS : ciEq m₃ ['S'] = true
                            · exfalso
                              rw [hsn₂] at hX₂
                              cases tl₂ with
                              | nil => simp [spaceNorm] at hX₂
                              | cons q₂ tl₃ =>
                                by_cases hq₂ : isSpaceSeg q₂ = true
                                · rw [show spaceNorm (q₂ :: tl₃) = (false, [' ']) ::
                                      spaceNorm (tl₃.dropWhile isSpaceSeg) from by
                                      simp [spaceNorm, hq₂]] at hX₂
                                  have h1 : ((false, [' ']) : Bool × List Char) =
                                      (true, m₃) := (List.cons.injEq _ _ _ _ ▸ hX₂).1
                                  have := congrArg Prod.fst h1
                                  simp at this
                                · have hq₂' : isSpaceSeg q₂ = false := by
                                    cases hv : isSpaceSeg q₂
                                    · rfl
                                    · exact absurd hv hq₂
                                  rw [show spaceNorm (q₂ :: tl₃) = q₂ :: spaceNorm tl₃
                                    from by simp [spaceNorm, hq₂']] at hX₂
                                  have hq₂1 : q₂ = (true, m₃) :=
                                    (List.cons.injEq _ _ _ _ ▸ hX₂).1
                                  have hwin : tripleHead ((true, up) :: q :: q₂ :: tl₃) =
                                      true := by
                                    rw [hq1, hq₂1]
                                    simp [tripleHead, hU, hS]
                                  have := noTriple_head hL
                                  rw [hwin] at this
                                  cases this
                            · have hS' : ciEq m₃ ['S'] = false := by
                                cases hv : ciEq m₃ ['S']
                                · rfl
                                · exact absurd hv hS
                              exact tripleHead_false_of_not_S _ hS'
                  · have hm₂' : (m₂ == ['/']) = false := by
                      cases hv : (m₂ == ['/'])
                      · rfl
                      · exact absurd hv hm₂
                    exact tripleHead_false_of_not_slash _ hm₂'
                · exact tripleHead_false_of_snd_true _ rfl
            · have hU' : ciEq up ['U'] = false := by
                cases hv : ciEq up ['U']
                · rfl
                · exact absurd hv hU
              exact tripleHead_false_of_not_U _ hU'
        simp [noTriple, hTH, hrec]

/-! ## Trimming and upper-casing at the segment level -/

theorem segs_dropWhile_space_suffix (x : List Char) :
    segs (x.dropWhile isSpaceC) <:+ segs x := by
  induction x with
  | nil => simp [segs_nil]
  | cons c x' ih =>
    by_cases hc : isSpaceC c = true
    · rw [List.dropWhile_cons_of_pos (by simp [hc]), segs_cons_sep (not_isWordC_of_isSpaceC hc)]
      exact ih.trans (List.suffix_cons _ _)
    · rw [List.dropWhile_cons_of_neg (by simp [hc])]

theorem trimChars_decomp (x : List Char) :
    x.dropWhile isSpaceC =
      trimChars x ++ ((x.dropWhile isSpaceC).reverse.takeWhile isSpaceC).reverse := by
  have h1 : (x.dropWhile isSpaceC).reverse =
      (x.dropWhile isSpaceC).reverse.takeWhile isSpaceC ++
        (x.dropWhile isSpaceC).reverse.dropWhile isSpaceC := by
    rw [List.takeWhile_append_dropWhile]
  have h2 := congrArg List.reverse h1
  rw [List.reverse_reverse, List.reverse_append] at h2
  exact h2

theorem SepHead_rev_spaces (x : List Char) :
    SepHead ((x.reverse.takeWhile isSpaceC).reverse) := by
  cases hsp : (x.reverse.takeWhile isSpaceC).reverse with
  | nil => exact Or.inl rfl
  | cons d rest =>
    have hd : d ∈ (x.reverse.takeWhile isSpaceC).reverse := by
      rw [hsp]
      simp
    rw [List.mem_reverse] at hd
    have hds : isSpaceC d = true := List.mem_takeWhile_imp hd
    exact Or.inr ⟨d, rest, rfl, not_isWordC_of_isSpaceC hds⟩

theorem segs_trim_split (x : List Char) :
    segs (x.dropWhile isSpaceC) =
      segs (trimChars x) ++
        segs (((x.dropWhile isSpaceC).reverse.takeWhile isSpaceC).reverse) := by
  have h := trimChars_decomp x
  calc segs (x.dropWhile isSpaceC)
      = segs (trimChars x ++
          ((x.dropWhile isSpaceC).reverse.takeWhile isSpaceC).reverse) := by rw [← h]
    _ = _ := segs_append _ _ (SepHead_rev_spaces _)

theorem noTriple_of_append_left {A B : List (Bool × List Char)}
    (h : noTriple (A ++ B) = true) : noTriple A = true := by
  rw [noTriple_iff_suffix] at h ⊢
  intro S hS
  rcases Nat.lt_or_ge S.length 3 with hlen | hlen
  · exact tripleHead_short (by omega)
  · obtain ⟨t, ht⟩ := hS
    have hS' : S ++ B <:+ A ++ B := ⟨t, by rw [← List.append_assoc, ht]⟩
    have := h _ hS'
    rw [tripleHead_append_long hlen] at this
    exact this

theorem mem_segs_trimChars (x : List Char) (p : Bool × List Char)
    (hp : p ∈ segs (trimChars x)) : p ∈ segs x := by
  have h1 : p ∈ segs (x.dropWhile isSpaceC) := by
    rw [segs_trim_split x]
    exact List.mem_append_left _ hp
  exact (segs_dropWhile_space_suffix x).subset h1

theorem noTriple_segs_trimChars (x : List Char) (h : noTriple (segs x) = true) :
    noTriple (segs (trimChars x)) = true := by
  have h1 : noTriple (segs (x.dropWhile isSpaceC)) = true :=
    noTriple_suffix h (segs_dropWhile_space_suffix x)
  rw [segs_trim_split x] at h1
  exact noTriple_of_append_left h1

theorem segs_map_toUpper (x : List Char) :
    segs (x.map Char.toUpper) =
      (segs x).map (fun p => (p.1, p.2.map Char.toUpper)) := by
  induction x with
  | nil => simp [segs_nil]
  | cons c x' ih
 =>
    by_cases hc : isWordC c = true
    · have hcu : isWordC c.toUpper = true := by rw [isWordC_toUpper, hc]
      rcases hsx : segs x' with _ | ⟨⟨b, w⟩, tl⟩
      · rw [hsx] at ih
        have hup : segs (x'.map Char.toUpper) = [] := by
          rw [ih]
          rfl
        simp [segs, hc, hcu, hsx, hup]
      · cases b
        · rw [hsx] at ih
          have hup : segs (x'.map Char.toUpper) =
              (false, w.map Char.toUpper) :: tl.map (fun p => (p.1, p.2.map Char.toUpper)) := by
            rw [ih]
            rfl
          simp [segs, hc, hcu, hsx, hup]
        · rw [hsx] at ih
          have hup : segs (x'.map Char.toUpper) =
              (true, w.map Char.toUpper) :: tl.map (fun p => (p.1, p.2.map Char.toUpper)) := by
            rw [ih]
            rfl
          simp [segs, hc, hcu, hsx, hup]
    · have hc' : isWordC c = false := by
        cases hv : isWordC c
        · rfl
        · exact absurd hv hc
      have hcu : isWordC c.toUpper = false := by rw [isWordC_toUpper, hc']
      rw [show (c :: x').map Char.toUpper = c.toUpper :: x'.map Char.toUpper from rfl,
        segs_cons_sep hcu, segs_cons_sep hc', ih]
      rfl

theorem ciEq_map_toUpper (w k : List Char) :
    ciEq (w.map Char.toUpper) k = ciEq w k := by
  simp only [ciEq, List.map_map]
  have : w.map (Char.toUpper ∘ Char.toUpper) = w.map Char.toUpper := by
    apply List.map_congr_left
    intro c _
    exact toUpper_toUpper c
  rw [this]

theorem map_toUpper_beq_slash (m : List Char) :
    (m.map Char.toUpper == ['/']) = (m == ['/']) := by
  cases hv : m == ['/']
  · cases hw : m.map Char.toUpper == ['/']
    · rfl
    · exfalso
      have h1 : m.map Char.toUpper = ['/'] := by simpa using hw
      have h2 : m = ['/'] := by
        cases m with
        | nil => cases h1
        | cons c m' =>
          cases m' with
          | nil =>
            have hc : c.toUpper = '/' := by injection h1
            rw [(toUpper_eq_slash_iff c).mp hc]
          | cons c₂ m'' =>
            have := congrArg List.length h1
            simp at this
      rw [h2] at hv
      simp at hv
  · have h1 : m = ['/'] := by simpa using hv
    subst h1
    rfl

theorem tripleHead_map_toUpper (L : List (Bool × List Char)) :
    tripleHead (L.map (fun p => (p.1, p.2.map Char.toUpper))) = tripleHead L := by
  match L with
  | [] => rfl
  | [a] =>
    rcases a with ⟨ba, ua⟩
    cases ba <;> rfl
  | [a, b] =>
    rcases a with ⟨ba, ua⟩
    rcases b with ⟨bb, ub⟩
    cases ba <;> cases bb <;> rfl
  | a :: b :: c :: tl =>
    rcases a with ⟨ba, ua⟩
    rcases b with ⟨bb, ub⟩
    rcases c with ⟨bc, uc⟩
    cases ba <;> cases bb <;> cases bc <;>
      simp [tripleHead, ciEq_map_toUpper, map_toUpper_beq_slash]

theorem noTriple_map_toUpper (L : List (Bool × List Char)) (h : noTriple L = true) :
    noTriple (L.map (fun p => (p.1, p.2.map Char.toUpper))) = true := by
  induction L with
  | nil => rfl
  | cons p tl ih =>
    have h1 := noTriple_head h
    have h2 := noTriple_tail h
    rw [show (p :: tl).map (fun p => (p.1, p.2.map Char.toUpper)) =
      (p.1, p.2.map Char.toUpper) :: tl.map (fun p => (p.1, p.2.map Char.toUpper)) from rfl]
    have hTH : tripleHead ((p.1, p.2.map Char.toUpper) ::
        tl.map (fun p => (p.1, p.2.map Char.toUpper))) = false := by
      have := tripleHead_map_toUpper (p :: tl)
      rw [h1] at this
      exact this
    simp [noTriple, hTH, ih h2]

/-! ## Stability of the non-replacement stages on a normalized text -/

theorem collapseWs_space_char :
    ∀ (n : Nat) (z : List Char), z.length ≤ n →
      ∀ c ∈ collapseWs z, isSpaceC c = true → c = ' ' := by
  intro n
  induction n with
  | zero =>
    intro z hz c hc _
    have hnil : z = [] := by
      cases z
      · rfl
      · simp at hz
    subst hnil
    simp [collapseWs] at hc
  | succ n ih =>
    intro z hz c hc hcs
    match z with
    | [] => simp [collapseWs] at hc
    | a :: rest =>
      by_cases ha : isSpaceC a = true
      · rw [show collapseWs (a :: rest) = ' ' ::
            collapseWs (rest.dropWhile isSpaceC) from by simp [collapseWs, ha]] at hc
        rcases List.mem_cons.mp hc with rfl | hc'
        · rfl
        · have hlen : (rest.dropWhile isSpaceC).length ≤ n := by
            have h1 := length_dropWhile_le_self isSpaceC rest
            simp only [List.length_cons] at hz
            omega
          exact ih _ hlen c hc' hcs
      · have ha' : isSpaceC a = false := by
          cases hv : isSpaceC a
          · rfl
          · exact absurd hv ha
        rw [show collapseWs (a :: rest) = a :: collapseWs rest from by
          simp [collapseWs, ha']] at hc
        rcases List.mem_cons.mp hc with rfl | hc'
        · rw [hcs] at ha'
          cases ha'
        · have hlen : rest.length ≤ n := by
            simp only [List.length_cons] at hz
            omega
          exact ih _ hlen c hc' hcs

/-- No two adjacent whitespace characters. -/
def noAdjSpace : List Char → Bool
  | a :: b :: t => (!(isSpaceC a && isSpaceC b)) && noAdjSpace (b :: t)
  | _ => true

theorem noAdjSpace_tail {a : Char} {t : List Char} (h : noAdjSpace (a :: t) = true) :
    noAdjSpace t = true := by
  cases t with
  | nil => rfl
  | cons b t' =>
    simp only [noAdjSpace, Bool.and_eq_true] at h
    exact h.2

theorem noAdjSpace_cons_of_not_space {a : Char} (ha : isSpaceC a = false)
    {t : List Char} (h : noAdjSpace t = true) : noAdjSpace (a :: t) = true := by
  cases t with
  | nil => rfl
  | cons b t' =>
    simp [noAdjSpace, ha, h]

theorem noAdjSpace_append_right {t S : List Char}
    (h : noAdjSpace (t ++ S) = true) : noAdjSpace S = true := by
  induction t with
  | nil => exact h
  | cons a t' ih =>
    exact ih (noAdjSpace_tail h)

theorem noAdjSpace_append_left {A B : List Char}
    (h : noAdjSpace (A ++ B) = true) : noAdjSpace A = true := by
  induction A with
  | nil => rfl
  | cons a A' ih =>
    cases A' with
    | nil => rfl
    | cons a₂ A'' =>
      have h' : noAdjSpace (a :: a₂ :: (A'' ++ B)) = true := h
      simp only [noAdjSpace, Bool.and_eq_true] at h'
      have hrec : noAdjSpace (a₂ :: A'') = true := ih h'.2
      simp [noAdjSpace, hrec, h'.1]

theorem noAdjSpace_map_toUpper (l : List Char) (h : noAdjSpace l = true) :
    noAdjSpace (l.map Char.toUpper) = true := by
  induction l with
  | nil => rfl
  | cons a t ih =>
    cases t with
    | nil => rfl
    | cons b t' =>
      simp only [noAdjSpace, Bool.and_eq_true] at h
      have hrec := ih h.2
      simp only [List.map_cons] at hrec ⊢
      simp only [noAdjSpace, Bool.and_eq_true]
      refine ⟨?_, hrec⟩
      have := h.1
      simpa [isSpaceC_toUpper] using this

theorem noAdjSpace_collapseWs :
    ∀ (n : Nat) (z : List Char), z.length ≤ n → noAdjSpace (collapseWs z) = true := by
  intro n
  induction n with
  | zero =>
    intro z hz
    have hnil : z = [] := by
      cases z
      · rfl
      · simp at hz
    subst hnil
    simp [collapseWs, noAdjSpace]
  | succ n ih =>
    intro z hz
    match z with
    | [] => simp [collapseWs, noAdjSpace]
    | a :: rest =>
      by_cases ha : isSpaceC a = true
      · rw [show collapseWs (a :: rest) = ' ' ::
            collapseWs (rest.dropWhile isSpaceC) from by simp [collapseWs, ha]]
        have hlen : (rest.dropWhile isSpaceC).length ≤ n := by
          have h1 := length_dropWhile_le_self isSpaceC rest
          simp only [List.length_cons] at hz
          omega
        have hrec := ih _ hlen
        cases hdr : rest.dropWhile isSpaceC with
        | nil =>
          simp [collapseWs, noAdjSpace]
        | cons d r' =>
          have hd : isSpaceC d = false := dropWhile_head_not hdr
          rw [hdr] at hrec
          rw [show collapseWs (d :: r') = d :: collapseWs r' from by simp [collapseWs, hd]]
          rw [show collapseWs (d :: r') = d :: collapseWs r' from by
            simp [collapseWs, hd]] at hrec
          simp [noAdjSpace, hd, hrec]
      · have ha' : isSpaceC a = false := by
          cases hv : isSpaceC a
          · rfl
          · exact absurd hv ha
        rw [show collapseWs (a :: rest) = a :: collapseWs rest from by
          simp [collapseWs, ha']]
        have hlen : rest.length ≤ n := by
          simp only [List.length_cons] at hz
          omega
        exact noAdjSpace_cons_of_not_space ha' (ih rest hlen)

theorem collapseWs_id :
    ∀ (n : Nat) (l : List Char), l.length ≤ n →
      (∀ c ∈ l, isSpaceC c = true → c = ' ') → noAdjSpace l = true →
      collapseWs l = l := by
  intro n
  induction n with
  | zero =>
    intro l hl _ _
    have hnil : l = [] := by
      cases l
      · rfl
      · simp at hl
    subst hnil
    simp [collapseWs]
  | succ n ih =>
    intro l hl hclean hadj
    match l with
    | [] => simp [collapseWs]
    | a :: rest =>
      have hlen : rest.length ≤ n := by
        simp only [List.length_cons] at hl
        omega
      by_cases ha : isSpaceC a = true
      · have ha' : a = ' ' := hclean a (by simp) ha
        have hdr : rest.dropWhile isSpaceC = rest := by
          cases rest with
          | nil => rfl
          | cons b rest' =>
            simp only [noAdjSpace, Bool.and_eq_true, ha, Bool.true_and,
              Bool.not_eq_true'] at hadj
            exact List.dropWhile_cons_of_neg (by simp [hadj.1])
        rw [show collapseWs (a :: rest) = ' ' ::
            collapseWs (rest.dropWhile isSpaceC) from by simp [collapseWs, ha], hdr,
          ih rest hlen (fun c hc => hclean c (by simp [hc])) (noAdjSpace_tail hadj), ha']
      · have ha' : isSpaceC a = false := by
          cases hv : isSpaceC a
          · rfl
          · exact absurd hv ha
        rw [show collapseWs (a :: rest) = a :: collapseWs rest from by
          simp [collapseWs, ha'],
          ih rest hlen (fun c hc => hclean c (by simp [hc])) (noAdjSpace_tail hadj)]

theorem mem_trimChars {x : List Char} {c : Char} (hc : c ∈ trimChars x) : c ∈ x := by
  have h1 : c ∈ (x.dropWhile isSpaceC).reverse.dropWhile isSpaceC := by
    rw [← List.mem_reverse]
    exact hc
  have h2 : c ∈ (x.dropWhile isSpaceC).reverse :=
    (List.dropWhile_sublist isSpaceC).subset h1
  rw [List.mem_reverse] at h2
  exact (List.dropWhile_sublist isSpaceC).subset h2

theorem dropWhile_idem (p : Char → Bool) (l : List Char) :
    (l.dropWhile p).dropWhile p = l.dropWhile p := by
  cases h : l.dropWhile p with
  | nil => rfl
  | cons c r => exact List.dropWhile_cons_of_neg (by simp [dropWhile_head_not h])

theorem trimChars_head (w : List Char) :
    trimChars w = [] ∨ ∃ c r, trimChars w = c :: r ∧ isSpaceC c = false := by
  cases hV : (w.dropWhile isSpaceC).reverse.dropWhile isSpaceC with
  | nil =>
    left
    show ((w.dropWhile isSpaceC).reverse.dropWhile isSpaceC).reverse = []
    rw [hV]
    rfl
  | cons v V' =>
    right
    have hne : (w.dropWhile isSpaceC).reverse.dropWhile isSpaceC ≠ [] := by
      rw [hV]
      simp
    obtain ⟨t, ht⟩ := List.dropWhile_suffix (l := (w.dropWhile isSpaceC).reverse)
      (p := isSpaceC)
    have hlast : ((w.dropWhile isSpaceC).reverse.dropWhile isSpaceC).getLast? =
        ((w.dropWhile isSpaceC).reverse).getLast? := by
      conv_rhs => rw [← ht]
      exact (List.getLast?_append_of_ne_nil t hne).symm
    rw [List.getLast?_reverse] at hlast
    have hhead : (trimChars w).head? =
        ((w.dropWhile isSpaceC).reverse.dropWhile isSpaceC).getLast? := by
      show (((w.dropWhile isSpaceC).reverse.dropWhile isSpaceC).reverse).head? = _
      exact List.head?_reverse _
    rw [hlast] at hhead
    cases hdw : w.dropWhile isSpaceC with
    | nil =>
      exfalso
      rw [hdw] at hV
      simp at hV
    | cons d r =>
      have hds : isSpaceC d = false := dropWhile_head_not hdw
      rw [hdw] at hhead
      simp only [List.head?_cons] at hhead
      cases htc : trimChars w with
      | nil =>
        rw [htc] at hhead
        cases hhead
      | cons c' r' =>
        rw [htc] at hhead
        simp only [List.head?_cons, Option.some.injEq] at hhead
        exact ⟨c', r', rfl, by rw [hhead]; exact hds⟩

theorem trimChars_trimChars (w : List Char) :
    trimChars (trimChars w) = trimChars w := by
  have h1 : (trimChars w).dropWhile isSpaceC = trimChars w := by
    rcases trimChars_head w with h0 | ⟨c, r, h0, hcs⟩
    · rw [h0]
      rfl
    · rw [h0]
      exact List.dropWhile_cons_of_neg (by simp [hcs])
  show (((trimChars w).dropWhile isSpaceC).reverse.dropWhile isSpaceC).reverse = trimChars w
  rw [h1]
  show (((((w.dropWhile isSpaceC).reverse.dropWhile isSpaceC).reverse)).reverse.dropWhile
    isSpaceC).reverse = trimChars w
  rw [List.reverse_reverse, dropWhile_idem]
  rfl

/-! ## Invariants of the abbreviation fold -/

theorem fold_preserves (key : List Char) :
    ∀ (AB : List (String × String)),
      (∀ p ∈ AB, (p.1.toList ≠ [] ∧ ∀ c ∈ p.1.toList, isWordC c = true) ∨ p.1 = "U/S") →
      (∀ p ∈ AB, ∀ w, (true, w) ∈ segs p.2.toList → ciEq w key = false) →
      ∀ s, (∀ w, (true, w) ∈ segs s → ciEq w key = false) →
        ∀ w, (true, w) ∈ segs (AB.foldl applyAbbrev s) → ciEq w key = false := by
  intro AB
  induction AB with
  | nil =>
    intro _ _ s hs w hw
    exact hs w hw
  | cons p AB' ih =>
    intro hok hexp s hs w hw
    simp only [List.foldl_cons] at hw
    refine ih (fun q hq => hok q (by simp [hq])) (fun q hq => hexp q (by simp [hq]))
      (applyAbbrev s p) ?_ w hw
    intro w' hw'
    rcases p with ⟨k, e⟩
    rcases hok (k, e) (by simp) with ⟨hne, hword⟩ | hUS
    · cases hkl : k.toList with
      | nil => exact absurd hkl hne
      | cons k0 krest =>
        have happly : applyAbbrev s (k, e) = replaceWord k0 krest e.toList false s := by
          have hkl' : k.data = k0 :: krest := hkl
          simp [applyAbbrev, hkl']
        rw [happly] at hw'
        have hkey : ∀ c ∈ k0 :: krest, isWordC c = true := by
          intro c hc
          exact hword c (by rw [hkl]; exact hc)
        rcases mem_segs_replaceWord k0 krest e.toList hkey s _ hw' with ⟨hmem, -⟩ | hin
        · exact hs w' hmem
        · exact hexp (k, e) (by simp) w' hin
    · simp only at hUS
      subst hUS
      have happly : applyAbbrev s ("U/S", e) =
          replaceWord 'U' ['/', 'S'] e.toList false s := rfl
      rw [happly] at hw'
      rcases mem_segs_replaceWord_US e.toList s _ hw' with hmem | hin
      · exact hs w' hmem
      · exact hexp ("U/S", e) (by simp) w' hin

theorem fold_clears (key : List Char) :
    ∀ (AB : List (String × String)),
      (∀ p ∈ AB, (p.1.toList ≠ [] ∧ ∀ c ∈ p.1.toList, isWordC c = true) ∨ p.1 = "U/S") →
      (∀ p ∈ AB, ∀ w, (true, w) ∈ segs p.2.toList → ciEq w key = false) →
      (∃ q ∈ AB, q.1.toList = key) →
      (∀ c ∈ key, isWordC c = true) → key ≠ [] →
      ∀ s w, (true, w) ∈ segs (AB.foldl applyAbbrev s) → ciEq w key = false := by
  intro AB
  induction AB with
  | nil =>
    rintro _ _ ⟨q, hq, -⟩
    simp at hq
  | cons p AB' ih =>
    rintro hok hexp ⟨q, hq, hqkey⟩ hkw hkne s w hw
    simp only [List.foldl_cons] at hw
    by_cases hqp : q = p
    · subst hqp
      refine fold_preserves key AB' (fun r hr => hok r (by simp [hr]))
        (fun r hr => hexp r (by simp [hr])) (applyAbbrev s q) ?_ w hw
      intro w' hw'
      cases hkey0 : key with
      | nil => exact absurd hkey0 hkne
      | cons k0 krest =>
        rcases q with ⟨kq, eq⟩
        have happly : applyAbbrev s (kq, eq) = replaceWord k0 krest eq.toList false s := by
          simp only at hqkey
          have hkl' : kq.data = k0 :: krest := by
            rw [← hkey0]
            exact hqkey
          simp [applyAbbrev, hkl']
        rw [happly] at hw'
        have hkeyw : ∀ c ∈ k0 :: krest, isWordC c = true := by
          intro c hc
          rw [← hkey0] at hc
          exact hkw c hc
        rcases mem_segs_replaceWord k0 krest eq.toList hkeyw s _ hw' with ⟨-, hnot⟩ | hin
        · cases hv : ciEq w' (k0 :: krest)
          · rfl
          · exact absurd ⟨rfl, hv⟩ hnot
        · have := hexp (kq, eq) (by simp) w' hin
          rw [hkey0] at this
          exact this
    · have hq' : q ∈ AB' := by
        rcases List.mem_cons.mp hq with h | h
        · exact absurd h hqp
        · exact h
      exact ih (fun r hr => hok r (by simp [hr])) (fun r hr => hexp r (by simp [hr]))
        ⟨q, hq', hqkey⟩ hkw hkne (applyAbbrev s p) w hw

theorem fold_noTriple (AB : List (String × String))
    (hok : ∀ p ∈ AB, p.1.toList ≠ [] ∧ ∀ c ∈ p.1.toList, isWordC c = true)
    (hexp : ∀ p ∈ AB, goodExp (segs p.2.toList) = true) :
    ∀ s, noTriple (segs s) = true →
      noTriple (segs (AB.foldl applyAbbrev s)) = true := by
  induction AB with
  | nil =>
    intro s hs
    exact hs
  | cons p AB' ih =>
    intro s hs
    simp only [List.foldl_cons]
    refine ih (fun r hr => hok r (by simp [hr])) (fun r hr => hexp r (by simp [hr]))
      (applyAbbrev s p) ?_
    rcases p with ⟨k, e⟩
    obtain ⟨hne, hword⟩ := hok (k, e) (by simp)
    cases hkl : k.toList with
    | nil => exact absurd hkl hne
    | cons k0 krest =>
      have happly : applyAbbrev s (k, e) = replaceWord k0 krest e.toList false s := by
        have hkl' : k.data = k0 :: krest := hkl
        simp [applyAbbrev, hkl']
      rw [happly]
      have hkey : ∀ c ∈ k0 :: krest, isWordC c = true := by
        intro c hc
        exact hword c (by rw [hkl]; exact hc)
      exact noTriple_replaceWord k0 krest e.toList hkey
        (hexp (k, e) (by simp)) s hs

/-! ## Dictionary facts (established by computation) -/

theorem abbrev_ok_check :
    ∀ p ∈ abbreviations,
      (p.1.toList ≠ [] ∧ ∀ c ∈ p.1.toList, isWordC c = true) ∨ p.1 = "U/S" := by
  have h : abbreviations.all
      (fun p => (!p.1.toList.isEmpty && p.1.toList.all isWordC) || (p.1 == "U/S")) = true := by
    decide
  intro p hp
  have h0 := List.all_eq_true.mp h p hp
  simp only [Bool.or_eq_true, Bool.and_eq_true, beq_iff_eq] at h0
  rcases h0 with ⟨h1, h2⟩ | h3
  · left
    refine ⟨?_, fun c hc => List.all_eq_true.mp h2 c hc⟩
    intro hnil
    rw [hnil] at h1
    simp at h1
  · right
    exact h3

theorem abbrev_runs_check :
    ∀ kp ∈ abbreviations, kp.1 ≠ "TRUE" → kp.1 ≠ "U/S" →
      ∀ p ∈ abbreviations, ∀ w, (true, w) ∈ segs p.2.toList →
        ciEq w kp.1.toList = false := by
  have h : abbreviations.all (fun kp => (kp.1 == "TRUE") || (kp.1 == "U/S") ||
      abbreviations.all (fun p => (segs p.2.toList).all
        (fun q => !q.1 || !(ciEq q.2 kp.1.toList)))) = true := by decide
  intro kp hkp hT hU p hp w hw
  have h1 := List.all_eq_true.mp h kp hkp
  simp only [Bool.or_eq_true, beq_iff_eq] at h1
  rcases h1 with (hT' | hU') | h2
  · exact absurd hT' hT
  · exact absurd hU' hU
  · have h3 := List.all_eq_true.mp h2 p hp
    have h4 := List.all_eq_true.mp h3 (true, w) hw
    simp only [Bool.or_eq_true, Bool.not_eq_true'] at h4
    rcases h4 with h5 | h5
    · cases h5
    · exact h5

theorem abbrev_after_US_check :
    ∀ p ∈ abbreviations.drop 39,
      (p.1.toList ≠ [] ∧ ∀ c ∈ p.1.toList, isWordC c = true) ∧
        goodExp (segs p.2.toList) = true := by
  have h : (abbreviations.drop 39).all
      (fun p => ((!p.1.toList.isEmpty && p.1.toList.all isWordC) &&
        goodExp (segs p.2.toList))) = true := by decide
  intro p hp
  have h0 := List.all_eq_true.mp h p hp
  simp only [Bool.and_eq_true] at h0
  refine ⟨⟨?_, fun c hc => List.all_eq_true.mp h0.1.2 c hc⟩, h0.2⟩
  intro hnil
  have := h0.1.1
  rw [hnil] at this
  simp at this

theorem abbrev_US_split :
    abbreviations =
      abbreviations.take 38 ++ ("U/S", "UNSERVICEABLE") :: abbreviations.drop 39 := by
  decide

theorem goodExp_UNSERVICEABLE : goodExp (segs "UNSERVICEABLE".toList) = true := by decide

theorem abbrev_TRUE_check : ∀ p ∈ abbreviations, p.1 = "TRUE" → p.2 = "TRUE" := by
  have h : abbreviations.all (fun p => !(p.1 == "TRUE") || (p.2 == "TRUE")) = true := by
    decide
  intro p hp hp1
  have h0 := List.all_eq_true.mp h p hp
  simp only [Bool.or_eq_true, Bool.not_eq_true', beq_iff_eq, beq_eq_false_iff_ne] at h0
  rcases h0 with h1 | h1
  · exact absurd hp1 h1
  · exact h1

/-! ## The invariants of the fold output -/

theorem replaceAllAbbrev_INV1 (t2 : List Char) (kp : String × String)
    (hkp : kp ∈ abbreviations) (hT : kp.1 ≠ "TRUE") (hU : kp.1 ≠ "U/S") :
    ∀ w, (true, w) ∈ segs (replaceAllAbbrev t2) → ciEq w kp.1.toList = false := by
  intro w hw
  have hkw : kp.1.toList ≠ [] ∧ ∀ c ∈ kp.1.toList, isWordC c = true := by
    rcases abbrev_ok_check kp hkp with h | h
    · exact h
    · exact absurd h hU
  exact fold_clears kp.1.toList abbreviations abbrev_ok_check
    (fun p hp => abbrev_runs_check kp hkp hT hU p hp)
    ⟨kp, hkp, rfl⟩ hkw.2 hkw.1 t2 w hw

theorem replaceAllAbbrev_noTriple (t2 : List Char) :
    noTriple (segs (replaceAllAbbrev t2)) = true := by
  show noTriple (segs (abbreviations.foldl applyAbbrev t2)) = true
  rw [abbrev_US_split, List.foldl_append]
  simp only [List.foldl_cons]
  have hUSapp : applyAbbrev (abbreviations.take 38 |>.foldl applyAbbrev t2)
      ("U/S", "UNSERVICEABLE") =
      replaceWord 'U' ['/', 'S'] "UNSERVICEABLE".toList false
        (abbreviations.take 38 |>.foldl applyAbbrev t2) := rfl
  rw [hUSapp]
  refine fold_noTriple (abbreviations.drop 39)
    (fun p hp => (abbrev_after_US_check p hp).1)
    (fun p hp => (abbrev_after_US_check p hp).2) _ ?_
  exact noTriple_replaceWord_US _ goodExp_UNSERVICEABLE _

/-! ## Transport of the invariants to the normalized output -/

theorem y_INV1 (t3 : List Char) (key : List Char)
    (h3 : ∀ w, (true, w) ∈ segs t3 → ciEq w key = false) :
    ∀ w, (true, w) ∈ segs ((trimChars (collapseWs t3)).map Char.toUpper) →
      ciEq w key = false := by
  intro w hw
  rw [segs_map_toUpper] at hw
  rcases List.mem_map.mp hw with ⟨⟨b, w'⟩, hmem, heq⟩
  have hb : b = true := by
    have := congrArg Prod.fst heq
    simpa using this
  have hw' : w'.map Char.toUpper = w := by
    have := congrArg Prod.snd heq
    simpa using this
  subst hb
  rw [← hw', ciEq_map_toUpper]
  have h1 : (true, w') ∈ segs (collapseWs t3) := mem_segs_trimChars _ _ hmem
  rw [segs_collapseWs t3.length t3 le_rfl] at h1
  exact h3 w' (mem_spaceNorm_word (segs t3).length (segs t3) le_rfl _ h1 rfl)

theorem y_noTriple (t3 : List Char) (h : noTriple (segs t3) = true) :
    noTriple (segs ((trimChars (collapseWs t3)).map Char.toUpper)) = true := by
  rw [segs_map_toUpper]
  apply noTriple_map_toUpper
  apply noTriple_segs_trimChars
  rw [segs_collapseWs t3.length t3 le_rfl]
  exact noTriple_spaceNorm (segs t3).length _ le_rfl h

theorem y_clean (t3 : List Char) :
    ∀ c ∈ (trimChars (collapseWs t3)).map Char.toUpper, isSpaceC c = true → c = ' ' := by
  intro c hc hcs
  rcases List.mem_map.mp hc with ⟨d, hd, rfl⟩
  have hd2 : d ∈ collapseWs t3 := mem_trimChars hd
  have hds : isSpaceC d = true := by rwa [isSpaceC_toUpper] at hcs
  have hd' : d = ' ' := collapseWs_space_char t3.length t3 le_rfl d hd2 hds
  rw [hd']
  decide

theorem y_noAdj (t3 : List Char) :
    noAdjSpace ((trimChars (collapseWs t3)).map Char.toUpper) = true := by
  apply noAdjSpace_map_toUpper
  have h1 : noAdjSpace (collapseWs t3) = true := noAdjSpace_collapseWs t3.length t3 le_rfl
  obtain ⟨t, ht⟩ := List.dropWhile_suffix (l := collapseWs t3) (p := isSpaceC)
  have h2 : noAdjSpace ((collapseWs t3).dropWhile isSpaceC) = true := by
    rw [← ht] at h1
    exact noAdjSpace_append_right h1
  rw [trimChars_decomp (collapseWs t3)] at h2
  exact noAdjSpace_append_left h2

theorem y_upper (t3 : List Char) :
    ∀ c ∈ (trimChars (collapseWs t3)).map Char.toUpper, c.toUpper = c := by
  intro c hc
  rcases List.mem_map.mp hc with ⟨d, -, rfl⟩
  exact toUpper_toUpper d

/-! ## The second pass is the identity on a normalized text -/

theorem map_id_of_fixed {f : Char → Char} {y : List Char} (h : ∀ c ∈ y, f c = c) :
    y.map f = y := by
  have h1 : y.map f = y.map id := List.map_congr_left (fun c hc => h c hc)
  simpa using h1

theorem map_nl_id (y : List Char) (hclean : ∀ c ∈ y, isSpaceC c = true → c = ' ') :
    y.map (fun c => if c = '\n' then ' ' else c) = y := by
  refine map_id_of_fixed ?_
  intro c hc
  by_cases hcn : c = '\n'
  · subst hcn
    have := hclean '\n' hc (by decide)
    exact absurd this (by decide)
  · rw [if_neg hcn]

theorem dropWhile_space_map (l : List Char) :
    (l.map Char.toUpper).dropWhile isSpaceC = (l.dropWhile isSpaceC).map Char.toUpper := by
  induction l with
  | nil => rfl
  | cons c l' ih =>
    by_cases hc : isSpaceC c = true
    · rw [List.map_cons,
        List.dropWhile_cons_of_pos (by simp [isSpaceC_toUpper, hc]),
        List.dropWhile_cons_of_pos (by simp [hc])]
      exact ih
    · have hc' : isSpaceC c = false := by
        cases hv : isSpaceC c
        · rfl
        · exact absurd hv hc
      rw [List.map_cons,
        List.dropWhile_cons_of_neg (by simp [isSpaceC_toUpper, hc']),
        List.dropWhile_cons_of_neg (by simp [hc']),
        List.map_cons]

theorem trimChars_map_toUpper (l : List Char) :
    trimChars (l.map Char.toUpper) = (trimChars l).map Char.toUpper := by
  show ((((l.map Char.toUpper).dropWhile isSpaceC).reverse).dropWhile isSpaceC).reverse = _
  rw [dropWhile_space_map, ← List.map_reverse, dropWhile_space_map, ← List.map_reverse]
  rfl

theorem trimChars_y_id (t3 : List Char) :
    trimChars ((trimChars (collapseWs t3)).map Char.toUpper) =
      (trimChars (collapseWs t3)).map Char.toUpper := by
  rw [trimChars_map_toUpper, trimChars_trimChars]

theorem ciEq_upper_eq {w k : List Char} (hwu : ∀ c ∈ w, c.toUpper = c)
    (h : ciEq w k = true) : w = k.map Char.toUpper := by
  have h1 : w.map Char.toUpper = k.map Char.toUpper := by
    simpa [ciEq] using h
  have h2 : w.map Char.toUpper = w := map_id_of_fixed hwu
  rw [← h2, h1]

theorem replaceAllAbbrev_id_on_y (y : List Char)
    (hINV1 : ∀ kp ∈ abbreviations, kp.1 ≠ "TRUE" → kp.1 ≠ "U/S" →
      ∀ w, (true, w) ∈ segs y → ciEq w kp.1.toList = false)
    (hNT : noTriple (segs y) = true)
    (hup : ∀ c ∈ y, c.toUpper = c) :
    replaceAllAbbrev y = y := by
  refine foldl_id applyAbbrev abbreviations y ?_
  intro p hp
  rcases p with ⟨k, e⟩
  by_cases hU : k = "U/S"
  · subst hU
    have happ : applyAbbrev y ("U/S", e) = replaceWord 'U' ['/', 'S'] e.toList false y := rfl
    rw [happ]
    exact replaceWord_US_id e.toList y hNT
  · by_cases hT : k = "TRUE"
    · subst hT
      have he : e = "TRUE" := abbrev_TRUE_check ("TRUE", e) hp rfl
      subst he
      have happ : applyAbbrev y ("TRUE", "TRUE") =
          replaceWord 'T' ['R', 'U', 'E'] ['T', 'R', 'U', 'E'] false y := rfl
      rw [happ]
      refine replaceWord_id 'T' ['R', 'U', 'E'] ['T', 'R', 'U', 'E'] (by decide) y ?_
      intro w hw hci
      have hwu : ∀ c ∈ w, c.toUpper = c :=
        fun c hc => hup c (mem_of_mem_segs y _ hw c hc)
      rw [ciEq_upper_eq hwu hci]
      decide
    · have hkw : k.toList ≠ [] ∧ ∀ c ∈ k.toList, isWordC c = true := by
        rcases abbrev_ok_check (k, e) hp with h | h
        · exact h
        · exact absurd h hU
      cases hkl : k.toList with
      | nil => exact absurd hkl hkw.1
      | cons k0 krest =>
        have happ : applyAbbrev y (k, e) = replaceWord k0 krest e.toList false y := by
          have hkl' : k.data = k0 :: krest := hkl
          simp [applyAbbrev, hkl']
        rw [happ]
        refine replaceWord_id k0 krest e.toList
          (fun c hc => hkw.2 c (by rw [hkl]; exact hc)) y ?_
        intro w hw hci
        exfalso
        have hfalse := hINV1 (k, e) hp hT hU w hw
        rw [hkl] at hfalse
        rw [hfalse] at hci
        cases hci

theorem parseText_fixed (t3 : List Char)
    (hINV1 : ∀ kp ∈ abbreviations, kp.1 ≠ "TRUE" → kp.1 ≠ "U/S" →
      ∀ w, (true, w) ∈ segs t3 → ciEq w kp.1.toList = false)
    (hNT : noTriple (segs t3) = true) :
    parseText (String.mk ((trimChars (collapseWs t3)).map Char.toUpper)) =
      String.mk ((trimChars (collapseWs t3)).map Char.toUpper) := by
  by_cases hy : (trimChars (collapseWs t3)).map Char.toUpper = []
  · rw [hy]
    rfl
  · have hyne : String.mk ((trimChars (collapseWs t3)).map Char.toUpper) ≠ "" := by
      intro h
      have h2 := congrArg String.data h
      exact hy h2
    have hunfold : parseText (String.mk ((trimChars (collapseWs t3)).map Char.toUpper)) =
        String.mk ((trimChars (collapseWs (replaceAllAbbrev (trimChars
          (((trimChars (collapseWs t3)).map Char.toUpper).map
            (fun c => if c = '\n' then ' ' else c)))))).map Char.toUpper) := by
      show (if String.mk ((trimChars (collapseWs t3)).map Char.toUpper) = "" then ""
        else _) = _
      rw [if_neg hyne]
      rfl
    rw [hunfold]
    have hclean := y_clean t3
    have hnoAdj := y_noAdj t3
    have hup := y_upper t3
    rw [map_nl_id _ hclean, trimChars_y_id t3,
      replaceAllAbbrev_id_on_y _
        (fun kp hkp hT hU => y_INV1 t3 kp.1.toList (hINV1 kp hkp hT hU))
        (y_noTriple t3 hNT) hup,
      collapseWs_id ((trimChars (collapseWs t3)).map Char.toUpper).length _ le_rfl
        hclean hnoAdj,
      trimChars_y_id t3, map_id_of_fixed hup]

/-- C7: the NOTAM text normalizer `parseText` is idempotent: applying it to
its own output returns that output unchanged.  In particular it is idempotent
after a single pass on every input, including the inputs without overlapping
abbreviation-key occurrences that the specification singles out. -/
theorem C7_parseText_idempotent (s : String) :
    parseText (parseText s) = parseText s := by
  by_cases hs : s = ""
  · subst hs
    rfl
  · have hPT : parseText s = String.mk ((trimChars (collapseWs (replaceAllAbbrev
        (trimChars (s.toList.map (fun c => if c = '\n' then ' ' else c)))))).map
          Char.toUpper) := by
      show (if s = "" then "" else _) = _
      rw [if_neg hs]
    rw [hPT]
    exact parseText_fixed _
      (fun kp hkp hT hU => replaceAllAbbrev_INV1 _ kp hkp hT hU)
      (replaceAllAbbrev_noTriple _)
